import Mathlib

/-! # Evaluator core of the tree-walking interpreter (`src/Evalvisitor.cpp`)

A shallow embedding of the `BigInt` class (decimal digit string plus sign flag), of
the `Value` class, of the variable environment of `EvalVisitor` and of its visitor
methods, followed by theorems about them.

Modelling conventions.
* `std::string` is a `List Char`; a character is identified with its code, so
  `c - '0'` is `c.toNat - 48` computed in `Int`, and `char('0' + x)` keeps the
  low eight bits of `48 + x`.
* `int` variables of the digit loops are `Int`; `/` and `%` on them are the
  truncating `Int.tdiv` and `Int.tmod` of C++.  Their values stay far below
  `2^31` for strings of fewer than `2^31` characters, so no wrap is modelled
  there.  `long long` negation in `BigInt(long long)` wraps modulo `2^64`.
* Index loops that walk a string from its last character to its first are
  recursions over the reversed string.
* A `while` loop whose trip count is not bounded by the shape of its inputs takes
  a `fuel` argument bounding the number of times its condition is evaluated, and
  reports `Fault.out_of_fuel` when the bound is reached.
* `throw std::runtime_error(msg)` is `Except.error (Fault.runtime_error msg)`.
* A visitor method takes the recursive entry point `visit` as an argument and returns
  the outcome (a value, or the exception thrown, as a `Signal`) together with the state
  in which it ended; `visit` itself recurses on a fuel that bounds the nesting of visits
  and the iterations of `while`.
* The parser is not part of the sources: the syntax tree types follow the parser
  contract, and `double` and the fragment parser are parameters (`Host`).
-/

namespace Evalvisitor

/-! ## Faults -/

/-- Abnormal outcomes: a thrown `std::runtime_error`, a loop or recursion that did not
finish within the fuel it was given, or another failure of the host (an exception of
the standard library, an access through a null pointer or past the end of a vector). -/
inductive Fault where
  | runtime_error (msg : String)
  | out_of_fuel
  | host (what : String)
  deriving DecidableEq, Repr

deriving instance DecidableEq for Except

/-! ## Character and string primitives -/

/-- The C++ expression `c - '0'`. -/
def digitOf (c : Char) : Int := (c.toNat : Int) - 48

/-- The C++ expression `char('0' + x)`. -/
def charOf (x : Int) : Char := Char.ofNat ((48 + x) % 256).toNat

/-- The suffix `s.substr(s.find_first_not_of('0'))`, empty when every character is `'0'`
(`find_first_not_of` returned `npos`). -/
def dropZeros (s : List Char) : List Char := s.dropWhile (fun c => c == '0')

/-- The idiom `pos = s.find_first_not_of('0'); pos == npos ? "0" : s.substr(pos)`. -/
def stripZeros (s : List Char) : List Char :=
  match dropZeros s with
  | [] => ['0']
  | v :: vs => v :: vs

/-- The function `std::to_string` on a non-negative argument. -/
def natToString (n : Nat) : List Char := Nat.toDigits 10 n

/-- The function `std::to_string` on a signed integer. -/
def to_string (n : Int) : List Char :=
  if n < 0 then '-' :: natToString n.natAbs else natToString n.toNat

/-- Two's complement wrap of a `long long` result. -/
def wrap64 (x : Int) : Int := (x + 2 ^ 63) % 2 ^ 64 - 2 ^ 63

/-! ## BigInt -/

/-- The class `BigInt`: fields `value` and `negative`. -/
structure BigInt where
  value : List Char
  negative : Bool
  deriving DecidableEq, Repr

namespace BigInt

/-- The method `BigInt::normalize`. -/
def normalize (x : BigInt) : BigInt :=
  let x1 : BigInt :=
    match dropZeros x.value with
    | [] => { value := ['0'], negative := false }
    | v :: vs => { value := v :: vs, negative := x.negative }
  if x1.value = ['0'] then { x1 with negative := false } else x1

/-- The constructor `BigInt::BigInt()`. -/
def zero : BigInt := { value := ['0'], negative := false }

/-- The constructor `BigInt::BigInt(const std::string&)`. -/
def ofString (s : List Char) : BigInt :=
  if s = [] ∨ s = ['-'] then { value := ['0'], negative := false }
  else
    let negative : Bool := s.head? == some '-'
    let start : Nat := if s.head? = some '-' then 1 else if s.head? = some '+' then 1 else 0
    normalize { value := s.drop start, negative := negative }

/-- The constructor `BigInt::BigInt(long long)`; `n` is the argument as an integer
in the `long long` range. -/
def ofLongLong (n : Int) : BigInt :=
  if n < 0 then normalize { value := to_string (wrap64 (-n)), negative := true }
  else normalize { value := to_string n, negative := false }

/-- The constructor `BigInt::BigInt(int)`, which delegates to `BigInt(long long)`. -/
def ofInt (n : Int) : BigInt := ofLongLong n

/-- The tail of the loop of `addStrings`, entered when both strings are used up:
it runs while `carry` is non-zero.  Every iteration replaces `carry` by
`carry / 10`, so `|carry|` iterations always suffice; that is the fuel. -/
def addCarry : Nat → Int → List Char → List Char
  | 0, _, result => result
  | fuel + 1, carry, result =>
    if carry = 0 then result
    else
      let sum := carry
      addCarry fuel (sum.tdiv 10) (charOf (sum.tmod 10) :: result)

/-- The loop of `addStrings` once `i < 0`: only `b` still has characters.
The argument `rb` is `b[0..j]` reversed. -/
def addLoopB : List Char → Int → List Char → List Char
  | [], carry, result => addCarry carry.natAbs carry result
  | y :: rb, carry, result =>
    let sum := carry + digitOf y
    addLoopB rb (sum.tdiv 10) (charOf (sum.tmod 10) :: result)

/-- The loop of `addStrings`.  The arguments `ra` and `rb` are `a[0..i]` and
`b[0..j]` reversed. -/
def addLoop : List Char → List Char → Int → List Char → List Char
  | [], rb, carry, result => addLoopB rb carry result
  | x :: ra, [], carry, result =>
    let sum := carry + digitOf x
    addLoop ra [] (sum.tdiv 10) (charOf (sum.tmod 10) :: result)
  | x :: ra, y :: rb, carry, result =>
    let sum := carry + digitOf x + digitOf y
    addLoop ra rb (sum.tdiv 10) (charOf (sum.tmod 10) :: result)

/-- The function `BigInt::addStrings`. -/
def addStrings (a b : List Char) : List Char :=
  addLoop a.reverse b.reverse 0 []

/-- The loop of `subtractStrings`; `ra` and `rb` are `a[0..i]` and `b[0..j]` reversed. -/
def subLoop : List Char → List Char → Int → List Char → List Char
  | [], _, _, result => result
  | x :: ra, rb, borrow, result =>
    let diff0 := digitOf x - borrow
    let diff1 := match rb with
      | [] => diff0
      | y :: _ => diff0 - digitOf y
    let diff := if diff1 < 0 then diff1 + 10 else diff1
    let borrow1 : Int := if diff1 < 0 then 1 else 0
    subLoop ra rb.tail borrow1 (charOf diff :: result)

/-- The function `BigInt::subtractStrings`. -/
def subtractStrings (a b : List Char) : List Char :=
  let result := subLoop a.reverse b.reverse 0 []
  stripZeros result

/-- The inner loop of `multiplyStrings` for a fixed `i`: the first argument is
`j + 1`, so `j` runs from `m - 1` down to `0`. -/
def mulInner (a b : List Char) (i : Nat) : Nat → List Int → List Int
  | 0, result => result
  | j + 1, result =>
    let mul := digitOf (a.getD i '0') * digitOf (b.getD j '0')
    let p1 := i + j
    let p2 := i + j + 1
    let sum := mul + result.getD p2 0
    let result := result.set p2 (sum.tmod 10)
    let result := result.set p1 (result.getD p1 0 + sum.tdiv 10)
    mulInner a b i j result

/-- The outer loop of `multiplyStrings`: the first argument is `i + 1`. -/
def mulOuter (a b : List Char) : Nat → List Int → List Int
  | 0, result => result
  | i + 1, result => mulOuter a b i (mulInner a b i b.length result)

/-- The function `BigInt::multiplyStrings`. -/
def multiplyStrings (a b : List Char) : List Char :=
  let result := mulOuter a b a.length (List.replicate (a.length + b.length) (0 : Int))
  let str := result.foldl
    (fun (str : List Char) (i : Int) => if str = [] ∧ i = 0 then str else str ++ [charOf i]) []
  if str = [] then ['0'] else str

/-- The three-way result of `std::string::compare`, reduced to its sign. -/
def compareBytes : List Char → List Char → Int
  | [], [] => 0
  | [], _ :: _ => -1
  | _ :: _, [] => 1
  | x :: xs, y :: ys =>
    if x.toNat < y.toNat then -1 else if y.toNat < x.toNat then 1 else compareBytes xs ys

/-- The function `BigInt::compareStrings`. -/
def compareStrings (a b : List Char) : Int :=
  if a.length ≠ b.length then (if a.length > b.length then 1 else -1)
  else compareBytes a b

/-- The inner `while` loop of `divideStrings`; `none` when the fuel runs out. -/
def divWhile (b : List Char) : Nat → List Char → Int → Option (List Char × Int)
  | 0, _, _ => none
  | fuel + 1, remainder, count =>
    if compareStrings remainder b ≥ 0 then
      divWhile b fuel (subtractStrings remainder b) (count + 1)
    else some (remainder, count)

/-- The `for` loop of `divideStrings` over the characters of `a`. -/
def divLoop (fuel : Nat) (b : List Char) :
    List Char → List Char → List Char → Option (List Char × List Char)
  | [], quotient, remainder => some (quotient, remainder)
  | digit :: rest, quotient, remainder =>
    let remainder := if remainder = ['0'] then [digit] else remainder ++ [digit]
    let remainder := stripZeros remainder
    match divWhile b fuel remainder 0 with
    | none => none
    | some (remainder, count) =>
      let quotient :=
        if quotient = ['0'] then to_string count else quotient ++ to_string count
      divLoop fuel b rest quotient remainder

/-- The function `BigInt::divideStrings`. -/
def divideStrings (fuel : Nat) (a b : List Char) : Except Fault (List Char × List Char) :=
  if b = ['0'] then .error (.runtime_error "Division by zero")
  else
    match divLoop fuel b a ['0'] ['0'] with
    | none => .error .out_of_fuel
    | some (quotient, remainder) =>
      let quotient := if quotient = [] then ['0'] else quotient
      let quotient := stripZeros quotient
      .ok (quotient, remainder)

/-- The method `BigInt::isZero`. -/
def isZero (x : BigInt) : Bool := x.value = ['0']

/-- The method `BigInt::isNegative`. -/
def isNegative (x : BigInt) : Bool := x.negative

/-- The operator `BigInt::operator+`. -/
def add (x other : BigInt) : BigInt :=
  let result : BigInt :=
    if x.negative = other.negative then
      { value := addStrings x.value other.value, negative := x.negative }
    else
      let cmp := compareStrings x.value other.value
      if cmp > 0 then
        { value := subtractStrings x.value other.value, negative := x.negative }
      else if cmp < 0 then
        { value := subtractStrings other.value x.value, negative := other.negative }
      else { value := ['0'], negative := false }
  result.normalize

/-- The operator `BigInt::operator-` (binary). -/
def sub (x other : BigInt) : BigInt :=
  let neg_other : BigInt := { other with negative := !other.negative }
  add x neg_other

/-- The operator `BigInt::operator*`. -/
def mul (x other : BigInt) : BigInt :=
  let value := multiplyStrings x.value other.value
  let result : BigInt :=
    { value := value, negative := (x.negative != other.negative) && (value != ['0']) }
  result.normalize

/-- The operator `BigInt::operator/` (floor division). -/
def div (fuel : Nat) (x other : BigInt) : Except Fault BigInt :=
  if other.isZero then .error (.runtime_error "Division by zero")
  else
    match divideStrings fuel x.value other.value with
    | .error e => .error e
    | .ok (quot, rem) =>
      let result := ofString quot
      let result : BigInt :=
        if x.negative ≠ other.negative then
          let result := if rem ≠ ['0'] then add result (ofInt 1) else result
          { result with negative := !result.isZero }
        else { result with negative := false }
      .ok result.normalize

/-- The operator `BigInt::operator%`. -/
def mod (fuel : Nat) (x other : BigInt) : Except Fault BigInt :=
  if other.isZero then .error (.runtime_error "Division by zero")
  else
    match div fuel x other with
    | .error e => .error e
    | .ok quotient =>
      let result := sub x (mul quotient other)
      .ok result.normalize

/-- The operator `BigInt::operator-` (unary). -/
def neg (x : BigInt) : BigInt :=
  if !x.isZero then { x with negative := !x.negative } else x

/-- The operator `BigInt::operator<`. -/
def lt (x other : BigInt) : Bool :=
  if x.negative ≠ other.negative then x.negative
  else if x.negative then decide (compareStrings x.value other.value > 0)
  else decide (compareStrings x.value other.value < 0)

/-- The operator `BigInt::operator>`. -/
def gt (x other : BigInt) : Bool := lt other x

/-- The operator `BigInt::operator<=`. -/
def le (x other : BigInt) : Bool := !(gt x other)

/-- The operator `BigInt::operator>=`. -/
def ge (x other : BigInt) : Bool := !(lt x other)

/-- The operator `BigInt::operator==`. -/
def eq (x other : BigInt) : Bool :=
  decide (x.negative = other.negative) && decide (x.value = other.value)

/-- The operator `BigInt::operator!=`. -/
def ne (x other : BigInt) : Bool := !(eq x other)

/-- The method `BigInt::toString`. -/
def toString (x : BigInt) : List Char :=
  (if x.negative then ['-'] else []) ++ x.value

end BigInt

/-! ## Values and the environment -/

/-- The class `Value`: one constructor per value of the discriminant `type` that a
constructor of the class can set, carrying the payload field that is meaningful for it.
The type `F` stands for `double`. -/
inductive Value (F : Type) where
  | none
  | bool (boolVal : Bool)
  | int (intVal : BigInt)
  | float (floatVal : F)
  | str (strVal : List Char)
  | tuple (tupleVal : List (Value F))

/-- The enum `Value::Type`. -/
inductive ValueType where
  | NONE | BOOL | INT | FLOAT | STRING | TUPLE | FUNCTION
  deriving DecidableEq, Repr

/-- The field `type` of a `Value`. -/
def Value.type {F : Type} : Value F → ValueType
  | .none => .NONE
  | .bool _ => .BOOL
  | .int _ => .INT
  | .float _ => .FLOAT
  | .str _ => .STRING
  | .tuple _ => .TUPLE

/-- A `std::map<std::string, Value>`: a finite map, kept as an association list with
at most one entry per key. -/
abbrev Scope (F : Type) := List (List Char × Value F)

namespace Scope

variable {F : Type}

/-- The lookup `m.find(name)`: the bound value, or `none` for `m.end()`. -/
def find : Scope F → List Char → Option (Value F)
  | [], _ => Option.none
  | (k, v) :: rest, name => if k = name then some v else find rest name

/-- The test `m.find(name) != m.end()`. -/
def contains (m : Scope F) (name : List Char) : Bool := (m.find name).isSome

/-- The assignment `m[name] = val`: rebinds an existing key, inserts a missing one. -/
def assign : Scope F → List Char → Value F → Scope F
  | [], name, val => [(name, val)]
  | (k, v) :: rest, name, val =>
    if k = name then (k, val) :: rest else (k, v) :: assign rest name val

/-- The read `m[name]`: the bound value; a missing key is first inserted with a
default-constructed `Value` (which is `None`). -/
def index (m : Scope F) (name : List Char) : Value F × Scope F :=
  match m.find name with
  | some v => (v, m)
  | Option.none => (Value.none, m.assign name Value.none)

end Scope

/-- The variable environment of `EvalVisitor`: the fields `globalScope` and
`scopeStack`; the last element of `scopeStack` is `scopeStack.back()`. -/
structure Env (F : Type) where
  globalScope : Scope F
  scopeStack : List (Scope F)

namespace Env

variable {F : Type}

/-- The loop of `getValue` over `scopeStack.rbegin() .. rend()`; the argument is the
stack reversed (innermost scope first).  The result is `none` when the loop ends
without returning. -/
def getValueLoop (name : List Char) : List (Scope F) → Option (Value F × List (Scope F))
  | [] => Option.none
  | it :: rest =>
    if it.contains name then
      some ((it.index name).1, (it.index name).2 :: rest)
    else
      match getValueLoop name rest with
      | some (v, rest1) => some (v, it :: rest1)
      | Option.none => Option.none

/-- The method `EvalVisitor::getValue`; it returns the value and the environment
after the call. -/
def getValue (env : Env F) (name : List Char) : Value F × Env F :=
  match getValueLoop name env.scopeStack.reverse with
  | some (v, rstack) => (v, { env with scopeStack := rstack.reverse })
  | Option.none =>
    if env.globalScope.contains name then
      ((env.globalScope.index name).1, { env with globalScope := (env.globalScope.index name).2 })
    else (Value.none, env)

/-- The loop of `setValue` over `scopeStack.rbegin() .. rend()`; the argument is the
stack reversed.  The result is `none` when the loop ends without returning. -/
def setValueLoop (name : List Char) (val : Value F) : List (Scope F) → Option (List (Scope F))
  | [] => Option.none
  | it :: rest =>
    if it.contains name then some (it.assign name val :: rest)
    else
      match setValueLoop name val rest with
      | some rest1 => some (it :: rest1)
      | Option.none => Option.none

/-- The method `EvalVisitor::setValue`. -/
def setValue (env : Env F) (name : List Char) (val : Value F) : Env F :=
  if !env.scopeStack.isEmpty then
    match setValueLoop name val env.scopeStack.reverse with
    | some rstack => { env with scopeStack := rstack.reverse }
    | Option.none =>
      if env.globalScope.contains name then
        { env with globalScope := env.globalScope.assign name val }
      else
        match env.scopeStack.reverse with
        | back :: rest => { env with scopeStack := (back.assign name val :: rest).reverse }
        | [] => env
  else { env with globalScope := env.globalScope.assign name val }

/-- The method `EvalVisitor::enterScope`. -/
def enterScope (env : Env F) : Env F :=
  { env with scopeStack := env.scopeStack ++ [[]] }

/-- The method `EvalVisitor::exitScope`. -/
def exitScope (env : Env F) : Env F :=
  if !env.scopeStack.isEmpty then { env with scopeStack := env.scopeStack.dropLast } else env

end Env

/-! ## Operations of `double` -/

/-- The operations of the host's `double` that `Value` and the evaluator use.  They
are parameters of the model: nothing is assumed about them. -/
structure DoubleOps (F : Type) where
  /-- The literal `0.0`. -/
  zero : F
  /-- The literal `1.0`. -/
  one : F
  add : F → F → F
  sub : F → F → F
  mul : F → F → F
  div : F → F → F
  neg : F → F
  /-- The function `std::floor`. -/
  floor : F → F
  /-- The function `std::fmod`. -/
  fmod : F → F → F
  /-- The comparison `<`. -/
  lt : F → F → Bool
  /-- The comparison `==`. -/
  eq : F → F → Bool
  /-- The function `std::stod`, which throws on a malformed or out-of-range string. -/
  stod : List Char → Except Fault F
  /-- The cast `(long long) x`. -/
  toLongLong : F → Int
  /-- The rendering `std::fixed << std::setprecision(6)`. -/
  fixed6 : F → List Char

namespace BigInt

/-- The method `BigInt::toDouble`. -/
def toDouble {F : Type} (D : DoubleOps F) (x : BigInt) : Except Fault F :=
  match D.stod x.value with
  | .error e => .error e
  | .ok result => .ok (if x.negative then D.neg result else result)

end BigInt

namespace Value

variable {F : Type}

/-- The method `Value::toString`. -/
def toString (D : DoubleOps F) : Value F → List Char
  | .none => "None".toList
  | .bool boolVal => if boolVal then "True".toList else "False".toList
  | .int intVal => intVal.toString
  | .float floatVal => D.fixed6 floatVal
  | .str strVal => strVal
  | .tuple tupleVal =>
    if tupleVal.isEmpty then "()".toList
    else
      "(".toList ++ elems tupleVal 0 ++ (if tupleVal.length = 1 then ",".toList else [])
        ++ ")".toList
where
  /-- The loop over `tupleVal` inside `toString`; the second argument is the index `i`. -/
  elems : List (Value F) → Nat → List Char
  | [], _ => []
  | v :: rest, i =>
    (if i > 0 then ", ".toList else []) ++
      (match v with
        | .str strVal => "'".toList ++ strVal ++ "'".toList
        | .none => toString D .none
        | .bool b => toString D (.bool b)
        | .int n => toString D (.int n)
        | .float f => toString D (.float f)
        | .tuple t => toString D (.tuple t)) ++
      elems rest (i + 1)

/-- The method `Value::toBool`. -/
def toBool (D : DoubleOps F) : Value F → Bool
  | .none => false
  | .bool boolVal => boolVal
  | .int intVal => !intVal.isZero
  | .float floatVal => !(D.eq floatVal D.zero)
  | .str strVal => !strVal.isEmpty
  | .tuple tupleVal => !tupleVal.isEmpty

/-- The method `Value::toFloat`. -/
def toFloat (D : DoubleOps F) : Value F → Except Fault F
  | .bool boolVal => .ok (if boolVal then D.one else D.zero)
  | .int intVal => intVal.toDouble D
  | .float floatVal => .ok floatVal
  | .str strVal => D.stod strVal
  | _ => .ok D.zero

/-- The method `Value::toInt`. -/
def toInt (D : DoubleOps F) : Value F → BigInt
  | .bool boolVal => BigInt.ofInt (if boolVal then 1 else 0)
  | .int intVal => intVal
  | .float floatVal => BigInt.ofLongLong (D.toLongLong floatVal)
  | .str strVal => BigInt.ofString strVal
  | _ => BigInt.ofInt 0

/-- The test `type == STRING`. -/
def isString : Value F → Bool
  | .str _ => true
  | _ => false

/-- The test `type == FLOAT`. -/
def isFloat : Value F → Bool
  | .float _ => true
  | _ => false

/-- Applies a binary operation of `double` to `toFloat()` of both operands. -/
def floatOp (D : DoubleOps F) (op : F → F → F) (x other : Value F) : Except Fault (Value F) :=
  match x.toFloat D with
  | .error e => .error e
  | .ok a =>
    match other.toFloat D with
    | .error e => .error e
    | .ok b => .ok (.float (op a b))

/-- The operator `Value::operator+`. -/
def add (D : DoubleOps F) (x other : Value F) : Except Fault (Value F) :=
  if x.isString || other.isString then .ok (.str (x.toString D ++ other.toString D))
  else if x.isFloat || other.isFloat then floatOp D D.add x other
  else
    match x, other with
    | .int a, .int b => .ok (.int (a.add b))
    | _, _ => .ok .none

/-- The operator `Value::operator-` (binary). -/
def sub (D : DoubleOps F) (x other : Value F) : Except Fault (Value F) :=
  if x.isFloat || other.isFloat then floatOp D D.sub x other
  else
    match x, other with
    | .int a, .int b => .ok (.int (a.sub b))
    | _, _ => .ok .none

/-- The repetition loop of `operator*`: `n` copies of `strVal`. -/
def repeatStr (strVal : List Char) : Nat → List Char
  | 0 => []
  | n + 1 => repeatStr strVal n ++ strVal

/-- The branch `type == STRING && other.type == INT` of `operator*`.  For a negative or
zero count it returns `Value("")`: the argument is a string literal, for which overload
resolution selects the constructor `Value(bool)` (the conversion of the array to a
pointer and then to `bool` is a standard conversion and is preferred to the user-defined
conversion to `std::string`), and the pointer is not null, so the result is the `Bool`
`true`. -/
def mulStrInt (D : DoubleOps F) (strVal : List Char) (count : BigInt) : Except Fault (Value F) :=
  if count.isNegative || count.isZero then .ok (.bool true)
  else
    match count.toDouble D with
    | .error e => .error e
    | .ok d => .ok (.str (repeatStr strVal (D.toLongLong d).toNat))

/-- The operator `Value::operator*`. -/
def mul (D : DoubleOps F) (x other : Value F) : Except Fault (Value F) :=
  match x, other with
  | .str s, .int count => mulStrInt D s count
  | .int count, .str s => mulStrInt D s count
  | _, _ =>
    if x.isFloat || other.isFloat then floatOp D D.mul x other
    else
      match x, other with
      | .int a, .int b => .ok (.int (a.mul b))
      | _, _ => .ok .none

/-- The operator `Value::operator/`. -/
def div (D : DoubleOps F) (x other : Value F) : Except Fault (Value F) :=
  floatOp D D.div x other

/-- The method `Value::floordiv`. -/
def floordiv (D : DoubleOps F) (fuel : Nat) (x other : Value F) : Except Fault (Value F) :=
  match x, other with
  | .int a, .int b =>
    match BigInt.div fuel a b with
    | .error e => .error e
    | .ok q => .ok (.int q)
  | _, _ =>
    match x.toFloat D with
    | .error e => .error e
    | .ok a =>
      match other.toFloat D with
      | .error e => .error e
      | .ok b => .ok (.int (BigInt.ofLongLong (D.toLongLong (D.floor (D.div a b)))))

/-- The operator `Value::operator%`. -/
def mod (D : DoubleOps F) (fuel : Nat) (x other : Value F) : Except Fault (Value F) :=
  match x, other with
  | .int a, .int b =>
    match BigInt.mod fuel a b with
    | .error e => .error e
    | .ok r => .ok (.int r)
  | _, _ =>
    match x.toFloat D with
    | .error e => .error e
    | .ok a =>
      match other.toFloat D with
      | .error e => .error e
      | .ok b =>
        let result := D.fmod a b
        if (D.lt result D.zero && D.lt D.zero b) || (D.lt D.zero result && D.lt b D.zero) then
          .ok (.float (D.add result b))
        else .ok (.float result)

/-- The operator `Value::operator-` (unary). -/
def neg (D : DoubleOps F) : Value F → Value F
  | .int intVal => .int intVal.neg
  | .float floatVal => .float (D.neg floatVal)
  | _ => .none

/-- The operator `Value::operator<`. -/
def lt (D : DoubleOps F) (x other : Value F) : Except Fault Bool :=
  match x, other with
  | .str a, .str b => .ok (decide (BigInt.compareBytes a b < 0))
  | _, _ =>
    if x.isFloat || other.isFloat then
      match x.toFloat D with
      | .error e => .error e
      | .ok a =>
        match other.toFloat D with
        | .error e => .error e
        | .ok b => .ok (D.lt a b)
    else
      match x, other with
      | .int a, .int b => .ok (a.lt b)
      | _, _ => .ok false

/-- The operator `Value::operator>`. -/
def gt (D : DoubleOps F) (x other : Value F) : Except Fault Bool := lt D other x

/-- The operator `Value::operator<=`. -/
def le (D : DoubleOps F) (x other : Value F) : Except Fault Bool :=
  match gt D x other with
  | .error e => .error e
  | .ok r => .ok (!r)

/-- The operator `Value::operator>=`. -/
def ge (D : DoubleOps F) (x other : Value F) : Except Fault Bool :=
  match lt D x other with
  | .error e => .error e
  | .ok r => .ok (!r)

/-- The tag test `type == INT || type == FLOAT || type == BOOL`. -/
def isNumeric : Value F → Bool
  | .int _ => true
  | .float _ => true
  | .bool _ => true
  | _ => false

/-- The operator `Value::operator==`. -/
def eq (D : DoubleOps F) (x other : Value F) : Except Fault Bool :=
  match x, other with
  | .none, .none => .ok true
  | .bool a, .bool b => .ok (a == b)
  | .int a, .int b => .ok (a.eq b)
  | .float a, .float b => .ok (D.eq a b)
  | .str a, .str b => .ok (decide (a = b))
  | .tuple _, .tuple _ => .ok false
  | _, _ =>
    if x.isString || other.isString then .ok false
    else if x.isNumeric && other.isNumeric then
      if x.isFloat || other.isFloat then
        match x.toFloat D with
        | .error e => .error e
        | .ok a =>
          match other.toFloat D with
          | .error e => .error e
          | .ok b => .ok (D.eq a b)
      else .ok ((x.toInt D).eq (other.toInt D))
    else .ok false

/-- The operator `Value::operator!=`. -/
def ne (D : DoubleOps F) (x other : Value F) : Except Fault Bool :=
  match eq D x other with
  | .error e => .error e
  | .ok r => .ok (!r)

end Value


/-! ## Syntax trees -/

/-- Modelled from the spec: the comparison operator tokens of `comp_op`. -/
inductive CompOp where
  | lt | gt | le | ge | eq | ne
  deriving DecidableEq, Repr

/-- Modelled from the spec: the operator tokens `+` and `-` of `arith_expr` and `factor`. -/
inductive AddOp where
  | plus | minus
  deriving DecidableEq, Repr

/-- Modelled from the spec: the operator tokens `*`, `/`, `//` and `%` of `term`. -/
inductive MulOp where
  | star | div | idiv | mod
  deriving DecidableEq, Repr

/-- Modelled from the spec: the augmented-assignment operator tokens
`+=`, `-=`, `*=`, `/=`, `//=` and `%=`. -/
inductive AugOp where
  | add | sub | mul | div | idiv | mod
  deriving DecidableEq, Repr

mutual

/-- Modelled from the spec: the expression nodes of the parser contract, the parser
itself not being part of the sources.  The chain `test`, `or_test`, `and_test`,
`not_test`, `comparison`, `arith_expr`, `term`, `factor`, `atom_expr` is one type; a
node of the chain that has a single child and no operator is identified with that
child, since every visitor of such a node returns the result of visiting the child. -/
inductive Expr where
  | or_test (first : Expr) (rest : List Expr)
  | and_test (first : Expr) (rest : List Expr)
  | not_test (operand : Expr)
  | comparison (first : Expr) (rest : List (CompOp × Expr))
  | arith_expr (first : Expr) (rest : List (AddOp × Expr))
  | term (first : Expr) (rest : List (MulOp × Expr))
  | factor (op : AddOp) (operand : Expr)
  | atom_expr (atom : Atom) (trailer : Option Trailer)

/-- Modelled from the spec: the node `atom`.  A `STRING` atom carries the texts of its
string tokens, prefix and quotes included. -/
inductive Atom where
  | NAME (text : List Char)
  | NUMBER (text : List Char)
  | STRING (texts : List (List Char))
  | NONE
  | TRUE
  | FALSE
  | test (t : Expr)
  | format_string (children : List FormatChild)

/-- Modelled from the spec: the node `trailer`, a call suffix with an optional
argument list. -/
inductive Trailer where
  | mk (arglist : Option (List Argument))

/-- Modelled from the spec: the node `argument`, a single test or `name=test`; of the
first test of a keyword argument only its text is kept, and it is a `NAME`. -/
inductive Argument where
  | test (t : Expr)
  | keyword (name : List Char) (value : Expr)

/-- Modelled from the spec: a child of `format_string`: a terminal (a quotation
mark, a brace or a literal fragment) with its text, or a `testlist`. -/
inductive FormatChild where
  | terminal (text : List Char)
  | testlist (tests : List Expr)

end

/-- Modelled from the spec: the statement nodes of the parser contract.  A suite is
the list of its statements; `expr_stmt` carries its testlists (each a list of tests)
and the optional augmented-assignment operator; `funcdef` carries the parameter names
and the default expressions of `typedargslist`. -/
inductive Stmt where
  | expr_stmt (testlists : List (List Expr)) (augassign : Option AugOp)
  | break_stmt
  | continue_stmt
  | return_stmt (testlist : Option (List Expr))
  | if_stmt (tests : List Expr) (suites : List (List Stmt))
  | while_stmt (test : Expr) (suite : List Stmt)
  | funcdef (name : List Char) (tfpdefs : List (List Char)) (tests : List Expr)
      (suite : List Stmt)

/-- A parse tree handed to `visit`. -/
inductive Tree where
  | expr (e : Expr)
  | testlist (tests : List Expr)
  | argument (a : Argument)
  | stmt (s : Stmt)
  | suite (stmts : List Stmt)

/-! ## Interpreter state -/

/-- The struct `FunctionDef` (its field `globalScope` is never read). -/
structure FunctionDef (F : Type) where
  params : List (List Char)
  defaults : List (Value F)
  body : List Stmt

/-- The exceptions that cross `visit`: the three control-flow exception classes and
host faults. -/
inductive Signal (F : Type) where
  | BreakException
  | ContinueException
  | ReturnException (value : Value F)
  | fault (f : Fault)

/-- The state of an `EvalVisitor`, together with what has been written to `std::cout`. -/
structure St (F : Type) where
  env : Env F
  functions : List (List Char × FunctionDef F)
  out : List Char

/-- The result of a visit: the returned value or the exception thrown, and the state
in which the visit ended. -/
abbrev Res (F : Type) (α : Type) := Except (Signal F) α × St F

/-- The recursive entry point `visit`, as the visitors see it. -/
abbrev Visit (F : Type) := Tree → St F → Res F (Value F)

/-- The lookup `functions.find(name)`. -/
def findFunction {F : Type} : List (List Char × FunctionDef F) → List Char →
    Option (FunctionDef F)
  | [], _ => Option.none
  | (k, v) :: rest, name => if k = name then some v else findFunction rest name

/-- The assignment `functions[name] = func`. -/
def assignFunction {F : Type} : List (List Char × FunctionDef F) → List Char →
    FunctionDef F → List (List Char × FunctionDef F)
  | [], name, func => [(name, func)]
  | (k, v) :: rest, name, func =>
    if k = name then (k, func) :: rest else (k, v) :: assignFunction rest name func

/-- Insertion of a binding into a list ordered by key, as `std::map` orders its keys. -/
def insertByKey {F : Type} (p : List Char × Value F) :
    List (List Char × Value F) → List (List Char × Value F)
  | [] => [p]
  | q :: rest =>
    if BigInt.compareBytes p.1 q.1 < 0 then p :: q :: rest else q :: insertByKey p rest

/-- The bindings of a map in the order in which `for (auto& p : m)` meets them. -/
def Scope.inOrder {F : Type} (m : Scope F) : List (List Char × Value F) :=
  m.foldr insertByKey []


/-! ## The visitors -/

/-- What the evaluator takes from its host: the operations of `double`, and the external
parser that `evaluateFString` runs on a fragment (`parser.test()`), which gives no tree
for some inputs. -/
structure Host (F : Type) where
  double : DoubleOps F
  parseTest : List Char → Option Expr

section Visitors

variable {F : Type}

/-- An operation of `Value` that may throw, run in a state. -/
def liftFault {α : Type} (r : Except Fault α) (st : St F) : Res F α :=
  match r with
  | .ok v => (.ok v, st)
  | .error e => (.error (.fault e), st)

/-- The call `getValue(name)` on the state. -/
def St.getValue (st : St F) (name : List Char) : Value F × St F :=
  ((st.env.getValue name).1, { st with env := (st.env.getValue name).2 })

/-- The call `setValue(name, val)` on the state. -/
def St.setValue (st : St F) (name : List Char) (val : Value F) : St F :=
  { st with env := st.env.setValue name val }

/-- The call `enterScope()` on the state. -/
def St.enterScope (st : St F) : St F := { st with env := st.env.enterScope }

/-- The call `exitScope()` on the state. -/
def St.exitScope (st : St F) : St F := { st with env := st.env.exitScope }

/-- Visits the tests of a list from left to right and collects their values. -/
def visitTests (visit : Visit F) : List Expr → St F → Res F (List (Value F))
  | [], st => (.ok [], st)
  | e :: es, st =>
    match visit (.expr e) st with
    | (.error x, st1) => (.error x, st1)
    | (.ok v, st1) =>
      match visitTests visit es st1 with
      | (.error x, st2) => (.error x, st2)
      | (.ok vs, st2) => (.ok (v :: vs), st2)

/-- The method `visitChildren` on a sequence of statements (`file_input`, `suite`):
the result is that of the last child. -/
def visitChildren (visit : Visit F) : List Stmt → Value F → St F → Res F (Value F)
  | [], result, st => (.ok result, st)
  | s :: rest, _, st =>
    match visit (.stmt s) st with
    | (.error x, st1) => (.error x, st1)
    | (.ok v, st1) => visitChildren visit rest v st1

/-- The loop of `visitOr_test` over `andTests[1..]`. -/
def orLoop (D : DoubleOps F) (visit : Visit F) : Value F → List Expr → St F → Res F (Value F)
  | result, [], st => (.ok result, st)
  | result, e :: es, st =>
    if result.toBool D then (.ok result, st)
    else
      match visit (.expr e) st with
      | (.error x, st1) => (.error x, st1)
      | (.ok v, st1) => orLoop D visit v es st1

/-- The method `visitOr_test`. -/
def visitOr_test (D : DoubleOps F) (visit : Visit F) (first : Expr) (rest : List Expr)
    (st : St F) : Res F (Value F) :=
  match visit (.expr first) st with
  | (.error x, st1) => (.error x, st1)
  | (.ok v, st1) => orLoop D visit v rest st1

/-- The loop of `visitAnd_test` over `notTests[1..]`. -/
def andLoop (D : DoubleOps F) (visit : Visit F) : Value F → List Expr → St F → Res F (Value F)
  | result, [], st => (.ok result, st)
  | result, e :: es, st =>
    if !result.toBool D then (.ok result, st)
    else
      match visit (.expr e) st with
      | (.error x, st1) => (.error x, st1)
      | (.ok v, st1) => andLoop D visit v es st1

/-- The method `visitAnd_test`. -/
def visitAnd_test (D : DoubleOps F) (visit : Visit F) (first : Expr) (rest : List Expr)
    (st : St F) : Res F (Value F) :=
  match visit (.expr first) st with
  | (.error x, st1) => (.error x, st1)
  | (.ok v, st1) => andLoop D visit v rest st1

/-- The method `visitNot_test` for a `not` node. -/
def visitNot_test (D : DoubleOps F) (visit : Visit F) (operand : Expr) (st : St F) :
    Res F (Value F) :=
  match visit (.expr operand) st with
  | (.error x, st1) => (.error x, st1)
  | (.ok val, st1) => (.ok (.bool (!val.toBool D)), st1)

/-- One comparison of `visitComparison`, selected by the operator text. -/
def compareValues (D : DoubleOps F) (op : CompOp) (a b : Value F) : Except Fault Bool :=
  match op with
  | .lt => a.lt D b
  | .gt => a.gt D b
  | .le => a.le D b
  | .ge => a.ge D b
  | .eq => a.eq D b
  | .ne => a.ne D b

/-- The loop of `visitComparison` over the operators; the first argument is
`values[i]`, the list pairs `compOps[i]` with `values[i + 1]`. -/
def comparisonLoop (D : DoubleOps F) : Value F → List (CompOp × Value F) →
    Except Fault (Value F)
  | _, [] => .ok (.bool true)
  | v, (op, w) :: rest =>
    match compareValues D op v w with
    | .error e => .error e
    | .ok result => if !result then .ok (.bool false) else comparisonLoop D w rest

/-- The method `visitComparison` for a node with at least one operator. -/
def visitComparison (D : DoubleOps F) (visit : Visit F) (first : Expr)
    (rest : List (CompOp × Expr)) (st : St F) : Res F (Value F) :=
  match visitTests visit (first :: rest.map Prod.snd) st with
  | (.error x, st1) => (.error x, st1)
  | (.ok [], st1) => (.ok (.bool true), st1)
  | (.ok (v :: vs), st1) => liftFault (comparisonLoop D v ((rest.map Prod.fst).zip vs)) st1

/-- The loop of `visitArith_expr` over `terms[1..]`. -/
def arithLoop (D : DoubleOps F) (visit : Visit F) : Value F → List (AddOp × Expr) → St F →
    Res F (Value F)
  | result, [], st => (.ok result, st)
  | result, (op, e) :: rest, st =>
    match visit (.expr e) st with
    | (.error x, st1) => (.error x, st1)
    | (.ok right, st1) =>
      match (match op with
        | .plus => result.add D right
        | .minus => result.sub D right) with
      | .error f => (.error (.fault f), st1)
      | .ok v => arithLoop D visit v rest st1

/-- The method `visitArith_expr`. -/
def visitArith_expr (D : DoubleOps F) (visit : Visit F) (first : Expr)
    (rest : List (AddOp × Expr)) (st : St F) : Res F (Value F) :=
  match visit (.expr first) st with
  | (.error x, st1) => (.error x, st1)
  | (.ok v, st1) => arithLoop D visit v rest st1

/-- The loop of `visitTerm` over `factors[1..]`. -/
def termLoop (D : DoubleOps F) (fuel : Nat) (visit : Visit F) : Value F →
    List (MulOp × Expr) → St F → Res F (Value F)
  | result, [], st => (.ok result, st)
  | result, (op, e) :: rest, st =>
    match visit (.expr e) st with
    | (.error x, st1) => (.error x, st1)
    | (.ok right, st1) =>
      match (match op with
        | .star => result.mul D right
        | .div => result.div D right
        | .idiv => result.floordiv D fuel right
        | .mod => result.mod D fuel right) with
      | .error f => (.error (.fault f), st1)
      | .ok v => termLoop D fuel visit v rest st1

/-- The method `visitTerm`. -/
def visitTerm (D : DoubleOps F) (fuel : Nat) (visit : Visit F) (first : Expr)
    (rest : List (MulOp × Expr)) (st : St F) : Res F (Value F) :=
  match visit (.expr first) st with
  | (.error x, st1) => (.error x, st1)
  | (.ok v, st1) => termLoop D fuel visit v rest st1

/-- The method `visitFactor` for a signed factor. -/
def visitFactor (D : DoubleOps F) (visit : Visit F) (op : AddOp) (operand : Expr)
    (st : St F) : Res F (Value F) :=
  match visit (.expr operand) st with
  | (.error x, st1) => (.error x, st1)
  | (.ok val, st1) =>
    match op with
    | .minus => (.ok (val.neg D), st1)
    | .plus => (.ok val, st1)

/-- The method `visitTestlist`. -/
def visitTestlist (visit : Visit F) (tests : List Expr) (st : St F) : Res F (Value F) :=
  match tests with
  | [t] => visit (.expr t) st
  | _ =>
    match visitTests visit tests st with
    | (.error x, st1) => (.error x, st1)
    | (.ok values, st1) => (.ok (.tuple values), st1)

/-- The method `visitArgument`; for `name=test` it is `visitChildren`, which visits
the name, then the value, and returns the result of the last child. -/
def visitArgument (visit : Visit F) (a : Argument) (st : St F) : Res F (Value F) :=
  match a with
  | .test t => visit (.expr t) st
  | .keyword name value =>
    match visit (.expr (.atom_expr (.NAME name) Option.none)) st with
    | (.error x, st1) => (.error x, st1)
    | (.ok _, st1) => visit (.expr value) st1

/-- The formatting of an interpolated value in `evaluateFString` and
`visitFormat_string`, and of an argument of `print`. -/
def formatValue (D : DoubleOps F) (val : Value F) : List Char :=
  match val with
  | .bool boolVal => if boolVal then "True".toList else "False".toList
  | .float floatVal => D.fixed6 floatVal
  | _ => val.toString D

/-- The scan for the matching `}` in `evaluateFString`, started behind an opening
brace with `depth = 1`: the characters in front of the match, and those behind it. -/
def scanExpr : List Char → Int → List Char → List Char × List Char
  | [], _, expr => (expr, [])
  | c :: cs, depth, expr =>
    let depth1 := if c = '{' then depth + 1 else if c = '}' then depth - 1 else depth
    if depth1 > 0 then scanExpr cs depth1 (expr ++ [c]) else (expr, cs)

/-- The loop of `evaluateFString` on the characters from position `i` on.  Every
iteration moves `i` forward, so as many iterations as there are characters suffice;
that is the first argument. -/
def fstringLoop (H : Host F) (visit : Visit F) : Nat → List Char → List Char → St F →
    Res F (List Char)
  | 0, _, result, st => (.ok result, st)
  | _ + 1, [], result, st => (.ok result, st)
  | n + 1, c :: cs, result, st =>
    if c = '{' then
      if cs.head? = some '{' then fstringLoop H visit n (cs.drop 1) (result ++ ['{']) st
      else
        match H.parseTest (scanExpr cs 1 []).1 with
        | Option.none => (.error (.fault (.host "parser")), st)
        | some testCtx =>
          match visit (.expr testCtx) st with
          | (.error x, st1) => (.error x, st1)
          | (.ok val, st1) =>
            fstringLoop H visit n (scanExpr cs 1 []).2 (result ++ formatValue H.double val) st1
    else if c = '}' then
      if cs.head? = some '}' then fstringLoop H visit n (cs.drop 1) (result ++ ['}']) st
      else fstringLoop H visit n cs result st
    else fstringLoop H visit n cs (result ++ [c]) st

/-- The method `evaluateFString`. -/
def evaluateFString (H : Host F) (visit : Visit F) (fstr : List Char) (st : St F) :
    Res F (List Char) :=
  fstringLoop H visit fstr.length fstr [] st

/-- The loop of `visitAtom` over the `STRING` tokens; `isFString` stays set once a
token with the prefix `f` or `F` has been met. -/
def stringLoop (H : Host F) (visit : Visit F) : List (List Char) → Bool → List Char → St F →
    Res F (List Char)
  | [], _, result, st => (.ok result, st)
  | s :: rest, isFString, result, st =>
    let isF : Bool := s.head? = some 'f' || s.head? = some 'F'
    let isFString1 := isFString || isF
    let s1 := if isF then s.drop 1 else s
    if s1.isEmpty then (.error (.fault (.host "std::out_of_range")), st)
    else
      let s2 := (s1.drop 1).take (s1.length - 2)
      if isFString1 then
        match evaluateFString H visit s2 st with
        | (.error x, st1) => (.error x, st1)
        | (.ok text, st1) => stringLoop H visit rest isFString1 (result ++ text) st1
      else stringLoop H visit rest isFString1 (result ++ s2) st

/-- The escape loop of `visitFormat_string` over a literal fragment. -/
def unescapeLiteral : List Char → List Char
  | [] => []
  | [c] => [c]
  | c :: d :: rest =>
    if c = '{' ∧ d = '{' then '{' :: unescapeLiteral rest
    else if c = '}' ∧ d = '}' then '}' :: unescapeLiteral rest
    else c :: unescapeLiteral (d :: rest)

/-- The texts that `visitFormat_string` skips as quotation marks. -/
def isQuotation (text : List Char) : Bool :=
  text = "f\"".toList || text = "f'".toList || text = "\"".toList || text = "'".toList ||
    text = "F\"".toList || text = "F'".toList

/-- The loop of `visitFormat_string` over the children from index `i` on; the first
argument bounds the number of iterations by the number of children. -/
def formatLoop (D : DoubleOps F) (visit : Visit F) : Nat → List FormatChild → List Char →
    St F → Res F (List Char)
  | 0, _, result, st => (.ok result, st)
  | _ + 1, [], result, st => (.ok result, st)
  | n + 1, .testlist _ :: rest, result, st => formatLoop D visit n rest result st
  | n + 1, .terminal text :: rest, result, st =>
    if isQuotation text then formatLoop D visit n rest result st
    else if text = ['{'] then
      match rest with
      | [] => (.ok result, st)
      | .testlist tests :: rest1 =>
        match visit (.testlist tests) st with
        | (.error x, st1) => (.error x, st1)
        | (.ok val, st1) => formatLoop D visit n (rest1.drop 1) (result ++ formatValue D val) st1
      | .terminal _ :: rest1 => formatLoop D visit n (rest1.drop 1) result st
    else formatLoop D visit n rest (result ++ unescapeLiteral text) st

/-- The method `visitAtom`. -/
def visitAtom (H : Host F) (visit : Visit F) (atom : Atom) (st : St F) : Res F (Value F) :=
  match atom with
  | .NONE => (.ok .none, st)
  | .TRUE => (.ok (.bool true), st)
  | .FALSE => (.ok (.bool false), st)
  | .NAME name =>
    if (findFunction st.functions name).isSome then (.ok (.str name), st)
    else (.ok (st.getValue name).1, (st.getValue name).2)
  | .NUMBER num =>
    if '.' ∈ num then
      match H.double.stod num with
      | .error f => (.error (.fault f), st)
      | .ok d => (.ok (.float d), st)
    else (.ok (.int (BigInt.ofString num)), st)
  | .STRING texts =>
    match stringLoop H visit texts false [] st with
    | (.error x, st1) => (.error x, st1)
    | (.ok result, st1) => (.ok (.str result), st1)
  | .test t => visit (.expr t) st
  | .format_string children =>
    match formatLoop H.double visit children.length children [] st with
    | (.error x, st1) => (.error x, st1)
    | (.ok result, st1) => (.ok (.str result), st1)

/-- Visits the arguments of `print` from left to right. -/
def visitArguments (visit : Visit F) : List Argument → St F → Res F (List (Value F))
  | [], st => (.ok [], st)
  | a :: rest, st =>
    match visit (.argument a) st with
    | (.error x, st1) => (.error x, st1)
    | (.ok v, st1) =>
      match visitArguments visit rest st1 with
      | (.error x, st2) => (.error x, st2)
      | (.ok vs, st2) => (.ok (v :: vs), st2)

/-- The output loop of `print`: the text written for `args[i..]`. -/
def printArgs (D : DoubleOps F) : List (Value F) → Nat → List Char
  | [], _ => []
  | v :: rest, i =>
    (if i > 0 then " ".toList else []) ++
      (match v with
        | .str strVal => strVal
        | .float floatVal => D.fixed6 floatVal
        | _ => v.toString D) ++
      printArgs D rest (i + 1)

/-- The definition that the reference `func` denotes: the entry of `functions` under
`funcName` in the current state. -/
def currentFunc (st : St F) (funcName : List Char) : FunctionDef F :=
  match findFunction st.functions funcName with
  | some func => func
  | Option.none => { params := [], defaults := [], body := [] }

/-- The loop over `arguments` in the call of a user-defined function; the arguments
are `args` and `posArgCount`. -/
def argLoop (visit : Visit F) (funcName : List Char) : List Argument → Scope F → Nat →
    St F → Res F (Scope F)
  | [], args, _, st => (.ok args, st)
  | .keyword paramName value :: rest, args, posArgCount, st =>
    match visit (.expr value) st with
    | (.error x, st1) => (.error x, st1)
    | (.ok val, st1) => argLoop visit funcName rest (args.assign paramName val) posArgCount st1
  | .test t :: rest, args, posArgCount, st =>
    if posArgCount < (currentFunc st funcName).params.length then
      match visit (.argument (.test t)) st with
      | (.error x, st1) => (.error x, st1)
      | (.ok val, st1) =>
        argLoop visit funcName rest
          (args.assign ((currentFunc st1 funcName).params.getD posArgCount []) val)
          (posArgCount + 1) st1
    else argLoop visit funcName rest args posArgCount st

/-- The loop that fills in default values; the arguments are the parameters from
index `i` on, and `i`. -/
def fillDefaults (defaults : List (Value F)) (defaultStart : Nat) :
    List (List Char) → Nat → Scope F → Scope F
  | [], _, args => args
  | p :: ps, i, args =>
    if !args.contains p && decide (i ≥ defaultStart) then
      fillDefaults defaults defaultStart ps (i + 1)
        (args.assign p (defaults.getD (i - defaultStart) Value.none))
    else fillDefaults defaults defaultStart ps (i + 1) args

/-- The loop `for (auto& p : args) setValue(p.first, p.second)`. -/
def bindArgs : List (List Char × Value F) → St F → St F
  | [], st => st
  | p :: rest, st => bindArgs rest (st.setValue p.1 p.2)

/-- The call of a user-defined function in `visitAtom_expr`. -/
def callFunction (visit : Visit F) (funcName : List Char) (arglist : Option (List Argument))
    (st : St F) : Res F (Value F) :=
  match (match arglist with
    | Option.none => ((.ok [], st) : Res F (Scope F))
    | some arguments =>
      match argLoop visit funcName arguments [] 0 st with
      | (.error x, st1) => (.error x, st1)
      | (.ok args, st1) =>
        (.ok (fillDefaults (currentFunc st1 funcName).defaults
          ((currentFunc st1 funcName).params.length - (currentFunc st1 funcName).defaults.length)
          (currentFunc st1 funcName).params 0 args), st1)) with
  | (.error x, st1) => (.error x, st1)
  | (.ok args, st1) =>
    match visit (.suite (currentFunc st1 funcName).body) (bindArgs args.inOrder st1.enterScope) with
    | (.ok _, st2) => (.ok Value.none, st2.exitScope)
    | (.error (.ReturnException value), st2) => (.ok value, st2.exitScope)
    | (.error x, st2) => (.error x, st2)

/-- The argument `trailer->arglist()->argument(0)` of a conversion builtin, visited. -/
def visitFirstArgument (visit : Visit F) (arglist : Option (List Argument)) (st : St F) :
    Res F (Value F) :=
  match arglist with
  | some (a :: _) => visit (.argument a) st
  | _ => (.error (.fault (.host "null pointer")), st)

/-- The method `visitAtom_expr`. -/
def visitAtom_expr (H : Host F) (visit : Visit F) (atom : Atom) (trailer : Option Trailer)
    (st : St F) : Res F (Value F) :=
  match visitAtom H visit atom st with
  | (.error x, st1) => (.error x, st1)
  | (.ok result, st1) =>
    match trailer, atom with
    | some (.mk arglist), .NAME funcName =>
      if funcName = "print".toList then
        match (match arglist with
          | Option.none => ((.ok [], st1) : Res F (List (Value F)))
          | some arguments => visitArguments visit arguments st1) with
        | (.error x, st2) => (.error x, st2)
        | (.ok args, st2) =>
          (.ok Value.none, { st2 with out := st2.out ++ printArgs H.double args 0 ++ ['\n'] })
      else if funcName = "int".toList then
        match visitFirstArgument visit arglist st1 with
        | (.error x, st2) => (.error x, st2)
        | (.ok arg, st2) => (.ok (.int (arg.toInt H.double)), st2)
      else if funcName = "float".toList then
        match visitFirstArgument visit arglist st1 with
        | (.error x, st2) => (.error x, st2)
        | (.ok arg, st2) =>
          match arg.toFloat H.double with
          | .error f => (.error (.fault f), st2)
          | .ok d => (.ok (.float d), st2)
      else if funcName = "str".toList then
        match visitFirstArgument visit arglist st1 with
        | (.error x, st2) => (.error x, st2)
        | (.ok arg, st2) => (.ok (.str (arg.toString H.double)), st2)
      else if funcName = "bool".toList then
        match visitFirstArgument visit arglist st1 with
        | (.error x, st2) => (.error x, st2)
        | (.ok arg, st2) => (.ok (.bool (arg.toBool H.double)), st2)
      else if (findFunction st1.functions funcName).isSome then
        callFunction visit funcName arglist st1
      else (.ok result, st1)
    | _, _ => (.ok result, st1)

/-- The variable name that `visitExpr_stmt` extracts from an assignment target: the
target is a single `atom_expr` whose atom is a `NAME`. -/
def targetName : Expr → Option (List Char)
  | .atom_expr (.NAME name) _ => some name
  | _ => Option.none

/-- The augmented operation selected by the operator text. -/
def applyAug (D : DoubleOps F) (fuel : Nat) (op : AugOp) (leftVal rightVal : Value F) :
    Except Fault (Value F) :=
  match op with
  | .add => leftVal.add D rightVal
  | .sub => leftVal.sub D rightVal
  | .mul => leftVal.mul D rightVal
  | .div => leftVal.div D rightVal
  | .idiv => leftVal.floordiv D fuel rightVal
  | .mod => leftVal.mod D fuel rightVal

/-- The loop of an augmented assignment over the tests of the left side. -/
def augLoop (D : DoubleOps F) (fuel : Nat) (op : AugOp) (rightVal : Value F) :
    List Expr → St F → Res F (Value F)
  | [], st => (.ok Value.none, st)
  | test :: rest, st =>
    match targetName test with
    | Option.none => augLoop D fuel op rightVal rest st
    | some varName =>
      match applyAug D fuel op (st.getValue varName).1 rightVal with
      | .error f => (.error (.fault f), (st.getValue varName).2)
      | .ok newVal => augLoop D fuel op rightVal rest (((st.getValue varName).2).setValue varName newVal)

/-- The loop of a multiple assignment over `tests[j]` and `value.tupleVal[j]`. -/
def unpackLoop : List Expr → List (Value F) → St F → St F
  | test :: tests, v :: vs, st =>
    match targetName test with
    | some varName => unpackLoop tests vs (st.setValue varName v)
    | Option.none => unpackLoop tests vs st
  | _, _, st => st

/-- The loop of a regular assignment over the targets `testlists[0 .. size - 2]`. -/
def assignLoop (value : Value F) : List (List Expr) → St F → St F
  | [], st => st
  | [_], st => st
  | tests :: rest, st =>
    match tests with
    | [test] =>
      match targetName test with
      | some varName => assignLoop value rest (st.setValue varName value)
      | Option.none => assignLoop value rest st
    | _ =>
      match value with
      | .tuple tupleVal => assignLoop value rest (unpackLoop tests tupleVal st)
      | _ => assignLoop value rest st

/-- The method `visitExpr_stmt`. -/
def visitExpr_stmt (D : DoubleOps F) (fuel : Nat) (visit : Visit F)
    (testlists : List (List Expr)) (augassign : Option AugOp) (st : St F) : Res F (Value F) :=
  match testlists with
  | [testlist] => visit (.testlist testlist) st
  | _ =>
    match augassign with
    | some op =>
      match visit (.testlist (testlists.getD 1 [])) st with
      | (.error x, st1) => (.error x, st1)
      | (.ok rightVal, st1) => augLoop D fuel op rightVal (testlists.getD 0 []) st1
    | Option.none =>
      match visit (.testlist (testlists.getLastD [])) st with
      | (.error x, st1) => (.error x, st1)
      | (.ok value, st1) => (.ok Value.none, assignLoop value testlists st1)

/-- The method `visitReturn_stmt`. -/
def visitReturn_stmt (visit : Visit F) (testlist : Option (List Expr)) (st : St F) :
    Res F (Value F) :=
  match testlist with
  | some tests =>
    match visit (.testlist tests) st with
    | (.error x, st1) => (.error x, st1)
    | (.ok val, st1) => (.error (.ReturnException val), st1)
  | Option.none => (.error (.ReturnException Value.none), st)

/-- The method `visitIf_stmt`: the loop over `tests[i]` and `suites[i]`, then the
`else` suite, which is the last suite when there are more suites than tests. -/
def visitIf_stmt (D : DoubleOps F) (visit : Visit F) : List Expr → List (List Stmt) → St F →
    Res F (Value F)
  | [], suites, st =>
    match suites.getLast? with
    | some suite =>
      match visit (.suite suite) st with
      | (.error x, st1) => (.error x, st1)
      | (.ok _, st1) => (.ok Value.none, st1)
    | Option.none => (.ok Value.none, st)
  | test :: tests, suites, st =>
    match visit (.expr test) st with
    | (.error x, st1) => (.error x, st1)
    | (.ok condition, st1) =>
      if condition.toBool D then
        match suites with
        | suite :: _ =>
          match visit (.suite suite) st1 with
          | (.error x, st2) => (.error x, st2)
          | (.ok _, st2) => (.ok Value.none, st2)
        | [] => (.error (.fault (.host "vector index")), st1)
      else visitIf_stmt D visit tests suites.tail st1

/-- The method `visitWhile_stmt`; the first argument bounds the number of times the
condition is evaluated. -/
def visitWhile_stmt (D : DoubleOps F) (visit : Visit F) (test : Expr) (suite : List Stmt) :
    Nat → St F → Res F (Value F)
  | 0, st => (.error (.fault .out_of_fuel), st)
  | n + 1, st =>
    match visit (.expr test) st with
    | (.error x, st1) => (.error x, st1)
    | (.ok condition, st1) =>
      if !condition.toBool D then (.ok Value.none, st1)
      else
        match visit (.suite suite) st1 with
        | (.error .BreakException, st2) => (.ok Value.none, st2)
        | (.error .ContinueException, st2) => visitWhile_stmt D visit test suite n st2
        | (.error x, st2) => (.error x, st2)
        | (.ok _, st2) => visitWhile_stmt D visit test suite n st2

/-- The loop of `visitFuncdef` over the parameters from index `i` on: the default
expression `tests[i - defaultStart]` is visited for every `i >= defaultStart`. -/
def defaultsLoop (visit : Visit F) (tests : List Expr) (defaultStart : Int) :
    List (List Char) → Nat → List (Value F) → St F → Res F (List (Value F))
  | [], _, defaults, st => (.ok defaults, st)
  | _ :: ps, i, defaults, st =>
    if (i : Int) ≥ defaultStart then
      match tests.get? ((i : Int) - defaultStart).toNat with
      | Option.none => (.error (.fault (.host "vector index")), st)
      | some test =>
        match visit (.expr test) st with
        | (.error x, st1) => (.error x, st1)
        | (.ok defaultVal, st1) =>
          defaultsLoop visit tests defaultStart ps (i + 1) (defaults ++ [defaultVal]) st1
    else defaultsLoop visit tests defaultStart ps (i + 1) defaults st

/-- The method `visitFuncdef`. -/
def visitFuncdef (visit : Visit F) (funcName : List Char) (tfpdefs : List (List Char))
    (tests : List Expr) (suite : List Stmt) (st : St F) : Res F (Value F) :=
  match defaultsLoop visit tests ((tfpdefs.length : Int) - (tests.length : Int)) tfpdefs 0 [] st with
  | (.error x, st1) => (.error x, st1)
  | (.ok defaults, st1) =>
    let func : FunctionDef F := { params := tfpdefs, defaults := defaults, body := suite }
    (.ok Value.none, { st1 with functions := assignFunction st1.functions funcName func })

/-- The dispatch `visit(tree)`.  The first argument is the fuel: it bounds the depth of
nested visits and, in each loop that has no other bound, the number of iterations. -/
def visit (H : Host F) : Nat → Tree → St F → Res F (Value F)
  | 0, _, st => (.error (.fault .out_of_fuel), st)
  | fuel + 1, tree, st =>
    match tree with
    | .expr (.or_test first rest) => visitOr_test H.double (visit H fuel) first rest st
    | .expr (.and_test first rest) => visitAnd_test H.double (visit H fuel) first rest st
    | .expr (.not_test operand) => visitNot_test H.double (visit H fuel) operand st
    | .expr (.comparison first rest) => visitComparison H.double (visit H fuel) first rest st
    | .expr (.arith_expr first rest) => visitArith_expr H.double (visit H fuel) first rest st
    | .expr (.term first rest) => visitTerm H.double fuel (visit H fuel) first rest st
    | .expr (.factor op operand) => visitFactor H.double (visit H fuel) op operand st
    | .expr (.atom_expr atom trailer) => visitAtom_expr H (visit H fuel) atom trailer st
    | .testlist tests => visitTestlist (visit H fuel) tests st
    | .argument a => visitArgument (visit H fuel) a st
    | .stmt (.expr_stmt testlists augassign) =>
      visitExpr_stmt H.double fuel (visit H fuel) testlists augassign st
    | .stmt .break_stmt => (.error .BreakException, st)
    | .stmt .continue_stmt => (.error .ContinueException, st)
    | .stmt (.return_stmt testlist) => visitReturn_stmt (visit H fuel) testlist st
    | .stmt (.if_stmt tests suites) => visitIf_stmt H.double (visit H fuel) tests suites st
    | .stmt (.while_stmt test suite) =>
      visitWhile_stmt H.double (visit H fuel) test suite fuel st
    | .stmt (.funcdef name tfpdefs tests suite) =>
      visitFuncdef (visit H fuel) name tfpdefs tests suite st
    | .suite stmts => visitChildren (visit H fuel) stmts Value.none st

/-- The method `visitFile_input` on a fresh `EvalVisitor`. -/
def visitFile_input (H : Host F) (fuel : Nat) (stmts : List Stmt) : Res F (Value F) :=
  visit H fuel (.suite stmts)
    { env := { globalScope := [], scopeStack := [] }, functions := [], out := [] }

end Visitors


/-! ## Programs for the examples -/

/-- A host whose `double` carries no information and whose fragment parser gives no
tree; it serves for running programs that use neither. -/
def plainHost : Host Unit where
  double :=
    { zero := (), one := (), add := fun _ _ => (), sub := fun _ _ => (), mul := fun _ _ => (),
      div := fun _ _ => (), neg := fun _ => (), floor := fun _ => (), fmod := fun _ _ => (),
      lt := fun _ _ => false, eq := fun _ _ => true,
      stod := fun _ => .error (.host "std::invalid_argument"),
      toLongLong := fun _ => 0, fixed6 := fun _ => [] }
  parseTest := fun _ => Option.none

/-- The expression that is the name `n`. -/
def nameExpr (n : String) : Expr := .atom_expr (.NAME n.toList) Option.none

/-- The expression that is the integer literal with text `n`. -/
def numExpr (n : String) : Expr := .atom_expr (.NUMBER n.toList) Option.none

/-- The call `f(args)`; an empty argument list is the trailer `()`. -/
def callExpr (f : String) (args : List Argument) : Expr :=
  .atom_expr (.NAME f.toList) (some (.mk (if args.isEmpty then Option.none else some args)))

/-- The statement `target = value`. -/
def assignStmt (target : String) (value : Expr) : Stmt :=
  .expr_stmt [[nameExpr target], [value]] Option.none

/-- The expression statement `e`. -/
def exprStmt (e : Expr) : Stmt := .expr_stmt [[e]] Option.none

/-- The statement `return e`. -/
def returnStmt (e : Expr) : Stmt := .return_stmt (some [e])

/-- The statement `def name(params): body`, with the default expressions `defaults` of
its last parameters. -/
def defStmt (name : String) (params : List String) (defaults : List Expr)
    (body : List Stmt) : Stmt :=
  Stmt.funcdef name.toList (params.map String.toList) defaults body

/-- The program
`def f(): break`, `i = 0`, `while i < 1:` `f()`, `i = 1`. -/
def breakInCallee : List Stmt :=
  [ defStmt "f" [] [] [.break_stmt],
    assignStmt "i" (numExpr "0"),
    .while_stmt (.comparison (nameExpr "i") [(.lt, numExpr "1")])
      [exprStmt (callExpr "f" []), assignStmt "i" (numExpr "1")] ]

/-- The program
`def f(): continue`, `i = 0`, `while i < 1:` `i = 1`, `f()`. -/
def continueInCallee : List Stmt :=
  [ defStmt "f" [] [] [.continue_stmt],
    assignStmt "i" (numExpr "0"),
    .while_stmt (.comparison (nameExpr "i") [(.lt, numExpr "1")])
      [assignStmt "i" (numExpr "1"), exprStmt (callExpr "f" [])] ]

/-- The program
`def f(): return 1`, `i = 0`, `while i < 1:` `f()`, `i = 1`. -/
def returnInCallee : List Stmt :=
  [ defStmt "f" [] [] [returnStmt (numExpr "1")],
    assignStmt "i" (numExpr "0"),
    .while_stmt (.comparison (nameExpr "i") [(.lt, numExpr "1")])
      [exprStmt (callExpr "f" []), assignStmt "i" (numExpr "1")] ]

/-- The program `x = 5`, `def f(x): return x`, `f(10)`, `print(x)`. -/
def parameterShadowsGlobal : List Stmt :=
  [ assignStmt "x" (numExpr "5"),
    defStmt "f" ["x"] [] [returnStmt (nameExpr "x")],
    exprStmt (callExpr "f" [.test (numExpr "10")]),
    exprStmt (callExpr "print" [.test (nameExpr "x")]) ]

/-- The program `def g(x): return x`, `def f(x):` `g(10)`, `return x`, `print(f(5))`. -/
def parameterShadowsCaller : List Stmt :=
  [ defStmt "g" ["x"] [] [returnStmt (nameExpr "x")],
    defStmt "f" ["x"] []
      [exprStmt (callExpr "g" [.test (numExpr "10")]), returnStmt (nameExpr "x")],
    exprStmt (callExpr "print" [.test (callExpr "f" [.test (numExpr "5")])]) ]

/-- A state in which the function `g` with body `return y` is defined, the global scope
is empty and the only local scope, the caller's, binds `y` to the integer `n`. -/
def callerBinds (n : String) : St Unit :=
  { env := { globalScope := [],
             scopeStack := [[("y".toList, Value.int (BigInt.ofString n.toList))]] },
    functions := [("g".toList, { params := [], defaults := [],
                                  body := [returnStmt (nameExpr "y")] })],
    out := [] }

/-- The program `def f(y=10): return y`, `print(f())`. -/
def defaultWithEmptyCall : List Stmt :=
  [ defStmt "f" ["y"] [numExpr "10"] [returnStmt (nameExpr "y")],
    exprStmt (callExpr "print" [.test (callExpr "f" [])]) ]

/-- The program `def f(x, y=10): return x + y`, `print(f(1))`, `print(f(1, 2))`,
`print(f(y=5, x=3))`. -/
def defaultsScenario : List Stmt :=
  [ defStmt "f" ["x", "y"] [numExpr "10"]
      [returnStmt (.arith_expr (nameExpr "x") [(.plus, nameExpr "y")])],
    exprStmt (callExpr "print" [.test (callExpr "f" [.test (numExpr "1")])]),
    exprStmt (callExpr "print"
      [.test (callExpr "f" [.test (numExpr "1"), .test (numExpr "2")])]),
    exprStmt (callExpr "print"
      [.test (callExpr "f" [.keyword "y".toList (numExpr "5"),
        .keyword "x".toList (numExpr "3")])]) ]

/-- The program `def f(x): return x`, `print(f(1, x=2))`, `print(f(x=3, x=4))`. -/
def duplicateBinding : List Stmt :=
  [ defStmt "f" ["x"] [] [returnStmt (nameExpr "x")],
    exprStmt (callExpr "print"
      [.test (callExpr "f" [.test (numExpr "1"), .keyword "x".toList (numExpr "2")])]),
    exprStmt (callExpr "print"
      [.test (callExpr "f" [.keyword "x".toList (numExpr "3"),
        .keyword "x".toList (numExpr "4")])]) ]

/-- The program `def f(x): return x`, `print(f(1, 2))`, `print(f(1, print(9)))`. -/
def excessPositional : List Stmt :=
  [ defStmt "f" ["x"] [] [returnStmt (nameExpr "x")],
    exprStmt (callExpr "print"
      [.test (callExpr "f" [.test (numExpr "1"), .test (numExpr "2")])]),
    exprStmt (callExpr "print"
      [.test (callExpr "f" [.test (numExpr "1"),
        .test (callExpr "print" [.test (numExpr "9")])])]) ]

/-- A state in which only the function `f(x)` with body `return x` is defined. -/
def onlyF : St Unit :=
  { env := { globalScope := [], scopeStack := [] },
    functions := [("f".toList, { params := ["x".toList], defaults := [],
                                  body := [returnStmt (nameExpr "x")] })],
    out := [] }

/-- The outcome is a returned value, not an exception. -/
def Res.isOk {F : Type} {α : Type} (r : Res F α) : Bool :=
  match r.1 with
  | .ok _ => true
  | .error _ => false

/-- The outcome is a `BreakException`. -/
def Res.isBreak {F : Type} {α : Type} (r : Res F α) : Bool :=
  match r.1 with
  | .error .BreakException => true
  | _ => false

/-- The outcome is a `ContinueException`. -/
def Res.isContinue {F : Type} {α : Type} (r : Res F α) : Bool :=
  match r.1 with
  | .error .ContinueException => true
  | _ => false

/-! ## Meaning of digit strings and of BigInts -/

/-- The natural number written by a string of decimal digits, most significant first. -/
def natOf (s : List Char) : Nat :=
  s.foldl (fun acc c => 10 * acc + (c.toNat - 48)) 0

/-- Every character is one of `'0'` … `'9'`. -/
def allDigits (s : List Char) : Prop := ∀ c ∈ s, 48 ≤ c.toNat ∧ c.toNat ≤ 57

/-- A magnitude: a non-empty digit string without a leading zero, except `"0"` itself. -/
def Magnitude (s : List Char) : Prop :=
  allDigits s ∧ s ≠ [] ∧ (s.head? = some '0' → s = ['0'])

/-- The integer a BigInt denotes. -/
def BigInt.denote (x : BigInt) : Int :=
  if x.negative then -(natOf x.value : Int) else (natOf x.value : Int)

/-- The representation invariant of `BigInt`: the magnitude is a digit string with no
leading zeros except the single digit `0`, and zero is never negative. -/
def BigInt.WellFormed (x : BigInt) : Prop :=
  Magnitude x.value ∧ (x.value = ['0'] → x.negative = false)

instance (s : List Char) : Decidable (allDigits s) := by
  unfold allDigits; infer_instance

instance (s : List Char) : Decidable (Magnitude s) := by
  unfold Magnitude; infer_instance

instance (x : BigInt) : Decidable x.WellFormed := by
  unfold BigInt.WellFormed; infer_instance

/-- What `normalize` guarantees for every string, digits or not: a non-empty magnitude,
no leading `'0'` unless the magnitude is `"0"`, and no negative `"0"`. -/
def BigInt.NormalForm (x : BigInt) : Prop :=
  x.value ≠ [] ∧ (x.value.head? = some '0' → x.value = ['0']) ∧
    (x.value = ['0'] → x.negative = false)

instance (x : BigInt) : Decidable x.NormalForm := by
  unfold BigInt.NormalForm; infer_instance

/-! ## Auxiliary definitions for the multiplication loops -/

/-- The value of the `result` vector of `multiplyStrings`, most significant entry first. -/
def valI (r : List Int) : Int := r.foldl (fun acc x => 10 * acc + x) 0

/-- One pass of the inner loop body of `multiplyStrings`. -/
def mulStep (a b : List Char) (i j : Nat) (result : List Int) : List Int :=
  let sum := digitOf (a.getD i '0') * digitOf (b.getD j '0') + result.getD (i + j + 1) 0
  (result.set (i + j + 1) (sum.tmod 10)).set (i + j)
    ((result.set (i + j + 1) (sum.tmod 10)).getD (i + j) 0 + sum.tdiv 10)

/-- The step of the final loop of `multiplyStrings`, which skips leading zero entries. -/
def emitDigit (str : List Char) (i : Int) : List Char :=
  if str = [] ∧ i = 0 then str else str ++ [charOf i]

/-! ## A host with integral doubles, and further programs -/

/-- A host whose `double` holds an integer.  It agrees with `double` on what the
evaluator needs for integers below `2^53`: `stod` reads a digit string as the number
it writes, and the cast to `long long` gives that number back.  Its arithmetic is
integer arithmetic, with `0` standing for the quotient by zero, and is not meant to
describe `double` beyond that.  Its fragment parser gives no tree. -/
def integralHost : Host Int where
  double :=
    { zero := 0, one := 1, add := fun a b => a + b, sub := fun a b => a - b,
      mul := fun a b => a * b, div := fun a b => a / b, neg := fun a => -a,
      floor := fun a => a, fmod := fun a b => Int.tmod a b,
      lt := fun a b => decide (a < b), eq := fun a b => decide (a = b),
      stod := fun s =>
        if allDigits s ∧ s ≠ [] then .ok (natOf s : Int)
        else .error (.host "std::invalid_argument"),
      toLongLong := fun a => a, fixed6 := fun a => to_string a ++ ".000000".toList }
  parseTest := fun _ => Option.none

/-- The text of an element inside the parentheses that `toString` writes for a tuple:
a string in single quotes, any other value as `toString` renders it. -/
def Value.elemText {F : Type} (D : DoubleOps F) : Value F → List Char
  | .str strVal => "'".toList ++ strVal ++ "'".toList
  | v => v.toString D

/-- The expression that is the string literal with token text `text`. -/
def strExpr (text : String) : Expr := .atom_expr (.STRING [text.toList]) Option.none

/-- The statement `print(args)`. -/
def printStmt (args : List Expr) : Stmt :=
  exprStmt (callExpr "print" (args.map Argument.test))

/-- The program `print(int('abc'))`, `print(int('12x'))`, `print(int('--5'))`. -/
def intOfMalformed : List Stmt :=
  [ printStmt [callExpr "int" [.test (strExpr "'abc'")]],
    printStmt [callExpr "int" [.test (strExpr "'12x'")]],
    printStmt [callExpr "int" [.test (strExpr "'--5'")]] ]

/-- The program `x = 1 or print(9)`, `y = 0 and print(9)`, `z = 0 or 7`, `print(x, y, z)`. -/
def shortCircuit : List Stmt :=
  [ assignStmt "x" (.or_test (numExpr "1") [callExpr "print" [.test (numExpr "9")]]),
    assignStmt "y" (.and_test (numExpr "0") [callExpr "print" [.test (numExpr "9")]]),
    assignStmt "z" (.or_test (numExpr "0") [numExpr "7"]),
    printStmt [nameExpr "x", nameExpr "y", nameExpr "z"] ]

/-- The program `a, b = 1, 2`, `a, b = b, a`, `print(a, b)`. -/
def tupleSwap : List Stmt :=
  [ .expr_stmt [[nameExpr "a", nameExpr "b"], [numExpr "1", numExpr "2"]] Option.none,
    .expr_stmt [[nameExpr "a", nameExpr "b"], [nameExpr "b", nameExpr "a"]] Option.none,
    printStmt [nameExpr "a", nameExpr "b"] ]

/-- The program `a, b = 5`, `print(a, b)`. -/
def unpackNonTuple : List Stmt :=
  [ .expr_stmt [[nameExpr "a", nameExpr "b"], [numExpr "5"]] Option.none,
    printStmt [nameExpr "a", nameExpr "b"] ]

/-- The body of `def fact(n)`: `if n <= 1: return 1`, `return n * fact(n - 1)`. -/
def factBody : List Stmt :=
  [ .if_stmt [.comparison (nameExpr "n") [(.le, numExpr "1")]] [[returnStmt (numExpr "1")]],
    returnStmt (.term (nameExpr "n")
      [(.star, callExpr "fact"
        [.test (.arith_expr (nameExpr "n") [(.minus, numExpr "1")])])]) ]

/-- The entry of the function table that `def fact(n)` creates. -/
def factDef (F : Type) : FunctionDef F :=
  { params := ["n".toList], defaults := [], body := factBody }

/-- The program `def fact(n): ...`, `print(fact(25))`. -/
def factProgram : List Stmt :=
  [ defStmt "fact" ["n"] [] factBody,
    printStmt [callExpr "fact" [.test (numExpr "25")]] ]

/-- The program `print("ab" * 3)`, `print(3 * "ab")`, `print("x" * -2)`. -/
def repetitionProgram : List Stmt :=
  [ printStmt [.term (strExpr "\"ab\"") [(.star, numExpr "3")]],
    printStmt [.term (numExpr "3") [(.star, strExpr "\"ab\"")]],
    printStmt [.term (strExpr "\"x\"") [(.star, .factor .minus (numExpr "2"))]] ]

/-- The state of a fresh `EvalVisitor`. -/
def freshState (F : Type) : St F :=
  { env := { globalScope := [], scopeStack := [] }, functions := [], out := [] }

/-- The atom made of the adjacent literals `f"a"` and `"{{b}}"`. -/
def prefixedThenPlain : Atom :=
  .STRING ["f\"a\"".toList, "\"\x7b\x7bb\x7d\x7d\"".toList]

/-- The atom made of the adjacent literals `"{{b}}"` and `f"a"`. -/
def plainThenPrefixed : Atom :=
  .STRING ["\"\x7b\x7bb\x7d\x7d\"".toList, "f\"a\"".toList]

/-- The targets of an assignment that are the names `names`. -/
def nameTargets (names : List (List Char)) : List Expr :=
  names.map (fun n => Expr.atom_expr (.NAME n) Option.none)

/-- The bindings `name := value` made one after the other by `setValue`. -/
def bindAll {F : Type} (bs : List (List Char × Value F)) (st : St F) : St F :=
  bs.foldl (fun acc p => acc.setValue p.1 p.2) st

/-- A state at top level whose global scope binds `a` to `x` and `b` to `y`. -/
def globalsAB (x y : String) : St Unit :=
  { env := { globalScope := [("a".toList, .int (BigInt.ofString x.toList)),
                             ("b".toList, .int (BigInt.ofString y.toList))],
             scopeStack := [] },
    functions := [], out := [] }

/-- A state at top level in which only `fact` is defined. -/
def factState (F : Type) : St F :=
  { env := { globalScope := [], scopeStack := [] },
    functions := [("fact".toList, factDef F)], out := [] }

/-- The test that an f-string body has no unescaped `{`: scanning from the left, every
`{` is followed by a second `{`, and the scan goes on behind the pair. -/
def opensEscaped : List Char → Bool
  | [] => true
  | [c] => c ≠ '{'
  | c :: d :: rest =>
    if c = '{' then (if d = '{' then opensEscaped rest else false)
    else opensEscaped (d :: rest)

/-- The test that an f-string body has no lone `}`: scanning from the left, every `}` is
followed by a second `}`, and the scan goes on behind the pair. -/
def closesEscaped : List Char → Bool
  | [] => true
  | [c] => c ≠ '}'
  | c :: d :: rest =>
    if c = '}' then (if d = '}' then closesEscaped rest else false)
    else closesEscaped (d :: rest)

/-- The replacement the specification describes: every pair `{{` becomes `{`, every pair `}}`
becomes `}`, every other character stays. -/
def unescapePairs : List Char → List Char
  | [] => []
  | [c] => [c]
  | c :: d :: rest =>
    if c = '{' ∧ d = '{' then '{' :: unescapePairs rest
    else if c = '}' ∧ d = '}' then '}' :: unescapePairs rest
    else c :: unescapePairs (d :: rest)

/-- The replacement with lone `}` removed: every pair `{{` becomes `{`, every pair `}}`
becomes `}`, a `}` that is not the first of a pair is left out, every other character
stays. -/
def unescapeSkipping : List Char → List Char
  | [] => []
  | [c] => if c = '}' then [] else [c]
  | c :: d :: rest =>
    if c = '{' ∧ d = '{' then '{' :: unescapeSkipping rest
    else if c = '}' ∧ d = '}' then '}' :: unescapeSkipping rest
    else if c = '}' then unescapeSkipping (d :: rest)
    else c :: unescapeSkipping (d :: rest)

/-- The program `x = 5`, `def x(): return 1`, `print(x)`. -/
def functionShadowsVariable : List Stmt :=
  [ assignStmt "x" (numExpr "5"),
    defStmt "x" [] [] [returnStmt (numExpr "1")],
    printStmt [nameExpr "x"] ]

/-- An environment with two local scopes, the outer one binding `a`, and a global
scope binding `b`. -/
def sampleEnv : Env Unit :=
  { globalScope := [("b".toList, .int (BigInt.ofString "2".toList))],
    scopeStack := [[("a".toList, .int (BigInt.ofString "1".toList))], []] }

/-! ## Characters and digits -/

theorem digitOf_of_digit {c : Char} (h : 48 ≤ c.toNat ∧ c.toNat ≤ 57) :
    digitOf c = ((c.toNat - 48 : Nat) : Int) := by
  unfold digitOf
  omega

theorem charOf_toNat {d : Nat} (h : d ≤ 9) : (charOf (d : Int)).toNat = 48 + d := by
  interval_cases d <;> decide

theorem charOf_isDigit {d : Nat} (h : d ≤ 9) :
    48 ≤ (charOf (d : Int)).toNat ∧ (charOf (d : Int)).toNat ≤ 57 := by
  rw [charOf_toNat h]; omega

theorem charOf_dv {d : Nat} (h : d ≤ 9) : (charOf (d : Int)).toNat - 48 = d := by
  rw [charOf_toNat h]; omega

theorem char_eq_of_toNat {c d : Char} (h : c.toNat = d.toNat) : c = d := by
  rw [← Char.ofNat_toNat c, ← Char.ofNat_toNat d, h]

theorem zero_char_toNat : ('0' : Char).toNat = 48 := by decide

theorem eq_zero_char_iff {c : Char} : c = '0' ↔ c.toNat = 48 :=
  ⟨fun h => by rw [h]; decide, fun h => char_eq_of_toNat (by rw [h]; decide)⟩

/-! ## The value of a digit string -/

theorem natOf_nil : natOf [] = 0 := rfl

theorem natOf_foldl (s : List Char) (k : Nat) :
    s.foldl (fun acc c => 10 * acc + (c.toNat - 48)) k = k * 10 ^ s.length + natOf s := by
  induction s generalizing k with
  | nil => simp [natOf]
  | cons c s ih =>
    simp only [List.foldl_cons, natOf, List.length_cons]
    rw [ih (10 * k + (c.toNat - 48)), ih (10 * 0 + (c.toNat - 48))]
    ring

theorem natOf_cons (c : Char) (s : List Char) :
    natOf (c :: s) = (c.toNat - 48) * 10 ^ s.length + natOf s := by
  show List.foldl _ _ _ = _
  rw [List.foldl_cons, natOf_foldl]
  simp

theorem natOf_append (s t : List Char) :
    natOf (s ++ t) = natOf s * 10 ^ t.length + natOf t := by
  unfold natOf
  rw [List.foldl_append, natOf_foldl]
  rfl

theorem natOf_snoc (s : List Char) (c : Char) :
    natOf (s ++ [c]) = 10 * natOf s + (c.toNat - 48) := by
  rw [natOf_append, natOf_cons]
  simp [natOf_nil]
  ring

theorem natOf_singleton (c : Char) : natOf [c] = c.toNat - 48 := by
  rw [natOf_cons]; simp [natOf_nil]

theorem allDigits_nil : allDigits [] := by
  intro c hc; cases hc

theorem allDigits_cons {c : Char} {s : List Char} :
    allDigits (c :: s) ↔ (48 ≤ c.toNat ∧ c.toNat ≤ 57) ∧ allDigits s := by
  unfold allDigits
  simp

theorem allDigits_append {s t : List Char} :
    allDigits (s ++ t) ↔ allDigits s ∧ allDigits t := by
  unfold allDigits
  simp only [List.mem_append]
  constructor
  · intro h
    exact ⟨fun c hc => h c (Or.inl hc), fun c hc => h c (Or.inr hc)⟩
  · rintro ⟨h1, h2⟩ c (hc | hc)
    · exact h1 c hc
    · exact h2 c hc

theorem allDigits_reverse {s : List Char} : allDigits s.reverse ↔ allDigits s := by
  unfold allDigits
  simp

theorem natOf_lt {s : List Char} (h : allDigits s) : natOf s < 10 ^ s.length := by
  induction s with
  | nil => simp [natOf_nil]
  | cons c s ih =>
    rw [allDigits_cons] at h
    rw [natOf_cons, List.length_cons, pow_succ]
    have := ih h.2
    have hc : c.toNat - 48 ≤ 9 := by omega
    nlinarith

/-! ## Leading zeros -/

theorem dropZeros_cons_zero (s : List Char) : dropZeros ('0' :: s) = dropZeros s := by
  simp [dropZeros, List.dropWhile_cons]

theorem dropZeros_cons_ne {c : Char} (s : List Char) (h : c ≠ '0') :
    dropZeros (c :: s) = c :: s := by
  simp [dropZeros, List.dropWhile_cons, h]

theorem natOf_dropZeros (s : List Char) : natOf (dropZeros s) = natOf s := by
  induction s with
  | nil => rfl
  | cons c s ih =>
    by_cases hc : c = '0'
    · subst hc
      rw [dropZeros_cons_zero, ih, natOf_cons]
      simp [zero_char_toNat]
    · rw [dropZeros_cons_ne s hc]

theorem dropZeros_sublist (s : List Char) : ∀ c ∈ dropZeros s, c ∈ s := by
  intro c hc
  exact (List.dropWhile_sublist _).subset hc

theorem dropZeros_head (s : List Char) : (dropZeros s).head? ≠ some '0' := by
  induction s with
  | nil => simp [dropZeros]
  | cons c s ih =>
    by_cases hc : c = '0'
    · subst hc
      rw [dropZeros_cons_zero]; exact ih
    · rw [dropZeros_cons_ne s hc]
      simpa using hc

theorem dropZeros_of_head {s : List Char} (h : s.head? ≠ some '0') : dropZeros s = s := by
  cases s with
  | nil => rfl
  | cons c s =>
    apply dropZeros_cons_ne
    simpa using h

theorem magnitude_zero : Magnitude ['0'] := by decide

theorem natOf_zero_str : natOf ['0'] = 0 := by decide

theorem stripZeros_magnitude {s : List Char} (h : allDigits s) : Magnitude (stripZeros s) := by
  unfold stripZeros
  have hsub := dropZeros_sublist s
  have hhead := dropZeros_head s
  cases hd : dropZeros s with
  | nil => exact magnitude_zero
  | cons v vs =>
    rw [hd] at hsub hhead
    refine ⟨fun c hc => h c (hsub c hc), by simp, fun h0 => absurd h0 hhead⟩

theorem natOf_stripZeros (s : List Char) : natOf (stripZeros s) = natOf s := by
  unfold stripZeros
  have hv := natOf_dropZeros s
  cases hd : dropZeros s with
  | nil => rw [hd] at hv; rw [← hv]; decide
  | cons v vs => rw [hd] at hv; exact hv

theorem stripZeros_of_magnitude {s : List Char} (h : Magnitude s) : stripZeros s = s := by
  obtain ⟨_, hne, hz⟩ := h
  by_cases h0 : s.head? = some '0'
  · rw [hz h0]; decide
  · unfold stripZeros
    rw [dropZeros_of_head h0]
    cases s with
    | nil => exact absurd rfl hne
    | cons c s => rfl

/-- A magnitude other than `"0"` starts with a digit from 1 to 9. -/
theorem magnitude_pos {s : List Char} (h : Magnitude s) (hz : s ≠ ['0']) :
    10 ^ (s.length - 1) ≤ natOf s := by
  obtain ⟨hd, hne, hlead⟩ := h
  cases s with
  | nil => exact absurd rfl hne
  | cons c s =>
    have hc0 : c ≠ '0' := by
      intro hc
      apply hz
      apply hlead
      simp [hc]
    have hc := (allDigits_cons.mp hd).1
    have : c.toNat ≠ 48 := fun h => hc0 (eq_zero_char_iff.mpr h)
    rw [natOf_cons]
    simp only [List.length_cons, Nat.add_sub_cancel]
    have h1 : 1 ≤ c.toNat - 48 := by omega
    calc 10 ^ s.length = 1 * 10 ^ s.length := by ring
      _ ≤ (c.toNat - 48) * 10 ^ s.length := Nat.mul_le_mul_right _ h1
      _ ≤ _ := Nat.le_add_right _ _

theorem magnitude_natOf_eq_zero {s : List Char} (h : Magnitude s) :
    natOf s = 0 ↔ s = ['0'] := by
  constructor
  · intro h0
    by_contra hz
    have := magnitude_pos h hz
    have hp : 0 < 10 ^ (s.length - 1) := by positivity
    omega
  · intro hs; rw [hs]; decide

theorem magnitude_length_le {s t : List Char} (hs : Magnitude s) (ht : Magnitude t)
    (h : natOf s ≤ natOf t) : s.length ≤ t.length := by
  by_cases hz : s = ['0']
  · subst hz
    have : t ≠ [] := ht.2.1
    cases t with
    | nil => exact absurd rfl this
    | cons c t => simp
  · have h1 := magnitude_pos hs hz
    have h2 := natOf_lt ht.1
    by_contra hlt
    have : t.length ≤ s.length - 1 := by omega
    have := Nat.pow_le_pow_right (show 0 < 10 by norm_num) this
    omega

theorem natOf_inj_of_length {s t : List Char} (hs : allDigits s) (ht : allDigits t)
    (hl : s.length = t.length) (h : natOf s = natOf t) : s = t := by
  induction s generalizing t with
  | nil =>
    cases t with
    | nil => rfl
    | cons c t => simp at hl
  | cons c s ih =>
    cases t with
    | nil => simp at hl
    | cons d t =>
      simp only [List.length_cons, Nat.add_right_cancel_iff] at hl
      rw [allDigits_cons] at hs ht
      rw [natOf_cons, natOf_cons, hl] at h
      have h1 := natOf_lt hs.2
      have h2 := natOf_lt ht.2
      rw [hl] at h1
      have hcd : c.toNat - 48 = d.toNat - 48 := by
        by_contra hne
        rcases Nat.lt_or_gt_of_ne hne with hlt | hlt
        · have : (c.toNat - 48 + 1) * 10 ^ t.length ≤ (d.toNat - 48) * 10 ^ t.length :=
            Nat.mul_le_mul_right _ hlt
          nlinarith
        · have : (d.toNat - 48 + 1) * 10 ^ t.length ≤ (c.toNat - 48) * 10 ^ t.length :=
            Nat.mul_le_mul_right _ hlt
          nlinarith
      rw [hcd] at h
      have hst : natOf s = natOf t := by omega
      have hc : c = d := char_eq_of_toNat (by omega)
      rw [hc, ih hs.2 ht.2 hl hst]

/-- Two magnitudes with the same value are the same string. -/
theorem magnitude_inj {s t : List Char} (hs : Magnitude s) (ht : Magnitude t)
    (h : natOf s = natOf t) : s = t :=
  natOf_inj_of_length hs.1 ht.1
    (Nat.le_antisymm (magnitude_length_le hs ht (by omega)) (magnitude_length_le ht hs (by omega))) h

/-! ## compareStrings -/

theorem compareBytes_spec {s t : List Char} (hs : allDigits s) (ht : allDigits t)
    (hl : s.length = t.length) :
    (BigInt.compareBytes s t < 0 ↔ natOf s < natOf t) ∧
    (BigInt.compareBytes s t = 0 ↔ natOf s = natOf t) ∧
    (BigInt.compareBytes s t > 0 ↔ natOf s > natOf t) := by
  induction s generalizing t with
  | nil =>
    cases t with
    | nil => simp [BigInt.compareBytes]
    | cons c t => simp at hl
  | cons c s ih =>
    cases t with
    | nil => simp at hl
    | cons d t =>
      simp only [List.length_cons, Nat.add_right_cancel_iff] at hl
      rw [allDigits_cons] at hs ht
      have h1 := natOf_lt hs.2
      have h2 := natOf_lt ht.2
      rw [hl] at h1
      obtain ⟨i1, i2, i3⟩ := ih hs.2 ht.2 hl
      simp only [BigInt.compareBytes, natOf_cons, hl]
      by_cases hlt : c.toNat < d.toNat
      · simp only [hlt, if_true]
        have : (c.toNat - 48 + 1) * 10 ^ t.length ≤ (d.toNat - 48) * 10 ^ t.length :=
          Nat.mul_le_mul_right _ (by omega)
        refine ⟨⟨fun _ => by nlinarith, fun _ => by norm_num⟩,
          ⟨fun h => by norm_num at h, fun h => by nlinarith⟩,
          ⟨fun h => by norm_num at h, fun h => by nlinarith⟩⟩
      · simp only [hlt, if_false]
        by_cases hgt : d.toNat < c.toNat
        · simp only [hgt, if_true]
          have : (d.toNat - 48 + 1) * 10 ^ t.length ≤ (c.toNat - 48) * 10 ^ t.length :=
            Nat.mul_le_mul_right _ (by omega)
          refine ⟨⟨fun h => by norm_num at h, fun h => by nlinarith⟩,
            ⟨fun h => by norm_num at h, fun h => by nlinarith⟩,
            ⟨fun _ => by nlinarith, fun _ => by norm_num⟩⟩
        · simp only [hgt, if_false]
          have hcd : c.toNat = d.toNat := by omega
          rw [hcd]
          refine ⟨i1.trans (by omega), i2.trans (by omega), i3.trans (by omega)⟩

theorem compareStrings_spec {s t : List Char} (hs : Magnitude s) (ht : Magnitude t) :
    (BigInt.compareStrings s t < 0 ↔ natOf s < natOf t) ∧
    (BigInt.compareStrings s t = 0 ↔ natOf s = natOf t) ∧
    (BigInt.compareStrings s t > 0 ↔ natOf s > natOf t) := by
  unfold BigInt.compareStrings
  by_cases hl : s.length = t.length
  · simp only [hl, ne_eq, not_true_eq_false, if_false]
    exact compareBytes_spec hs.1 ht.1 hl
  · simp only [hl, ne_eq, not_false_eq_true, if_true]
    by_cases hgt : s.length > t.length
    · simp only [hgt, if_true]
      have : natOf t < natOf s := by
        by_contra hle
        have := magnitude_length_le hs ht (by omega)
        omega
      refine ⟨⟨fun h => by norm_num at h, fun h => by omega⟩,
        ⟨fun h => by norm_num at h, fun h => by omega⟩, ⟨fun _ => this, fun _ => by norm_num⟩⟩
    · simp only [hgt, if_false]
      have : natOf s < natOf t := by
        by_contra hle
        have := magnitude_length_le ht hs (by omega)
        omega
      refine ⟨⟨fun _ => this, fun _ => by norm_num⟩,
        ⟨fun h => by norm_num at h, fun h => by omega⟩, ⟨fun h => by norm_num at h, fun h => by omega⟩⟩

/-! ## addStrings -/

theorem tdiv_natCast (n : Nat) : Int.tdiv (n : Int) 10 = ((n / 10 : Nat) : Int) :=
  (Int.ofNat_tdiv n 10).symm

theorem tmod_natCast (n : Nat) : Int.tmod (n : Int) 10 = ((n % 10 : Nat) : Int) :=
  (Int.ofNat_tmod n 10).symm

theorem addCarry_spec (fuel k : Nat) (hk : k ≤ 1) (hf : k ≤ fuel) (result : List Char) :
    ∃ ds, BigInt.addCarry fuel (k : Int) result = ds ++ result ∧ allDigits ds ∧ natOf ds = k := by
  cases fuel with
  | zero =>
    have : k = 0 := by omega
    subst this
    exact ⟨[], rfl, allDigits_nil, rfl⟩
  | succ fuel =>
    by_cases h0 : k = 0
    · subst h0
      exact ⟨[], by simp [BigInt.addCarry], allDigits_nil, rfl⟩
    · have h1 : k = 1 := by omega
      subst h1
      refine ⟨[charOf 1], ?_, ?_, ?_⟩
      · cases fuel <;> simp [BigInt.addCarry, Int.tdiv, Int.tmod]
      · decide
      · decide

theorem addLoopB_spec (rb : List Char) (hb : allDigits rb) (k : Nat) (hk : k ≤ 1)
    (result : List Char) :
    ∃ ds, BigInt.addLoopB rb (k : Int) result = ds ++ result ∧ allDigits ds ∧
      natOf ds = natOf rb.reverse + k := by
  induction rb generalizing k result with
  | nil =>
    obtain ⟨ds, h1, h2, h3⟩ := addCarry_spec k k hk (Nat.le_refl _) result
    refine ⟨ds, ?_, h2, by simpa [natOf_nil] using h3⟩
    simpa [BigInt.addLoopB] using h1
  | cons y rb ih =>
    rw [allDigits_cons] at hb
    have hy := digitOf_of_digit hb.1
    have hsum : (k : Int) + digitOf y = ((k + (y.toNat - 48) : Nat) : Int) := by
      rw [hy]; push_cast; rfl
    obtain ⟨ds, h1, h2, h3⟩ := ih hb.2 ((k + (y.toNat - 48)) / 10) (by omega)
      (charOf (((k + (y.toNat - 48)) % 10 : Nat) : Int) :: result)
    refine ⟨ds ++ [charOf (((k + (y.toNat - 48)) % 10 : Nat) : Int)], ?_, ?_, ?_⟩
    · simp only [BigInt.addLoopB, hsum, tdiv_natCast, tmod_natCast]
      rw [h1]; simp
    · rw [allDigits_append]
      refine ⟨h2, ?_⟩
      intro c hc
      simp only [List.mem_singleton] at hc
      subst hc
      exact charOf_isDigit (by omega)
    · rw [natOf_snoc, h3, List.reverse_cons, natOf_snoc, charOf_dv (by omega)]
      omega

theorem addLoop_spec (ra rb : List Char) (ha : allDigits ra) (hb : allDigits rb) (k : Nat)
    (hk : k ≤ 1) (result : List Char) :
    ∃ ds, BigInt.addLoop ra rb (k : Int) result = ds ++ result ∧ allDigits ds ∧
      natOf ds = natOf ra.reverse + natOf rb.reverse + k := by
  induction ra generalizing rb k result with
  | nil =>
    obtain ⟨ds, h1, h2, h3⟩ := addLoopB_spec rb hb k hk result
    refine ⟨ds, ?_, h2, by simpa [natOf_nil] using h3⟩
    simpa [BigInt.addLoop] using h1
  | cons x ra ih =>
    rw [allDigits_cons] at ha
    have hx := digitOf_of_digit ha.1
    cases rb with
    | nil =>
      have hsum : (k : Int) + digitOf x = ((k + (x.toNat - 48) : Nat) : Int) := by
        rw [hx]; push_cast; rfl
      obtain ⟨ds, h1, h2, h3⟩ := ih [] ha.2 allDigits_nil ((k + (x.toNat - 48)) / 10) (by omega)
        (charOf (((k + (x.toNat - 48)) % 10 : Nat) : Int) :: result)
      refine ⟨ds ++ [charOf (((k + (x.toNat - 48)) % 10 : Nat) : Int)], ?_, ?_, ?_⟩
      · simp only [BigInt.addLoop, hsum, tdiv_natCast, tmod_natCast]
        rw [h1]; simp
      · rw [allDigits_append]
        refine ⟨h2, ?_⟩
        intro c hc
        simp only [List.mem_singleton] at hc
        subst hc
        exact charOf_isDigit (by omega)
      · rw [natOf_snoc, h3, List.reverse_cons, natOf_snoc, charOf_dv (by omega)]
        simp only [List.reverse_nil, natOf_nil]
        omega
    | cons y rb =>
      rw [allDigits_cons] at hb
      have hy := digitOf_of_digit hb.1
      have hsum : (k : Int) + digitOf x + digitOf y =
          ((k + (x.toNat - 48) + (y.toNat - 48) : Nat) : Int) := by
        rw [hx, hy]; push_cast; rfl
      obtain ⟨ds, h1, h2, h3⟩ := ih rb ha.2 hb.2 ((k + (x.toNat - 48) + (y.toNat - 48)) / 10)
        (by omega) (charOf (((k + (x.toNat - 48) + (y.toNat - 48)) % 10 : Nat) : Int) :: result)
      refine ⟨ds ++ [charOf (((k + (x.toNat - 48) + (y.toNat - 48)) % 10 : Nat) : Int)],
        ?_, ?_, ?_⟩
      · simp only [BigInt.addLoop, hsum, tdiv_natCast, tmod_natCast]
        rw [h1]; simp
      · rw [allDigits_append]
        refine ⟨h2, ?_⟩
        intro c hc
        simp only [List.mem_singleton] at hc
        subst hc
        exact charOf_isDigit (by omega)
      · rw [natOf_snoc, h3, List.reverse_cons, natOf_snoc, List.reverse_cons, natOf_snoc,
          charOf_dv (by omega)]
        omega

/-- On digit strings `addStrings` writes the sum of the two values. -/
theorem addStrings_spec {a b : List Char} (ha : allDigits a) (hb : allDigits b) :
    allDigits (BigInt.addStrings a b) ∧ natOf (BigInt.addStrings a b) = natOf a + natOf b := by
  obtain ⟨ds, h1, h2, h3⟩ := addLoop_spec a.reverse b.reverse (allDigits_reverse.mpr ha)
    (allDigits_reverse.mpr hb) 0 (by omega) []
  unfold BigInt.addStrings
  rw [show ((0 : Int)) = ((0 : Nat) : Int) from rfl, h1]
  simp only [List.append_nil, List.reverse_reverse, Nat.add_zero] at h3 ⊢
  exact ⟨h2, h3⟩

/-! ## subtractStrings -/

theorem subLoop_step (x : Char) (ra rb : List Char) (k dy : Nat) (result : List Char)
    (hx : 48 ≤ x.toNat ∧ x.toNat ≤ 57) (hk : k ≤ 1) (hdy : dy ≤ 9)
    (hrb : (match rb with
      | [] => digitOf x - (k : Int)
      | y :: _ => digitOf x - (k : Int) - digitOf y) = ((x.toNat - 48 : Nat) : Int) - k - dy) :
    BigInt.subLoop (x :: ra) rb (k : Int) result =
      BigInt.subLoop ra rb.tail (((if x.toNat - 48 < k + dy then 1 else 0 : Nat) : Nat) : Int)
        (charOf (((if x.toNat - 48 < k + dy then x.toNat - 48 + 10 - k - dy
          else x.toNat - 48 - k - dy : Nat) : Nat) : Int) :: result) := by
  simp only [BigInt.subLoop, hrb]
  by_cases hlt : x.toNat - 48 < k + dy
  · have h1 : ((x.toNat - 48 : Nat) : Int) - k - dy < 0 := by omega
    simp only [h1, hlt, if_true]
    congr 3
    omega
  · have h1 : ¬ (((x.toNat - 48 : Nat) : Int) - k - dy < 0) := by omega
    simp only [h1, hlt, if_false]
    congr 3
    omega

theorem subLoop_spec (ra rb : List Char) (ha : allDigits ra) (hb : allDigits rb)
    (hl : rb.length ≤ ra.length) (k : Nat) (hk : k ≤ 1) (result : List Char) :
    ∃ (ds : List Char) (bout : Nat), BigInt.subLoop ra rb (k : Int) result = ds ++ result ∧
      allDigits ds ∧ ds.length = ra.length ∧ bout ≤ 1 ∧
      natOf ds + natOf rb.reverse + k = natOf ra.reverse + bout * 10 ^ ra.length := by
  induction ra generalizing rb k result with
  | nil =>
    have : rb = [] := by
      cases rb with
      | nil => rfl
      | cons y rb => simp at hl
    subst this
    exact ⟨[], k, rfl, allDigits_nil, rfl, hk, by simp [natOf_nil]⟩
  | cons x ra ih =>
    rw [allDigits_cons] at ha
    have hx := digitOf_of_digit ha.1
    cases rb with
    | nil =>
      have hstep := subLoop_step x ra [] k 0 result ha.1 hk (by omega) (by simp [hx])
      obtain ⟨ds, bout, h1, h2, h3, h4, h5⟩ := ih [] ha.2 allDigits_nil (by simp)
        (if x.toNat - 48 < k + 0 then 1 else 0) (by split <;> omega)
        (charOf (((if x.toNat - 48 < k + 0 then x.toNat - 48 + 10 - k - 0
          else x.toNat - 48 - k - 0 : Nat) : Nat) : Int) :: result)
      refine ⟨ds ++ [charOf (((if x.toNat - 48 < k + 0 then x.toNat - 48 + 10 - k - 0
          else x.toNat - 48 - k - 0 : Nat) : Nat) : Int)], bout, ?_, ?_, ?_, h4, ?_⟩
      · rw [hstep]
        simp only [List.tail_nil]
        rw [h1]; simp
      · rw [allDigits_append]
        refine ⟨h2, ?_⟩
        intro c hc
        simp only [List.mem_singleton] at hc
        subst hc
        exact charOf_isDigit (by split <;> omega)
      · simp [h3]
      · rw [natOf_snoc, List.reverse_cons, natOf_snoc, charOf_dv (by split <;> omega),
          List.length_cons, pow_succ,
          show bout * (10 ^ ra.length * 10) = 10 * (bout * 10 ^ ra.length) by ring]
        simp only [List.reverse_nil, natOf_nil] at h5 ⊢
        split <;> rename_i hc <;> simp only [hc, if_true, if_false] at h5 <;> omega
    | cons y rb =>
      rw [allDigits_cons] at hb
      have hy := digitOf_of_digit hb.1
      have hstep := subLoop_step x ra (y :: rb) k (y.toNat - 48) result ha.1 hk (by omega)
        (by simp [hx, hy])
      simp only [List.length_cons, Nat.add_le_add_iff_right] at hl
      obtain ⟨ds, bout, h1, h2, h3, h4, h5⟩ := ih rb ha.2 hb.2 hl
        (if x.toNat - 48 < k + (y.toNat - 48) then 1 else 0) (by split <;> omega)
        (charOf (((if x.toNat - 48 < k + (y.toNat - 48) then x.toNat - 48 + 10 - k - (y.toNat - 48)
          else x.toNat - 48 - k - (y.toNat - 48) : Nat) : Nat) : Int) :: result)
      refine ⟨ds ++ [charOf (((if x.toNat - 48 < k + (y.toNat - 48)
          then x.toNat - 48 + 10 - k - (y.toNat - 48)
          else x.toNat - 48 - k - (y.toNat - 48) : Nat) : Nat) : Int)], bout, ?_, ?_, ?_, h4, ?_⟩
      · rw [hstep]
        simp only [List.tail_cons]
        rw [h1]; simp
      · rw [allDigits_append]
        refine ⟨h2, ?_⟩
        intro c hc
        simp only [List.mem_singleton] at hc
        subst hc
        exact charOf_isDigit (by split <;> omega)
      · simp [h3]
      · rw [natOf_snoc, List.reverse_cons, natOf_snoc, List.reverse_cons, natOf_snoc,
          charOf_dv (by split <;> omega), List.length_cons, pow_succ,
          show bout * (10 ^ ra.length * 10) = 10 * (bout * 10 ^ ra.length) by ring]
        split <;> rename_i hc <;> simp only [hc, if_true, if_false] at h5 <;> omega

/-- On digit strings with `b` no longer and no larger than `a`, `subtractStrings a b`
writes the difference, as a magnitude. -/
theorem subtractStrings_spec {a b : List Char} (ha : allDigits a) (hb : allDigits b)
    (hl : b.length ≤ a.length) (hle : natOf b ≤ natOf a) :
    Magnitude (BigInt.subtractStrings a b) ∧
      natOf (BigInt.subtractStrings a b) = natOf a - natOf b := by
  obtain ⟨ds, bout, h1, h2, h3, h4, h5⟩ := subLoop_spec a.reverse b.reverse
    (allDigits_reverse.mpr ha) (allDigits_reverse.mpr hb) (by simpa using hl) 0 (by omega) []
  unfold BigInt.subtractStrings
  rw [show ((0 : Int)) = ((0 : Nat) : Int) from rfl, h1]
  simp only [List.append_nil, List.reverse_reverse, Nat.add_zero, List.length_reverse] at h3 h5 ⊢
  refine ⟨stripZeros_magnitude h2, ?_⟩
  rw [natOf_stripZeros]
  have hlt := natOf_lt h2
  rw [h3] at hlt
  have hb0 : bout = 0 := by
    by_contra hne
    have : bout = 1 := by omega
    subst this
    omega
  subst hb0
  omega

/-! ## normalize -/

theorem normalize_eq (x : BigInt) :
    x.normalize =
      { value := stripZeros x.value,
        negative := if dropZeros x.value = [] then false else x.negative } := by
  unfold BigInt.normalize stripZeros
  have hhead := dropZeros_head x.value
  cases hd : dropZeros x.value with
  | nil => simp
  | cons v vs =>
    rw [hd] at hhead
    have hv : v ≠ '0' := by simpa using hhead
    simp [hv]

theorem denote_mk (v : List Char) (n : Bool) :
    BigInt.denote { value := v, negative := n } =
      if n then -(natOf v : Int) else (natOf v : Int) := by
  cases n <;> simp [BigInt.denote]

theorem dropZeros_eq_nil_natOf {s : List Char} (h : dropZeros s = []) : natOf s = 0 := by
  rw [← natOf_dropZeros, h]; rfl

/-- The method `normalize` re-establishes the invariant on any digit string and keeps
the denoted integer. -/
theorem normalize_spec (x : BigInt) (h : allDigits x.value) :
    x.normalize.WellFormed ∧ x.normalize.denote = x.denote := by
  rw [normalize_eq]
  refine ⟨⟨stripZeros_magnitude h, ?_⟩, ?_⟩
  · intro hz
    show (if dropZeros x.value = [] then false else x.negative) = false
    by_cases hd : dropZeros x.value = []
    · simp [hd]
    · exfalso
      unfold stripZeros at hz
      have hhead := dropZeros_head x.value
      cases hd2 : dropZeros x.value with
      | nil => exact hd hd2
      | cons v vs =>
        rw [hd2] at hz hhead
        simp only [List.cons.injEq] at hz
        apply hhead
        simp [hz.1]
  · rw [denote_mk, natOf_stripZeros]
    by_cases hd : dropZeros x.value = []
    · have := dropZeros_eq_nil_natOf hd
      obtain ⟨v, n⟩ := x
      cases n <;> simp_all [BigInt.denote]
    · obtain ⟨v, n⟩ := x
      cases n <;> simp_all [BigInt.denote]

theorem normalize_of_wellFormed {x : BigInt} (h : x.WellFormed) : x.normalize = x := by
  rw [normalize_eq, stripZeros_of_magnitude h.1]
  obtain ⟨v, n⟩ := x
  simp only [BigInt.mk.injEq, true_and]
  by_cases hd : dropZeros v = []
  · simp only [hd, if_true]
    have h0 := dropZeros_eq_nil_natOf hd
    have := (magnitude_natOf_eq_zero h.1).mp h0
    exact (h.2 this).symm
  · simp [hd]

theorem normalize_normalForm (x : BigInt) : x.normalize.NormalForm := by
  rw [normalize_eq]
  unfold BigInt.NormalForm stripZeros
  have hhead := dropZeros_head x.value
  cases hd : dropZeros x.value with
  | nil => simp
  | cons v vs =>
    rw [hd] at hhead
    have hv : v ≠ '0' := by simpa using hhead
    simp [hv]

theorem wellFormed_normalForm {x : BigInt} (h : x.WellFormed) : x.NormalForm :=
  ⟨h.1.2.1, h.1.2.2, h.2⟩

theorem wellFormed_neg_pos {x : BigInt} (h : x.WellFormed) (hn : x.negative = true) :
    0 < natOf x.value := by
  have : x.value ≠ ['0'] := by
    intro hz
    have := h.2 hz
    rw [hn] at this
    cases this
  have := magnitude_pos h.1 this
  have hp : 0 < 10 ^ (x.value.length - 1) := by positivity
  omega

/-! ## operator+ and operator- -/

/-- The operator `+` on operands whose magnitudes are well formed (the sign of a zero
operand is immaterial, which `operator-` relies on). -/
theorem add_spec (x y : BigInt) (hx : Magnitude x.value) (hy : Magnitude y.value) :
    (x.add y).WellFormed ∧ (x.add y).denote = x.denote + y.denote := by
  obtain ⟨xv, xn⟩ := x
  obtain ⟨yv, yn⟩ := y
  simp only at hx hy
  unfold BigInt.add
  simp only
  by_cases hs : xn = yn
  · subst hs
    simp only [if_true]
    obtain ⟨h1, h2⟩ := addStrings_spec hx.1 hy.1
    obtain ⟨n1, n2⟩ := normalize_spec { value := BigInt.addStrings xv yv, negative := xn } h1
    refine ⟨n1, ?_⟩
    rw [n2, denote_mk, denote_mk, denote_mk, h2]
    cases xn
    · simp
    · simp; ring
  · simp only [hs, if_false]
    obtain ⟨c1, c2, c3⟩ := compareStrings_spec hx hy
    by_cases hgt : BigInt.compareStrings xv yv > 0
    · simp only [hgt, if_true]
      have hlt := c3.mp hgt
      obtain ⟨h1, h2⟩ := subtractStrings_spec hx.1 hy.1
        (magnitude_length_le hy hx (by omega)) (by omega)
      obtain ⟨n1, n2⟩ :=
        normalize_spec { value := BigInt.subtractStrings xv yv, negative := xn } h1.1
      refine ⟨n1, ?_⟩
      rw [n2, denote_mk, denote_mk, denote_mk, h2]
      cases xn <;> cases yn <;> simp at hs ⊢ <;> omega
    · simp only [hgt, if_false]
      by_cases hlt : BigInt.compareStrings xv yv < 0
      · simp only [hlt, if_true]
        have hlt2 := c1.mp hlt
        obtain ⟨h1, h2⟩ := subtractStrings_spec hy.1 hx.1
          (magnitude_length_le hx hy (by omega)) (by omega)
        obtain ⟨n1, n2⟩ :=
          normalize_spec { value := BigInt.subtractStrings yv xv, negative := yn } h1.1
        refine ⟨n1, ?_⟩
        rw [n2, denote_mk, denote_mk, denote_mk, h2]
        cases xn <;> cases yn <;> simp at hs ⊢ <;> omega
      · simp only [hlt, if_false]
        have heq : natOf xv = natOf yv := c2.mp (by omega)
        obtain ⟨n1, n2⟩ :=
          normalize_spec { value := ['0'], negative := false } magnitude_zero.1
        refine ⟨n1, ?_⟩
        rw [n2, denote_mk, denote_mk, denote_mk, heq]
        cases xn <;> cases yn <;> simp at hs ⊢ <;> decide

theorem sub_spec (x y : BigInt) (hx : Magnitude x.value) (hy : Magnitude y.value) :
    (x.sub y).WellFormed ∧ (x.sub y).denote = x.denote - y.denote := by
  unfold BigInt.sub
  obtain ⟨h1, h2⟩ := add_spec x { y with negative := !y.negative } hx hy
  refine ⟨h1, ?_⟩
  rw [h2, denote_mk]
  obtain ⟨yv, yn⟩ := y
  cases yn
  · simp [BigInt.denote]; ring
  · simp [BigInt.denote]

/-! ## Comparison -/

theorem lt_spec {x y : BigInt} (hx : x.WellFormed) (hy : y.WellFormed) :
    x.lt y = true ↔ x.denote < y.denote := by
  obtain ⟨c1, c2, c3⟩ := compareStrings_spec hx.1 hy.1
  have px := wellFormed_neg_pos hx
  have py := wellFormed_neg_pos hy
  obtain ⟨xv, xn⟩ := x
  obtain ⟨yv, yn⟩ := y
  simp only at c1 c2 c3 px py
  unfold BigInt.lt
  rw [denote_mk, denote_mk]
  cases xn <;> cases yn <;> simp
  · rw [c1]
  · omega
  · have := px rfl
    omega
  · exact c3

theorem eq_spec {x y : BigInt} (hx : x.WellFormed) (hy : y.WellFormed) :
    x.eq y = true ↔ x.denote = y.denote := by
  have px := wellFormed_neg_pos hx
  have py := wellFormed_neg_pos hy
  have hinj := fun h => magnitude_inj hx.1 hy.1 h
  obtain ⟨xv, xn⟩ := x
  obtain ⟨yv, yn⟩ := y
  simp only at px py hinj
  unfold BigInt.eq
  rw [denote_mk, denote_mk]
  simp only [Bool.and_eq_true, decide_eq_true_eq]
  constructor
  · rintro ⟨h1, h2⟩
    rw [h1, h2]
  · intro h
    cases xn <;> cases yn <;> simp at h px py ⊢
    · exact hinj (by omega)
    · omega
    · omega
    · exact hinj (by omega)

/-- Well-formed BigInts that denote the same integer are identical. -/
theorem denote_inj {x y : BigInt} (hx : x.WellFormed) (hy : y.WellFormed)
    (h : x.denote = y.denote) : x = y := by
  have := (eq_spec hx hy).mpr h
  unfold BigInt.eq at this
  simp only [Bool.and_eq_true, decide_eq_true_eq] at this
  obtain ⟨xv, xn⟩ := x
  obtain ⟨yv, yn⟩ := y
  simp only at this
  rw [this.1, this.2]

/-! ## multiplyStrings -/

theorem valI_foldl (r : List Int) (k : Int) :
    r.foldl (fun acc x => 10 * acc + x) k = k * 10 ^ r.length + valI r := by
  induction r generalizing k with
  | nil => simp [valI]
  | cons x r ih =>
    simp only [List.foldl_cons, valI, List.length_cons]
    rw [ih (10 * k + x), ih (10 * 0 + x)]
    ring

theorem valI_cons (x : Int) (r : List Int) : valI (x :: r) = x * 10 ^ r.length + valI r := by
  show List.foldl _ _ _ = _
  rw [List.foldl_cons, valI_foldl]
  simp

theorem valI_set (r : List Int) (k e : Nat) (x : Int) (hk : k + e + 1 = r.length) :
    valI (r.set k x) = valI r + (x - r.getD k 0) * 10 ^ e := by
  induction r generalizing k with
  | nil => simp at hk
  | cons y r ih =>
    cases k with
    | zero =>
      simp only [List.length_cons] at hk
      have : e = r.length := by omega
      subst this
      simp only [List.set_cons_zero, valI_cons, List.getD_cons_zero]
      ring
    | succ k =>
      simp only [List.length_cons] at hk
      simp only [List.set_cons_succ, valI_cons, List.getD_cons_succ, List.length_set]
      rw [ih k (by omega)]
      ring

theorem valI_replicate (n : Nat) : valI (List.replicate n (0 : Int)) = 0 := by
  induction n with
  | zero => rfl
  | succ n ih => rw [List.replicate_succ, valI_cons, ih]; simp

theorem getD_set_self (r : List Int) (k : Nat) (x : Int) (hk : k < r.length) :
    (r.set k x).getD k 0 = x := by
  rw [List.getD_eq_getElem?_getD, List.getElem?_set]
  simp [hk]

theorem getD_set_ne (r : List Int) (k j : Nat) (x : Int) (h : k ≠ j) :
    (r.set k x).getD j 0 = r.getD j 0 := by
  rw [List.getD_eq_getElem?_getD, List.getD_eq_getElem?_getD, List.getElem?_set_ne h]

theorem mulInner_succ (a b : List Char) (i j : Nat) (result : List Int) :
    BigInt.mulInner a b i (j + 1) result = BigInt.mulInner a b i j (mulStep a b i j result) := by
  simp only [BigInt.mulInner, mulStep]

theorem mulStep_length (a b : List Char) (i j : Nat) (r : List Int) :
    (mulStep a b i j r).length = r.length := by
  simp [mulStep]

theorem mulInner_length (a b : List Char) (i j : Nat) (r : List Int) :
    (BigInt.mulInner a b i j r).length = r.length := by
  induction j generalizing r with
  | zero => rfl
  | succ j ih => rw [mulInner_succ, ih, mulStep_length]

theorem mulOuter_length (a b : List Char) (i : Nat) (r : List Int) :
    (BigInt.mulOuter a b i r).length = r.length := by
  induction i generalizing r with
  | zero => rfl
  | succ i ih => rw [BigInt.mulOuter, ih, mulInner_length]

theorem mulStep_valI (a b : List Char) (i j e : Nat) (r : List Int)
    (he : i + j + 1 + e + 1 = r.length) :
    valI (mulStep a b i j r) =
      valI r + digitOf (a.getD i '0') * digitOf (b.getD j '0') * 10 ^ e := by
  unfold mulStep
  simp only
  rw [valI_set _ (i + j) (e + 1) _ (by rw [List.length_set]; omega),
    valI_set _ (i + j + 1) e _ (by omega)]
  have := Int.tmod_add_tdiv
    (digitOf (a.getD i '0') * digitOf (b.getD j '0') + r.getD (i + j + 1) 0) 10
  rw [pow_succ]
  linear_combination (10 ^ e) * this

theorem getD_digit {s : List Char} (h : allDigits s) (i : Nat) :
    48 ≤ (s.getD i '0').toNat ∧ (s.getD i '0').toNat ≤ 57 := by
  rw [List.getD_eq_getElem?_getD]
  cases hg : s[i]? with
  | none => decide
  | some c => exact h c (List.getElem?_mem hg)

theorem natOf_take_succ (s : List Char) (j : Nat) (hj : j < s.length) :
    natOf (s.take (j + 1)) = 10 * natOf (s.take j) + ((s.getD j '0').toNat - 48) := by
  rw [List.take_succ, List.getD_eq_getElem?_getD, List.getElem?_eq_getElem hj]
  simp only [Option.toList, Option.getD_some]
  rw [natOf_snoc]

theorem mulInner_valI (a b : List Char) (hb : allDigits b) (i ei : Nat)
    (hi : i + ei + 1 = a.length) :
    ∀ (j ej : Nat) (r : List Int), j + ej = b.length → r.length = a.length + b.length →
      valI (BigInt.mulInner a b i j r) =
        valI r + digitOf (a.getD i '0') * 10 ^ ei * (natOf (b.take j) : Int) * 10 ^ ej := by
  intro j
  induction j with
  | zero =>
    intro ej r _ _
    simp [BigInt.mulInner, natOf_nil]
  | succ j ih =>
    intro ej r hj hr
    rw [mulInner_succ, ih (ej + 1) (mulStep a b i j r) (by omega) (by rw [mulStep_length, hr]),
      mulStep_valI a b i j (ei + ej) r (by omega), natOf_take_succ b j (by omega),
      digitOf_of_digit (getD_digit hb j)]
    push_cast
    ring

theorem mulOuter_valI (a b : List Char) (ha : allDigits a) (hb : allDigits b) :
    ∀ (i ei : Nat) (r : List Int), i + ei = a.length → r.length = a.length + b.length →
      valI (BigInt.mulOuter a b i r) =
        valI r + (natOf (a.take i) : Int) * 10 ^ ei * (natOf b : Int) := by
  intro i
  induction i with
  | zero =>
    intro ei r _ _
    simp [BigInt.mulOuter, natOf_nil]
  | succ i ih =>
    intro ei r hi hr
    rw [BigInt.mulOuter, ih (ei + 1) _ (by omega) (by rw [mulInner_length, hr]),
      mulInner_valI a b hb i ei (by omega) b.length 0 r (by omega) hr,
      natOf_take_succ a i (by omega), digitOf_of_digit (getD_digit ha i), List.take_length]
    push_cast
    ring

theorem digit_mul_bound {x y : Char} (hx : 48 ≤ x.toNat ∧ x.toNat ≤ 57)
    (hy : 48 ≤ y.toNat ∧ y.toNat ≤ 57) :
    0 ≤ digitOf x * digitOf y ∧ digitOf x * digitOf y ≤ 81 := by
  have h1 : 0 ≤ digitOf x ∧ digitOf x ≤ 9 := by unfold digitOf; omega
  have h2 : 0 ≤ digitOf y ∧ digitOf y ≤ 9 := by unfold digitOf; omega
  constructor
  · exact mul_nonneg h1.1 h2.1
  · nlinarith

/-- Entry bounds across one pass of the inner loop body: before the pass every entry is
a digit except the one at `i + j + 1`, which is at most 18. -/
theorem mulStep_bounds (a b : List Char) (ha : allDigits a) (hb : allDigits b) (i j : Nat)
    (r : List Int) (hlen : i + j + 1 < r.length)
    (hnn : ∀ k, 0 ≤ r.getD k 0) (h9 : ∀ k, k ≠ i + j + 1 → r.getD k 0 ≤ 9)
    (h18 : r.getD (i + j + 1) 0 ≤ 18) :
    (∀ k, 0 ≤ (mulStep a b i j r).getD k 0) ∧
    (∀ k, k ≠ i + j → (mulStep a b i j r).getD k 0 ≤ 9) ∧
    (mulStep a b i j r).getD (i + j) 0 ≤ r.getD (i + j) 0 + 9 ∧
    (∀ k, k < i + j → (mulStep a b i j r).getD k 0 = r.getD k 0) := by
  obtain ⟨m0, m81⟩ := digit_mul_bound (getD_digit ha i) (getD_digit hb j)
  have hp := hnn (i + j + 1)
  have hq := hnn (i + j)
  have key : ∀ k, (mulStep a b i j r).getD k 0 =
      if k = i + j then r.getD (i + j) 0 +
          (digitOf (a.getD i '0') * digitOf (b.getD j '0') + r.getD (i + j + 1) 0) / 10
      else if k = i + j + 1 then
          (digitOf (a.getD i '0') * digitOf (b.getD j '0') + r.getD (i + j + 1) 0) % 10
      else r.getD k 0 := by
    intro k
    unfold mulStep
    simp only
    rw [Int.tdiv_eq_ediv (by omega) (by norm_num), Int.tmod_eq_emod (by omega) (by norm_num)]
    by_cases h1 : k = i + j
    · subst h1
      rw [getD_set_self _ _ _ (by rw [List.length_set]; omega),
        getD_set_ne _ _ _ _ (by omega)]
      simp
    · rw [getD_set_ne _ _ _ _ (fun h => h1 h.symm)]
      by_cases h2 : k = i + j + 1
      · subst h2
        rw [getD_set_self _ _ _ hlen]
        simp
      · rw [getD_set_ne _ _ _ _ (fun h => h2 h.symm)]
        simp [h1, h2]
  refine ⟨?_, ?_, ?_, ?_⟩
  · intro k
    rw [key]
    have := hnn k
    split
    · omega
    · split <;> omega
  · intro k hk
    rw [key]
    simp only [hk, if_false]
    split
    · omega
    · rename_i h2
      exact h9 k h2
  · rw [key]
    simp only [if_true]
    omega
  · intro k hk
    rw [key]
    have h1 : k ≠ i + j := by omega
    have h2 : k ≠ i + j + 1 := by omega
    simp [h1, h2]

/-- After the inner loop for row `i` every entry is a digit again and the entries in
front of position `i` are still zero. -/
theorem mulInner_bounds (a b : List Char) (ha : allDigits a) (hb : allDigits b) (i : Nat) :
    ∀ (j : Nat) (r : List Int), i + j + 1 < r.length →
      (∀ k, 0 ≤ r.getD k 0) → (∀ k, k ≠ i + j + 1 → r.getD k 0 ≤ 9) →
      r.getD (i + j + 1) 0 ≤ 18 → (∀ k, k ≤ i → r.getD k 0 = 0) →
      (∀ k, 0 ≤ (BigInt.mulInner a b i (j + 1) r).getD k 0 ∧
        (BigInt.mulInner a b i (j + 1) r).getD k 0 ≤ 9) ∧
      (∀ k, k < i → (BigInt.mulInner a b i (j + 1) r).getD k 0 = 0) := by
  intro j
  induction j with
  | zero =>
    intro r hlen hnn h9 h18 hz
    obtain ⟨s1, s2, s3, s4⟩ := mulStep_bounds a b ha hb i 0 r hlen hnn h9 h18
    rw [mulInner_succ]
    simp only [BigInt.mulInner]
    refine ⟨fun k => ⟨s1 k, ?_⟩, fun k hk => ?_⟩
    · by_cases hk : k = i
      · rw [hk]
        have := hz i (Nat.le_refl _)
        simp only [Nat.add_zero] at s3
        omega
      · exact s2 k (by simpa using hk)
    · rw [s4 k (by omega)]
      exact hz k (by omega)
  | succ j ih =>
    intro r hlen hnn h9 h18 hz
    obtain ⟨s1, s2, s3, s4⟩ := mulStep_bounds a b ha hb i (j + 1) r hlen hnn h9 h18
    rw [mulInner_succ]
    apply ih (mulStep a b i (j + 1) r) (by rw [mulStep_length]; omega) s1 s2
    · have := h9 (i + (j + 1)) (by omega)
      have h3 : i + (j + 1) = i + j + 1 := by omega
      rw [h3] at s3 this
      omega
    · intro k hk
      rw [s4 k (by omega)]
      exact hz k hk

/-- After the outer loop every entry of `result` is a digit. -/
theorem mulOuter_bounds (a b : List Char) (ha : allDigits a) (hb : allDigits b) :
    ∀ (i : Nat) (r : List Int), i ≤ a.length → r.length = a.length + b.length →
      (∀ k, 0 ≤ r.getD k 0 ∧ r.getD k 0 ≤ 9) → (∀ k, k < i → r.getD k 0 = 0) →
      ∀ k, 0 ≤ (BigInt.mulOuter a b i r).getD k 0 ∧ (BigInt.mulOuter a b i r).getD k 0 ≤ 9 := by
  intro i
  induction i with
  | zero =>
    intro r _ _ h _
    simpa [BigInt.mulOuter] using h
  | succ i ih =>
    intro r hi hr h hz
    rw [BigInt.mulOuter]
    cases hm : b.length with
    | zero =>
      simp only [BigInt.mulInner]
      exact ih r (by omega) hr h (fun k hk => hz k (by omega))
    | succ m =>
      obtain ⟨p1, p2⟩ := mulInner_bounds a b ha hb i m r (by omega) (fun k => (h k).1)
        (fun k _ => (h k).2) (by have := (h (i + m + 1)).2; omega) (fun k hk => hz k (by omega))
      exact ih _ (by omega) (by rw [mulInner_length, hr]) p1 p2

theorem foldl_emit_of_ne_nil (r : List Int) (acc : List Char) (h : acc ≠ []) :
    r.foldl emitDigit acc = acc ++ r.map charOf := by
  induction r generalizing acc with
  | nil => simp
  | cons x r ih =>
    rw [List.foldl_cons]
    have : emitDigit acc x = acc ++ [charOf x] := by simp [emitDigit, h]
    rw [this, ih _ (by simp)]
    simp

theorem foldl_emit_nil (r : List Int) :
    r.foldl emitDigit [] = (r.dropWhile (fun x => x == 0)).map charOf := by
  induction r with
  | nil => rfl
  | cons x r ih =>
    rw [List.foldl_cons, List.dropWhile_cons]
    by_cases hx : x = 0
    · subst hx
      simpa [emitDigit] using ih
    · have : emitDigit [] x = [charOf x] := by simp [emitDigit, hx]
      rw [this, foldl_emit_of_ne_nil _ _ (by simp)]
      simp [hx]

theorem valI_dropWhile (r : List Int) : valI (r.dropWhile (fun x => x == 0)) = valI r := by
  induction r with
  | nil => rfl
  | cons x r ih =>
    rw [List.dropWhile_cons]
    by_cases hx : x = 0
    · subst hx
      simp [ih, valI_cons]
    · simp [hx]

theorem charOf_int_digit {x : Int} (h0 : 0 ≤ x) (h9 : x ≤ 9) :
    (48 ≤ (charOf x).toNat ∧ (charOf x).toNat ≤ 57) ∧ (((charOf x).toNat - 48 : Nat) : Int) = x := by
  obtain ⟨d, rfl⟩ := Int.eq_ofNat_of_zero_le h0
  have hd : d ≤ 9 := by omega
  exact ⟨charOf_isDigit hd, by rw [charOf_dv hd]⟩

theorem natOf_map_charOf (r : List Int) (h : ∀ x ∈ r, 0 ≤ x ∧ x ≤ 9) :
    allDigits (r.map charOf) ∧ (natOf (r.map charOf) : Int) = valI r := by
  induction r with
  | nil => exact ⟨allDigits_nil, rfl⟩
  | cons x r ih =>
    obtain ⟨i1, i2⟩ := ih (fun y hy => h y (List.mem_cons_of_mem _ hy))
    obtain ⟨c1, c2⟩ := charOf_int_digit (h x (List.mem_cons_self _ _)).1
      (h x (List.mem_cons_self _ _)).2
    rw [List.map_cons, allDigits_cons, natOf_cons, valI_cons, List.length_map]
    refine ⟨⟨c1, i1⟩, ?_⟩
    push_cast
    rw [i2, c2]

theorem mem_of_getD_bounds {r : List Int} (h : ∀ k, 0 ≤ r.getD k 0 ∧ r.getD k 0 ≤ 9) :
    ∀ x ∈ r, 0 ≤ x ∧ x ≤ 9 := by
  intro x hx
  obtain ⟨k, hk, rfl⟩ := List.getElem_of_mem hx
  have := h k
  rw [List.getD_eq_getElem?_getD, List.getElem?_eq_getElem hk] at this
  simpa using this

/-- On digit strings `multiplyStrings` writes the product of the two values, as a
magnitude. -/
theorem multiplyStrings_spec {a b : List Char} (ha : allDigits a) (hb : allDigits b) :
    Magnitude (BigInt.multiplyStrings a b) ∧
      natOf (BigInt.multiplyStrings a b) = natOf a * natOf b := by
  have hval := mulOuter_valI a b ha hb a.length 0
    (List.replicate (a.length + b.length) (0 : Int)) (by omega) (by simp)
  have hbnd := mulOuter_bounds a b ha hb a.length
    (List.replicate (a.length + b.length) (0 : Int)) (Nat.le_refl _) (by simp)
    (fun k => by
      rw [List.getD_eq_getElem?_getD, List.getElem?_replicate]
      split <;> simp)
    (fun k _ => by
      rw [List.getD_eq_getElem?_getD, List.getElem?_replicate]
      split <;> simp)
  rw [valI_replicate, List.take_length] at hval
  have hmem := mem_of_getD_bounds hbnd
  unfold BigInt.multiplyStrings
  simp only
  generalize BigInt.mulOuter a b a.length (List.replicate (a.length + b.length) (0 : Int)) = r
    at hval hmem
  have hfold : r.foldl (fun (str : List Char) (i : Int) =>
      if str = [] ∧ i = 0 then str else str ++ [charOf i]) [] =
      (r.dropWhile (fun x => x == 0)).map charOf := foldl_emit_nil r
  rw [hfold]
  have hsub : ∀ x ∈ r.dropWhile (fun x => x == 0), 0 ≤ x ∧ x ≤ 9 :=
    fun x hx => hmem x ((List.dropWhile_sublist _).subset hx)
  obtain ⟨d1, d2⟩ := natOf_map_charOf _ hsub
  rw [valI_dropWhile, hval] at d2
  have hprod : natOf ((r.dropWhile (fun x => x == 0)).map charOf) = natOf a * natOf b := by
    have : ((natOf ((r.dropWhile (fun x => x == 0)).map charOf) : Nat) : Int) =
        ((natOf a * natOf b : Nat) : Int) := by
      rw [d2]; push_cast; ring
    exact_mod_cast this
  by_cases he : (r.dropWhile (fun x => x == 0)).map charOf = []
  · rw [he] at hprod ⊢
    simp only [if_true]
    exact ⟨magnitude_zero, by rw [← hprod]; decide⟩
  · simp only [he, if_false]
    refine ⟨⟨d1, he, ?_⟩, hprod⟩
    intro hhead
    exfalso
    cases hd : r.dropWhile (fun x => x == 0) with
    | nil => rw [hd] at he; exact he rfl
    | cons x rest =>
      have hx0 : ¬ ((fun x => x == 0) x = true) := List.head_dropWhile_not _ _ (by rw [hd]; simp)
        |> fun h => by simpa [hd] using h
      rw [hd] at hhead hsub
      simp only [List.map_cons, List.head?_cons, Option.some.injEq] at hhead
      obtain ⟨c1, c2⟩ := charOf_int_digit (hsub x (List.mem_cons_self _ _)).1
        (hsub x (List.mem_cons_self _ _)).2
      rw [hhead] at c2
      simp only [beq_iff_eq] at hx0
      apply hx0
      rw [← c2]
      decide

/-! ## operator* -/

theorem mul_spec (x y : BigInt) (hx : Magnitude x.value) (hy : Magnitude y.value) :
    (x.mul y).WellFormed ∧ (x.mul y).denote = x.denote * y.denote ∧
      (x.mul y).value = BigInt.multiplyStrings x.value y.value ∧
      (x.mul y).negative =
        ((x.negative != y.negative) && (BigInt.multiplyStrings x.value y.value != ['0'])) := by
  obtain ⟨h1, h2⟩ := multiplyStrings_spec hx.1 hy.1
  have hwf : BigInt.WellFormed
      { value := BigInt.multiplyStrings x.value y.value,
        negative := (x.negative != y.negative) &&
          (BigInt.multiplyStrings x.value y.value != ['0']) } := by
    refine ⟨h1, ?_⟩
    intro hz
    simp only at hz
    simp [hz]
  have hnorm := normalize_of_wellFormed hwf
  unfold BigInt.mul
  simp only
  rw [hnorm]
  refine ⟨hwf, ?_, rfl, rfl⟩
  rw [denote_mk, h2]
  have hzero := magnitude_natOf_eq_zero h1
  rw [h2] at hzero
  obtain ⟨xv, xn⟩ := x
  obtain ⟨yv, yn⟩ := y
  simp only at hzero ⊢
  by_cases hz : BigInt.multiplyStrings xv yv = ['0']
  · have h0 := hzero.mpr hz
    have h0i : (natOf xv : Int) * (natOf yv : Int) = 0 := by exact_mod_cast h0
    simp only [BigInt.denote, hz]
    cases xn <;> cases yn <;> simp [h0i]
  · simp only [BigInt.denote]
    cases xn <;> cases yn <;> simp [hz]

/-! ## std::to_string -/

theorem digitChar_toNat {d : Nat} (h : d ≤ 9) : (Nat.digitChar d).toNat = 48 + d := by
  interval_cases d <;> rfl

theorem toDigitsCore_spec :
    ∀ (fuel n : Nat) (acc : List Char), n < fuel →
      ∃ ds, Nat.toDigitsCore 10 fuel n acc = ds ++ acc ∧ Magnitude ds ∧ natOf ds = n := by
  intro fuel
  induction fuel with
  | zero => intro n acc h; omega
  | succ fuel ih =>
    intro n acc hn
    have hd := digitChar_toNat (show n % 10 ≤ 9 by omega)
    simp only [Nat.toDigitsCore]
    by_cases h0 : n / 10 = 0
    · simp only [h0, if_true]
      refine ⟨[Nat.digitChar (n % 10)], rfl, ⟨?_, by simp, ?_⟩, ?_⟩
      · intro c hc
        simp only [List.mem_singleton] at hc
        subst hc
        omega
      · intro hh
        simp only [List.head?_cons, Option.some.injEq] at hh
        rw [hh]
      · rw [natOf_singleton, hd]
        omega
    · simp only [h0, if_false]
      obtain ⟨ds, e1, e2, e3⟩ := ih (n / 10) (Nat.digitChar (n % 10) :: acc) (by omega)
      refine ⟨ds ++ [Nat.digitChar (n % 10)], by rw [e1]; simp, ⟨?_, by simp, ?_⟩, ?_⟩
      · rw [allDigits_append]
        refine ⟨e2.1, ?_⟩
        intro c hc
        simp only [List.mem_singleton] at hc
        subst hc
        omega
      · intro hh
        exfalso
        have hne : ds ≠ ['0'] := by
          intro hds
          rw [hds] at e3
          have : natOf ['0'] = 0 := by decide
          omega
        apply hne
        apply e2.2.2
        cases ds with
        | nil => exact absurd rfl e2.2.1
        | cons c ds => simpa using hh
      · rw [natOf_snoc, e3, hd]
        omega

/-- The decimal rendering `std::to_string` of a non-negative number is its magnitude. -/
theorem natToString_spec (n : Nat) : Magnitude (natToString n) ∧ natOf (natToString n) = n := by
  obtain ⟨ds, e1, e2, e3⟩ := toDigitsCore_spec (n + 1) n [] (by omega)
  unfold natToString Nat.toDigits
  rw [e1]
  simpa using ⟨e2, e3⟩

theorem magnitude_length_one {s : List Char} (h : Magnitude s) (h9 : natOf s ≤ 9) :
    s.length = 1 := by
  by_cases hz : s = ['0']
  · rw [hz]; rfl
  · have h1 := magnitude_pos h hz
    have hne := h.2.1
    have hlen : 0 < s.length := List.length_pos.mpr hne
    by_contra hl
    have : 1 ≤ s.length - 1 := by omega
    have := Nat.pow_le_pow_right (show 0 < 10 by norm_num) this
    omega

/-! ## divideStrings -/

theorem divWhile_spec (b : List Char) (hb : Magnitude b) :
    ∀ (fuel : Nat) (rem : List Char) (count : Nat), Magnitude rem →
      natOf rem < fuel * natOf b →
      ∃ (r : List Char) (q : Nat),
        BigInt.divWhile b fuel rem (count : Int) = some (r, ((count + q : Nat) : Int)) ∧
        Magnitude r ∧ natOf rem = q * natOf b + natOf r ∧ natOf r < natOf b := by
  intro fuel
  induction fuel with
  | zero => intro rem count _ h; omega
  | succ fuel ih =>
    intro rem count hrem hlt
    obtain ⟨c1, _, _⟩ := compareStrings_spec hrem hb
    simp only [BigInt.divWhile]
    by_cases hge : BigInt.compareStrings rem b ≥ 0
    · simp only [hge, if_true]
      have hle : natOf b ≤ natOf rem := by
        by_contra hcon
        have := c1.mpr (by omega)
        omega
      obtain ⟨s1, s2⟩ := subtractStrings_spec hrem.1 hb.1 (magnitude_length_le hb hrem hle) hle
      have hfuel : natOf (BigInt.subtractStrings rem b) < fuel * natOf b := by
        rw [s2]
        have : (fuel + 1) * natOf b = fuel * natOf b + natOf b := by ring
        omega
      obtain ⟨r, q, e1, e2, e3, e4⟩ := ih (BigInt.subtractStrings rem b) (count + 1) s1 hfuel
      refine ⟨r, q + 1, ?_, e2, ?_, e4⟩
      · have hc : ((count : Int) + 1) = ((count + 1 : Nat) : Int) := by push_cast; rfl
        rw [hc, e1]
        congr 3
        omega
      · rw [s2] at e3
        have : (q + 1) * natOf b = q * natOf b + natOf b := by ring
        omega
    · simp only [hge, if_false]
      refine ⟨rem, 0, by simp, hrem, by simp, ?_⟩
      exact c1.mp (by omega)

theorem to_string_natCast (n : Nat) : to_string (n : Int) = natToString n := by
  unfold to_string
  simp

theorem divLoop_spec (fuel : Nat) (hfuel : 10 ≤ fuel) (b : List Char) (hb : Magnitude b) :
    ∀ (a quotient remainder : List Char), allDigits a → allDigits quotient → quotient ≠ [] →
      Magnitude remainder → natOf remainder < natOf b →
      ∃ (q r : List Char), BigInt.divLoop fuel b a quotient remainder = some (q, r) ∧
        allDigits q ∧ q ≠ [] ∧ Magnitude r ∧ natOf r < natOf b ∧
        natOf q * natOf b + natOf r =
          (natOf quotient * natOf b + natOf remainder) * 10 ^ a.length + natOf a := by
  intro a
  induction a with
  | nil =>
    intro quotient remainder _ hq hqne hr hrlt
    exact ⟨quotient, remainder, rfl, hq, hqne, hr, hrlt, by simp [natOf_nil]⟩
  | cons digit rest ih =>
    intro quotient remainder ha hq hqne hr hrlt
    rw [allDigits_cons] at ha
    have hr1d : allDigits (if remainder = ['0'] then [digit] else remainder ++ [digit]) := by
      split
      · intro c hc
        simp only [List.mem_singleton] at hc
        subst hc
        exact ha.1
      · rw [allDigits_append]
        refine ⟨hr.1, ?_⟩
        intro c hc
        simp only [List.mem_singleton] at hc
        subst hc
        exact ha.1
    have hr1v : natOf (if remainder = ['0'] then [digit] else remainder ++ [digit]) =
        10 * natOf remainder + (digit.toNat - 48) := by
      split
      · rename_i hz
        rw [hz, natOf_singleton]
        simp [natOf_zero_str]
      · rw [natOf_snoc]
    have hm := stripZeros_magnitude hr1d
    have hv := natOf_stripZeros (if remainder = ['0'] then [digit] else remainder ++ [digit])
    rw [hr1v] at hv
    have hlt : natOf (stripZeros (if remainder = ['0'] then [digit] else remainder ++ [digit])) <
        fuel * natOf b := by
      rw [hv]
      have : 10 * natOf b ≤ fuel * natOf b := Nat.mul_le_mul_right _ hfuel
      omega
    obtain ⟨r3, c, w1, w2, w3, w4⟩ := divWhile_spec b hb fuel _ 0 hm hlt
    have hc9 : c ≤ 9 := by
      by_contra hcon
      have : 10 * natOf b ≤ c * natOf b := Nat.mul_le_mul_right _ (by omega)
      omega
    obtain ⟨t1, t2⟩ := natToString_spec c
    have tlen := magnitude_length_one t1 (by omega)
    have hq1d : allDigits (if quotient = ['0'] then to_string ((0 + c : Nat) : Int)
        else quotient ++ to_string ((0 + c : Nat) : Int)) := by
      rw [to_string_natCast, Nat.zero_add]
      split
      · exact t1.1
      · exact allDigits_append.mpr ⟨hq, t1.1⟩
    have hq1ne : (if quotient = ['0'] then to_string ((0 + c : Nat) : Int)
        else quotient ++ to_string ((0 + c : Nat) : Int)) ≠ [] := by
      rw [to_string_natCast, Nat.zero_add]
      split
      · exact t1.2.1
      · simp [hqne]
    have hq1v : natOf (if quotient = ['0'] then to_string ((0 + c : Nat) : Int)
        else quotient ++ to_string ((0 + c : Nat) : Int)) = 10 * natOf quotient + c := by
      rw [to_string_natCast, Nat.zero_add]
      split
      · rename_i hz
        rw [hz, t2]
        simp [natOf_zero_str]
      · rw [natOf_append, t2, tlen]
        ring
    obtain ⟨q, r, e1, e2, e3, e4, e5, e6⟩ := ih _ r3 ha.2 hq1d hq1ne w2 w4
    refine ⟨q, r, ?_, e2, e3, e4, e5, ?_⟩
    · simp only [BigInt.divLoop]
      rw [show ((0 : Int)) = ((0 : Nat) : Int) from rfl, w1]
      exact e1
    · rw [e6, hq1v, natOf_cons, List.length_cons, pow_succ]
      rw [hv] at w3
      have : (10 * natOf quotient + c) * natOf b + natOf r3 =
          10 * (natOf quotient * natOf b + natOf remainder) + (digit.toNat - 48) := by
        have : (10 * natOf quotient + c) * natOf b = 10 * (natOf quotient * natOf b) + c * natOf b := by
          ring
        omega
      rw [this]
      ring

/-- On magnitudes with a non-zero divisor and fuel for ten condition checks per digit,
`divideStrings` returns the quotient and remainder of the two values, as magnitudes. -/
theorem divideStrings_spec (fuel : Nat) (hfuel : 10 ≤ fuel) {a b : List Char}
    (ha : Magnitude a) (hb : Magnitude b) (hb0 : b ≠ ['0']) :
    ∃ (q r : List Char), BigInt.divideStrings fuel a b = .ok (q, r) ∧
      Magnitude q ∧ Magnitude r ∧ natOf q = natOf a / natOf b ∧ natOf r = natOf a % natOf b := by
  have hbpos : 0 < natOf b := by
    have := magnitude_pos hb hb0
    have hp : 0 < 10 ^ (b.length - 1) := by positivity
    omega
  obtain ⟨q, r, e1, e2, e3, e4, e5, e6⟩ := divLoop_spec fuel hfuel b hb a ['0'] ['0'] ha.1
    magnitude_zero.1 (by simp) magnitude_zero (by rw [natOf_zero_str]; exact hbpos)
  refine ⟨stripZeros q, r, ?_, stripZeros_magnitude e2, e4, ?_, ?_⟩
  · unfold BigInt.divideStrings
    simp only [hb0, if_false, e1, e3]
  · rw [natOf_stripZeros]
    simp only [natOf_zero_str, Nat.zero_mul, Nat.add_zero, Nat.zero_add] at e6
    rw [← e6, Nat.mul_comm, Nat.mul_add_div hbpos, Nat.div_eq_of_lt e5]
    rfl
  · simp only [natOf_zero_str, Nat.zero_mul, Nat.add_zero, Nat.zero_add] at e6
    rw [← e6, Nat.mul_comm, Nat.mul_add_mod, Nat.mod_eq_of_lt e5]

/-! ## Construction from a string -/

theorem digit_ne_minus {c : Char} (h : 48 ≤ c.toNat ∧ c.toNat ≤ 57) : c ≠ '-' := by
  intro hc
  rw [hc] at h
  revert h
  decide

theorem digit_ne_plus {c : Char} (h : 48 ≤ c.toNat ∧ c.toNat ≤ 57) : c ≠ '+' := by
  intro hc
  rw [hc] at h
  revert h
  decide

theorem ofString_unsigned {ds : List Char} (h : allDigits ds) :
    BigInt.ofString ds = BigInt.normalize { value := ds, negative := false } ∧
    (BigInt.ofString ds).WellFormed ∧ (BigInt.ofString ds).denote = (natOf ds : Int) := by
  cases ds with
  | nil => exact ⟨by decide, by decide, by decide⟩
  | cons c rest =>
    have hc := (allDigits_cons.mp h).1
    have h1 := digit_ne_minus hc
    have h2 := digit_ne_plus hc
    have e : BigInt.ofString (c :: rest) =
        BigInt.normalize { value := c :: rest, negative := false } := by
      have hb : (c == '-') = false := by simpa using h1
      unfold BigInt.ofString
      simp [h1, h2, hb]
    obtain ⟨n1, n2⟩ := normalize_spec { value := c :: rest, negative := false } h
    rw [e]
    exact ⟨rfl, n1, by rw [n2, denote_mk]; simp⟩

theorem ofString_minus {ds : List Char} (h : allDigits ds) :
    (BigInt.ofString ('-' :: ds)).WellFormed ∧
      (BigInt.ofString ('-' :: ds)).denote = -(natOf ds : Int) := by
  cases ds with
  | nil => exact ⟨by decide, by decide⟩
  | cons c rest =>
    have e : BigInt.ofString ('-' :: c :: rest) =
        BigInt.normalize { value := c :: rest, negative := true } := by
      unfold BigInt.ofString
      simp
    obtain ⟨n1, n2⟩ := normalize_spec { value := c :: rest, negative := true } h
    rw [e]
    exact ⟨n1, by rw [n2, denote_mk]; simp⟩

theorem ofString_plus {ds : List Char} (h : allDigits ds) :
    (BigInt.ofString ('+' :: ds)).WellFormed ∧
      (BigInt.ofString ('+' :: ds)).denote = (natOf ds : Int) := by
  have e : BigInt.ofString ('+' :: ds) =
      BigInt.normalize { value := ds, negative := false } := by
    unfold BigInt.ofString
    simp
  obtain ⟨n1, n2⟩ := normalize_spec { value := ds, negative := false } h
  rw [e]
  exact ⟨n1, by rw [n2, denote_mk]; simp⟩

theorem ofString_magnitude {s : List Char} (h : Magnitude s) :
    BigInt.ofString s = { value := s, negative := false } := by
  rw [(ofString_unsigned h.1).1]
  exact normalize_of_wellFormed ⟨h, fun _ => rfl⟩

theorem ofInt_one : BigInt.ofInt 1 = { value := ['1'], negative := false } := by decide

/-! ## operator/ and operator% -/

theorem isZero_iff {x : BigInt} (h : Magnitude x.value) : x.isZero = true ↔ x.denote = 0 := by
  unfold BigInt.isZero
  rw [decide_eq_true_eq, ← magnitude_natOf_eq_zero h]
  obtain ⟨v, n⟩ := x
  cases n <;> simp [BigInt.denote]

theorem natOf_value_of_denote_nonneg {z : BigInt} (h : 0 ≤ z.denote) :
    (natOf z.value : Int) = z.denote := by
  obtain ⟨v, n⟩ := z
  cases n
  · simp [BigInt.denote]
  · simp only [BigInt.denote, if_true] at h ⊢
    omega

/-- Setting `negative = !isZero()` on a magnitude yields the well-formed BigInt
denoting minus the magnitude. -/
theorem negate_magnitude {v : List Char} (h : Magnitude v) :
    BigInt.WellFormed { value := v, negative := !decide (v = ['0']) } ∧
      BigInt.denote { value := v, negative := !decide (v = ['0']) } = -(natOf v : Int) := by
  by_cases hz : v = ['0']
  · subst hz
    exact ⟨by decide, by decide⟩
  · refine ⟨⟨h, fun h0 => absurd h0 hz⟩, ?_⟩
    simp [BigInt.denote, hz]

/-- The operator `/` on well-formed operands with a non-zero divisor: with `Q` and `R`
the quotient and remainder of the magnitudes, the result is `Q` for equal signs and
`-(Q + 1)` or `-Q` for different signs, according to whether `R` is non-zero. -/
theorem div_spec (fuel : Nat) (hfuel : 10 ≤ fuel) {x y : BigInt} (hx : x.WellFormed)
    (hy : y.WellFormed) (hy0 : y.value ≠ ['0']) :
    ∃ q, BigInt.div fuel x y = .ok q ∧ q.WellFormed ∧
      q.denote =
        if x.negative = y.negative then ((natOf x.value / natOf y.value : Nat) : Int)
        else if natOf x.value % natOf y.value = 0 then
          -((natOf x.value / natOf y.value : Nat) : Int)
        else -(((natOf x.value / natOf y.value : Nat) : Int) + 1) := by
  obtain ⟨quot, rem, e1, e2, e3, e4, e5⟩ := divideStrings_spec fuel hfuel hx.1 hy.1 hy0
  have hq0 := ofString_magnitude e2
  have hiz : y.isZero = false := by simp [BigInt.isZero, hy0]
  unfold BigInt.div
  simp only [hiz, e1, hq0, Bool.false_eq_true, if_false]
  by_cases hs : x.negative = y.negative
  · simp only [hs, ne_eq, not_true_eq_false, if_false, if_true]
    have hwf : BigInt.WellFormed { value := quot, negative := false } := ⟨e2, fun _ => rfl⟩
    refine ⟨_, rfl, ?_, ?_⟩
    · rw [normalize_of_wellFormed hwf]; exact hwf
    · rw [normalize_of_wellFormed hwf, denote_mk, e4]; simp
  · simp only [hs, ne_eq, not_false_eq_true, if_true, if_false]
    by_cases hr : rem = ['0']
    · have hR : natOf x.value % natOf y.value = 0 := by
        rw [← e5]; exact (magnitude_natOf_eq_zero e3).mpr hr
      simp only [hr, not_true_eq_false, if_false, hR, if_true, BigInt.isZero]
      obtain ⟨w1, w2⟩ := negate_magnitude e2
      refine ⟨_, rfl, ?_, ?_⟩
      · rw [normalize_of_wellFormed w1]; exact w1
      · rw [normalize_of_wellFormed w1, w2, e4]
    · have hR : ¬ natOf x.value % natOf y.value = 0 := by
        rw [← e5]; exact fun h => hr ((magnitude_natOf_eq_zero e3).mp h)
      simp only [hr, not_false_eq_true, if_true, hR, if_false, BigInt.isZero]
      obtain ⟨a1, a2⟩ := add_spec { value := quot, negative := false } (BigInt.ofInt 1) e2
        (by rw [ofInt_one]; decide)
      have hone : (BigInt.ofInt 1).denote = 1 := by decide
      have hqd : BigInt.denote { value := quot, negative := false } = (natOf quot : Int) := by
        simp [BigInt.denote]
      rw [hone, hqd] at a2
      have hv := natOf_value_of_denote_nonneg (z := (BigInt.add
        { value := quot, negative := false } (BigInt.ofInt 1))) (by rw [a2]; omega)
      obtain ⟨w1, w2⟩ := negate_magnitude a1.1
      refine ⟨_, rfl, ?_, ?_⟩
      · rw [normalize_of_wellFormed w1]; exact w1
      · rw [normalize_of_wellFormed w1, w2, hv, a2, e4]

/-- The operator `%` on well-formed operands with a non-zero divisor computes
`a - (a / b) * b`. -/
theorem mod_spec (fuel : Nat) (hfuel : 10 ≤ fuel) {x y : BigInt} (hx : x.WellFormed)
    (hy : y.WellFormed) (hy0 : y.value ≠ ['0']) :
    ∃ q r, BigInt.div fuel x y = .ok q ∧ BigInt.mod fuel x y = .ok r ∧ r.WellFormed ∧
      r.denote = x.denote - q.denote * y.denote := by
  obtain ⟨q, d1, d2, _⟩ := div_spec fuel hfuel hx hy hy0
  obtain ⟨m1, m2, _, _⟩ := mul_spec q y d2.1 hy.1
  obtain ⟨s1, s2⟩ := sub_spec x (q.mul y) hx.1 m1.1
  have hiz : y.isZero = false := by simp [BigInt.isZero, hy0]
  refine ⟨q, (x.sub (q.mul y)).normalize, d1, ?_, ?_, ?_⟩
  · unfold BigInt.mod
    simp only [hiz, d1, Bool.false_eq_true, if_false]
  · rw [normalize_of_wellFormed s1]; exact s1
  · rw [normalize_of_wellFormed s1, s2, m2]

/-- Floor division in terms of quotient and remainder of the absolute values. -/
theorem floor_div_arith (X Y : Nat) (hY : 0 < Y) (xn yn : Bool) (a b q : Int)
    (ha : a = if xn then -(X : Int) else X) (hb : b = if yn then -(Y : Int) else Y)
    (hq : q = if xn = yn then ((X / Y : Nat) : Int)
      else if X % Y = 0 then -((X / Y : Nat) : Int) else -(((X / Y : Nat) : Int) + 1)) :
    (0 < b → 0 ≤ a - q * b ∧ a - q * b < b) ∧ (b < 0 → b < a - q * b ∧ a - q * b ≤ 0) := by
  have hdm : (X : Int) = ((X / Y : Nat) : Int) * Y + ((X % Y : Nat) : Int) := by
    have := Nat.div_add_mod X Y
    have h2 : ((Y * (X / Y) + X % Y : Nat) : Int) = (X : Int) := by rw [this]
    rw [Nat.cast_add, Nat.cast_mul] at h2
    linarith
  have hlt : ((X % Y : Nat) : Int) < Y := by exact_mod_cast Nat.mod_lt X hY
  have hge : (0 : Int) ≤ ((X % Y : Nat) : Int) := Int.ofNat_nonneg _
  have hYi : (0 : Int) < Y := by exact_mod_cast hY
  generalize ((X / Y : Nat) : Int) = Q at hdm hq
  by_cases hR : X % Y = 0
  · simp only [hR, if_true] at hq
    rw [hR] at hdm
    simp only [Nat.cast_zero, add_zero] at hdm
    cases xn <;> cases yn <;> simp at ha hb hq <;> subst ha hb hq <;>
      (constructor <;> intro hb' <;> constructor <;> nlinarith)
  · simp only [hR, if_false] at hq
    have hRpos : (0 : Int) < ((X % Y : Nat) : Int) := by
      have : 0 < X % Y := Nat.pos_of_ne_zero hR
      exact_mod_cast this
    generalize ((X % Y : Nat) : Int) = R at hdm hlt hge hRpos
    cases xn <;> cases yn <;> simp at ha hb hq <;> subst ha hb hq <;>
      (constructor <;> intro hb' <;> constructor <;> nlinarith)

/-! ## Finite maps -/

theorem Scope.find_assign {F : Type} (m : Scope F) (name : List Char) (val : Value F)
    (n : List Char) :
    (m.assign name val).find n = if n = name then some val else m.find n := by
  induction m with
  | nil =>
    simp only [Scope.assign, Scope.find]
    by_cases h : name = n
    · simp [h]
    · have : ¬ n = name := fun h1 => h h1.symm
      simp [h, this]
  | cons kv rest ih =>
    obtain ⟨k, v⟩ := kv
    simp only [Scope.assign]
    by_cases hk : k = name
    · subst hk
      simp only [if_true, Scope.find]
      by_cases hn : k = n
      · simp [hn]
      · have : ¬ n = k := fun h1 => hn h1.symm
        simp [hn, this]
    · simp only [hk, if_false, Scope.find, ih]
      by_cases hn : k = n
      · have : ¬ n = name := fun h1 => hk (hn.trans h1)
        simp [hn, this]
      · simp [hn]

theorem Scope.index_of_find {F : Type} {m : Scope F} {name : List Char} {v : Value F}
    (h : m.find name = some v) : m.index name = (v, m) := by
  simp [Scope.index, h]

theorem Scope.contains_iff {F : Type} (m : Scope F) (name : List Char) :
    m.contains name = true ↔ ∃ v, m.find name = some v := by
  unfold Scope.contains
  cases m.find name <;> simp

/-! ## getValue and setValue -/

theorem getValueLoop_none {F : Type} (name : List Char) (rs : List (Scope F))
    (h : ∀ t ∈ rs, t.contains name = false) : Env.getValueLoop name rs = Option.none := by
  induction rs with
  | nil => rfl
  | cons it rest ih =>
    have h1 := h it (List.mem_cons_self _ _)
    simp only [Env.getValueLoop, h1, Bool.false_eq_true, if_false,
      ih (fun t ht => h t (List.mem_cons_of_mem _ ht))]

theorem getValueLoop_found {F : Type} (name : List Char) (inner : List (Scope F)) (s : Scope F)
    (outer : List (Scope F)) (v : Value F) (h : ∀ t ∈ inner, t.contains name = false)
    (hs : s.find name = some v) :
    Env.getValueLoop name (inner ++ s :: outer) = some (v, inner ++ s :: outer) := by
  induction inner with
  | nil =>
    have hc : s.contains name = true := (Scope.contains_iff s name).mpr ⟨v, hs⟩
    simp [Env.getValueLoop, hc, Scope.index_of_find hs]
  | cons it rest ih =>
    have h1 := h it (List.mem_cons_self _ _)
    have h2 := ih (fun t ht => h t (List.mem_cons_of_mem _ ht))
    simp [Env.getValueLoop, h1, h2]

theorem setValueLoop_none {F : Type} (name : List Char) (val : Value F) (rs : List (Scope F))
    (h : ∀ t ∈ rs, t.contains name = false) : Env.setValueLoop name val rs = Option.none := by
  induction rs with
  | nil => rfl
  | cons it rest ih =>
    have h1 := h it (List.mem_cons_self _ _)
    simp only [Env.setValueLoop, h1, Bool.false_eq_true, if_false,
      ih (fun t ht => h t (List.mem_cons_of_mem _ ht))]

theorem setValueLoop_found {F : Type} (name : List Char) (val : Value F)
    (inner : List (Scope F)) (s : Scope F) (outer : List (Scope F))
    (h : ∀ t ∈ inner, t.contains name = false) (hs : s.contains name = true) :
    Env.setValueLoop name val (inner ++ s :: outer) =
      some (inner ++ s.assign name val :: outer) := by
  induction inner with
  | nil => simp [Env.setValueLoop, hs]
  | cons it rest ih =>
    have h1 := h it (List.mem_cons_self _ _)
    have h2 := ih (fun t ht => h t (List.mem_cons_of_mem _ ht))
    simp [Env.setValueLoop, h1, h2]

theorem floor_of_bounds (a b q : Int)
    (hpos : 0 < b → 0 ≤ a - q * b ∧ a - q * b < b)
    (hneg : b < 0 → b < a - q * b ∧ a - q * b ≤ 0) (hb : b ≠ 0) :
    ⌊(a : ℚ) / (b : ℚ)⌋ = q := by
  rw [Int.floor_eq_iff]
  rcases lt_or_gt_of_ne hb with h | h
  · obtain ⟨h1, h2⟩ := hneg h
    have hbq : (b : ℚ) < 0 := by exact_mod_cast h
    have h1q : (b : ℚ) < a - q * b := by exact_mod_cast h1
    have h2q : (a : ℚ) - q * b ≤ 0 := by exact_mod_cast h2
    constructor
    · rw [le_div_iff_of_neg hbq]; linarith
    · rw [div_lt_iff_of_neg hbq]; linarith
  · obtain ⟨h1, h2⟩ := hpos h
    have hbq : (0 : ℚ) < b := by exact_mod_cast h
    have h1q : (0 : ℚ) ≤ a - q * b := by exact_mod_cast h1
    have h2q : (a : ℚ) - q * b < b := by exact_mod_cast h2
    constructor
    · rw [le_div_iff₀ hbq]; linarith
    · rw [div_lt_iff₀ hbq]; linarith

theorem wellFormed_denote_ne_zero {b : BigInt} (hb : b.WellFormed) (h : b.denote ≠ 0) :
    b.value ≠ ['0'] := by
  intro hz
  apply h
  obtain ⟨v, n⟩ := b
  simp only at hz
  subst hz
  cases n <;> decide

theorem wellFormed_natAbs {r : BigInt} : r.denote.natAbs = natOf r.value := by
  obtain ⟨v, n⟩ := r
  cases n <;> simp [BigInt.denote]

theorem wellFormed_negative_iff {r : BigInt} (h : r.WellFormed) :
    r.negative = true ↔ r.denote < 0 := by
  have hp := wellFormed_neg_pos h
  obtain ⟨v, n⟩ := r
  cases n
  · simp [BigInt.denote]
  · have := hp rfl
    simp only [BigInt.denote, if_true, true_iff]
    simp only at this
    omega

/-! ## Specification of BigInt -/

/-- C1: for well-formed `a` and `b` with `b ≠ 0`, `operator/` and `operator%` return
`q` and `r` with `a == q * b + r` and `0 ≤ sign(b) * r < |b|`; the quotient is the
floor of the exact quotient. -/
theorem C1_floor_division (fuel : Nat) (hfuel : 10 ≤ fuel) (a b : BigInt)
    (ha : a.WellFormed) (hb : b.WellFormed) (hb0 : b.denote ≠ 0) :
    ∃ q r, BigInt.div fuel a b = .ok q ∧ BigInt.mod fuel a b = .ok r ∧
      BigInt.eq a ((q.mul b).add r) = true ∧
      a.denote = q.denote * b.denote + r.denote ∧
      0 ≤ Int.sign b.denote * r.denote ∧ Int.sign b.denote * r.denote < |b.denote| ∧
      q.denote = ⌊(a.denote : ℚ) / (b.denote : ℚ)⌋ := by
  have hbv := wellFormed_denote_ne_zero hb hb0
  obtain ⟨q, d1, d2, d3⟩ := div_spec fuel hfuel ha hb hbv
  obtain ⟨q2, r, m0, m1, m2, m3⟩ := mod_spec fuel hfuel ha hb hbv
  have hqq : q2 = q := by
    rw [d1] at m0
    injection m0 with h
    exact h.symm
  subst hqq
  have hYpos : 0 < natOf b.value := by
    have := magnitude_pos hb.1 hbv
    have hp : 0 < 10 ^ (b.value.length - 1) := by positivity
    omega
  obtain ⟨bp, bn⟩ := floor_div_arith (natOf a.value) (natOf b.value) hYpos a.negative b.negative
    a.denote b.denote q2.denote (by simp [BigInt.denote]) (by simp [BigInt.denote]) d3
  obtain ⟨p1, p2, _, _⟩ := mul_spec q2 b d2.1 hb.1
  obtain ⟨s1, s2⟩ := add_spec (q2.mul b) r p1.1 m2.1
  refine ⟨q2, r, d1, m1, ?_, ?_, ?_, ?_, ?_⟩
  · rw [eq_spec ha s1, s2, p2, m3]; ring
  · rw [m3]; ring
  · rw [m3]
    rcases lt_or_gt_of_ne hb0 with h | h
    · rw [Int.sign_eq_neg_one_of_neg h]
      have := bn h
      omega
    · rw [Int.sign_eq_one_of_pos h]
      have := bp h
      omega
  · rw [m3]
    rcases lt_or_gt_of_ne hb0 with h | h
    · rw [Int.sign_eq_neg_one_of_neg h, abs_of_neg h]
      have := bn h
      omega
    · rw [Int.sign_eq_one_of_pos h, abs_of_pos h]
      have := bp h
      omega
  · exact (floor_of_bounds a.denote b.denote q2.denote bp bn hb0).symm

/-- Witness for C1 at `-10` and `3`, together with the four sample divisions of the
specification. -/
theorem C1_floor_division_witness :
    (∃ q r, BigInt.div 10 (BigInt.ofString ['-', '1', '0']) (BigInt.ofString ['3']) = .ok q ∧
      BigInt.mod 10 (BigInt.ofString ['-', '1', '0']) (BigInt.ofString ['3']) = .ok r ∧
      BigInt.eq (BigInt.ofString ['-', '1', '0']) ((q.mul (BigInt.ofString ['3'])).add r) = true ∧
      (BigInt.ofString ['-', '1', '0']).denote =
        q.denote * (BigInt.ofString ['3']).denote + r.denote ∧
      0 ≤ Int.sign (BigInt.ofString ['3']).denote * r.denote ∧
      Int.sign (BigInt.ofString ['3']).denote * r.denote < |(BigInt.ofString ['3']).denote| ∧
      q.denote = ⌊((BigInt.ofString ['-', '1', '0']).denote : ℚ) /
        ((BigInt.ofString ['3']).denote : ℚ)⌋) ∧
    BigInt.div 10 (BigInt.ofString ['1', '0']) (BigInt.ofString ['3']) =
      .ok (BigInt.ofString ['3']) ∧
    BigInt.div 10 (BigInt.ofString ['-', '1', '0']) (BigInt.ofString ['3']) =
      .ok (BigInt.ofString ['-', '4']) ∧
    BigInt.mod 10 (BigInt.ofString ['1', '0']) (BigInt.ofString ['-', '3']) =
      .ok (BigInt.ofString ['-', '2']) ∧
    BigInt.mod 10 (BigInt.ofString ['-', '1', '0']) (BigInt.ofString ['3']) =
      .ok (BigInt.ofString ['2']) :=
  ⟨C1_floor_division 10 (by decide) (BigInt.ofString ['-', '1', '0']) (BigInt.ofString ['3'])
    (by decide) (by decide) (by decide), by decide, by decide, by decide, by decide⟩

/-- C2: on well-formed operands `operator+` and `operator-` denote integer addition
and subtraction; with equal signs the magnitudes are added and the sign kept, with
different signs the smaller magnitude is subtracted from the larger and the sign of
the larger is taken. -/
theorem C2_add_sub (a b : BigInt) (ha : a.WellFormed) (hb : b.WellFormed) :
    (a.add b).denote = a.denote + b.denote ∧
    (a.sub b).denote = a.denote - b.denote ∧
    (a.negative = b.negative →
      natOf (a.add b).value = natOf a.value + natOf b.value ∧
      (a.add b).negative = a.negative) ∧
    (a.negative ≠ b.negative → natOf b.value < natOf a.value →
      natOf (a.add b).value = natOf a.value - natOf b.value ∧
      (a.add b).negative = a.negative) ∧
    (a.negative ≠ b.negative → natOf a.value < natOf b.value →
      natOf (a.add b).value = natOf b.value - natOf a.value ∧
      (a.add b).negative = b.negative) ∧
    (a.negative ≠ b.negative → natOf a.value = natOf b.value →
      (a.add b).value = ['0'] ∧ (a.add b).negative = false) := by
  obtain ⟨w, h1⟩ := add_spec a b ha.1 hb.1
  obtain ⟨_, h2⟩ := sub_spec a b ha.1 hb.1
  have hn := wellFormed_negative_iff w
  have hv := wellFormed_natAbs (r := a.add b)
  have pa := wellFormed_neg_pos ha
  have pb := wellFormed_neg_pos hb
  have hz := magnitude_natOf_eq_zero w.1
  rw [h1] at hn hv
  have da : a.denote = if a.negative then -(natOf a.value : Int) else natOf a.value := by
    simp [BigInt.denote]
  have db : b.denote = if b.negative then -(natOf b.value : Int) else natOf b.value := by
    simp [BigInt.denote]
  rw [da, db] at hn hv
  refine ⟨h1, h2, ?_, ?_, ?_, ?_⟩
  · intro hs
    rw [← hs] at hn hv pb
    cases hneg : a.negative
    · simp only [hneg, Bool.false_eq_true, if_false] at hn hv
      refine ⟨by omega, ?_⟩
      cases hr : (a.add b).negative
      · rfl
      · exfalso
        have := hn.mp hr
        omega
    · simp only [hneg, if_true] at hn hv
      have := pa hneg
      refine ⟨by omega, hn.mpr (by omega)⟩
  · intro hs hlt
    cases hna : a.negative <;> cases hnb : b.negative <;>
      simp only [hna, hnb, ne_eq, not_true_eq_false, Bool.false_eq_true, if_false, if_true]
        at hs hn hv
    · refine ⟨by omega, ?_⟩
      cases hr : (a.add b).negative
      · rfl
      · exfalso
        have := hn.mp hr
        omega
    · exact ⟨by omega, hn.mpr (by omega)⟩
  · intro hs hlt
    cases hna : a.negative <;> cases hnb : b.negative <;>
      simp only [hna, hnb, ne_eq, not_true_eq_false, Bool.false_eq_true, if_false, if_true]
        at hs hn hv
    · exact ⟨by omega, hn.mpr (by omega)⟩
    · refine ⟨by omega, ?_⟩
      cases hr : (a.add b).negative
      · rfl
      · exfalso
        have := hn.mp hr
        omega
  · intro hs heq
    have h0 : natOf (a.add b).value = 0 := by
      cases hna : a.negative <;> cases hnb : b.negative <;>
        simp only [hna, hnb, ne_eq, not_true_eq_false, Bool.false_eq_true, if_false, if_true]
          at hs hn hv <;> omega
    have hval := hz.mp h0
    exact ⟨hval, w.2 hval⟩

/-- Witness for C2 at `-7` and `12`. -/
theorem C2_add_sub_witness :
    ((BigInt.ofString ['-', '7']).add (BigInt.ofString ['1', '2'])).denote = 5 ∧
    ((BigInt.ofString ['-', '7']).sub (BigInt.ofString ['1', '2'])).denote = -19 := by
  obtain ⟨h1, h2, _⟩ := C2_add_sub (BigInt.ofString ['-', '7']) (BigInt.ofString ['1', '2'])
    (by decide) (by decide)
  exact ⟨h1.trans (by decide), h2.trans (by decide)⟩

/-- C3: on well-formed operands `operator*` denotes integer multiplication; the
magnitudes multiply, the sign is the XOR of the operand signs, and a product of
magnitude zero is non-negative. -/
theorem C3_mul (a b : BigInt) (ha : a.WellFormed) (hb : b.WellFormed) :
    (a.mul b).denote = a.denote * b.denote ∧
    natOf (a.mul b).value = natOf a.value * natOf b.value ∧
    (a.mul b).negative = ((a.negative != b.negative) && ((a.mul b).value != ['0'])) ∧
    ((a.mul b).value ≠ ['0'] → (a.mul b).negative = (a.negative != b.negative)) ∧
    ((a.mul b).value = ['0'] → (a.mul b).negative = false) := by
  obtain ⟨w, h1, h2, h3⟩ := mul_spec a b ha.1 hb.1
  obtain ⟨_, m2⟩ := multiplyStrings_spec ha.1.1 hb.1.1
  refine ⟨h1, by rw [h2, m2], by rw [h3, h2], ?_, w.2⟩
  intro hne
  rw [h3]
  rw [h2] at hne
  simp [hne]

/-- Witness for C3 at `-123` and `45`. -/
theorem C3_mul_witness :
    ((BigInt.ofString ['-', '1', '2', '3']).mul (BigInt.ofString ['4', '5'])).denote = -5535 ∧
    ((BigInt.ofString ['-', '1', '2', '3']).mul (BigInt.ofString ['4', '5'])).negative = true := by
  obtain ⟨h1, _, h3, _⟩ := C3_mul (BigInt.ofString ['-', '1', '2', '3'])
    (BigInt.ofString ['4', '5']) (by decide) (by decide)
  exact ⟨h1.trans (by decide), h3.trans (by decide)⟩

/-- C4: `a / 0` and `a % 0` throw "Division by zero" for every `a`, and for well-formed
operands with a non-zero divisor both return a value (given fuel for ten condition
checks of the subtraction loop per digit). -/
theorem C4_division_by_zero :
    (∀ (fuel : Nat) (a b : BigInt), b.isZero = true →
      BigInt.div fuel a b = .error (.runtime_error "Division by zero") ∧
      BigInt.mod fuel a b = .error (.runtime_error "Division by zero")) ∧
    (∀ (fuel : Nat) (a b : BigInt), 10 ≤ fuel → a.WellFormed → b.WellFormed →
      b.isZero = false → ∃ q r, BigInt.div fuel a b = .ok q ∧ BigInt.mod fuel a b = .ok r) := by
  constructor
  · intro fuel a b hz
    simp [BigInt.div, BigInt.mod, hz]
  · intro fuel a b hfuel ha hb hz
    have hbv : b.value ≠ ['0'] := by simpa [BigInt.isZero] using hz
    obtain ⟨q, r, h1, h2, _⟩ := mod_spec fuel hfuel ha hb hbv
    exact ⟨q, r, h1, h2⟩

/-- Witness for C4: `7 / 0` and `7 % 0` throw, `7 / 2` and `7 % 2` return. -/
theorem C4_division_by_zero_witness :
    (BigInt.div 10 (BigInt.ofString ['7']) BigInt.zero =
        .error (.runtime_error "Division by zero") ∧
      BigInt.mod 10 (BigInt.ofString ['7']) BigInt.zero =
        .error (.runtime_error "Division by zero")) ∧
    (∃ q r, BigInt.div 10 (BigInt.ofString ['7']) (BigInt.ofString ['2']) = .ok q ∧
      BigInt.mod 10 (BigInt.ofString ['7']) (BigInt.ofString ['2']) = .ok r) :=
  ⟨C4_division_by_zero.1 10 (BigInt.ofString ['7']) BigInt.zero (by decide),
    C4_division_by_zero.2 10 (BigInt.ofString ['7']) (BigInt.ofString ['2']) (by decide)
      (by decide) (by decide) (by decide)⟩

theorem ofString_toString {n : BigInt} (h : n.WellFormed) :
    BigInt.ofString n.toString = n := by
  obtain ⟨v, neg⟩ := n
  cases neg
  · simp only [BigInt.toString, Bool.false_eq_true, if_false, List.nil_append]
    exact ofString_magnitude h.1
  · have hne : v ≠ [] := h.1.2.1
    cases v with
    | nil => exact absurd rfl hne
    | cons c rest =>
      have e : BigInt.ofString ('-' :: c :: rest) =
          BigInt.normalize { value := c :: rest, negative := true } := by
        unfold BigInt.ofString
        simp
      simp only [BigInt.toString, if_true, List.singleton_append]
      rw [e]
      exact normalize_of_wellFormed h

/-- C5: constructing a BigInt from `n.toString()` gives a BigInt equal to `n` for every
well-formed `n`, and the string constructor reads an optional leading `+` or `-` in
front of a digit string as its sign. -/
theorem C5_round_trip :
    (∀ n : BigInt, n.WellFormed →
      BigInt.eq (BigInt.ofString n.toString) n = true ∧ BigInt.ofString n.toString = n) ∧
    (∀ ds : List Char, allDigits ds →
      (BigInt.ofString ds).denote = (natOf ds : Int) ∧
      (BigInt.ofString ('+' :: ds)).denote = (natOf ds : Int) ∧
      (BigInt.ofString ('-' :: ds)).denote = -(natOf ds : Int)) := by
  constructor
  · intro n h
    have e := ofString_toString h
    refine ⟨?_, e⟩
    rw [e]
    simp [BigInt.eq]
  · intro ds h
    exact ⟨(ofString_unsigned h).2.2, (ofString_plus h).2, (ofString_minus h).2⟩

/-- Witness for C5 at `-120` and at the digit string `007`. -/
theorem C5_round_trip_witness :
    (BigInt.eq (BigInt.ofString (BigInt.toString { value := ['1', '2', '0'], negative := true }))
        { value := ['1', '2', '0'], negative := true } = true ∧
      BigInt.ofString (BigInt.toString { value := ['1', '2', '0'], negative := true }) =
        { value := ['1', '2', '0'], negative := true }) ∧
    ((BigInt.ofString ['0', '0', '7']).denote = (natOf ['0', '0', '7'] : Int) ∧
      (BigInt.ofString ('+' :: ['0', '0', '7'])).denote = (natOf ['0', '0', '7'] : Int) ∧
      (BigInt.ofString ('-' :: ['0', '0', '7'])).denote = -(natOf ['0', '0', '7'] : Int)) :=
  ⟨C5_round_trip.1 { value := ['1', '2', '0'], negative := true } (by decide),
    C5_round_trip.2 ['0', '0', '7'] (by decide)⟩

theorem ofLongLong_spec (n : Int) (hlo : -(2 : Int) ^ 63 < n) (hhi : n < (2 : Int) ^ 63) :
    (BigInt.ofLongLong n).WellFormed ∧ (BigInt.ofLongLong n).denote = n := by
  unfold BigInt.ofLongLong
  by_cases hneg : n < 0
  · simp only [hneg, if_true]
    have hw : wrap64 (-n) = -n := by
      unfold wrap64
      omega
    have hts : to_string (-n) = natToString (-n).toNat := by
      unfold to_string
      have : ¬ (-n < 0) := by omega
      simp [this]
    rw [hw, hts]
    obtain ⟨t1, t2⟩ := natToString_spec (-n).toNat
    obtain ⟨n1, n2⟩ := normalize_spec { value := natToString (-n).toNat, negative := true } t1.1
    refine ⟨n1, ?_⟩
    rw [n2, denote_mk, t2]
    simp only [if_true]
    omega
  · simp only [hneg, if_false]
    have hts : to_string n = natToString n.toNat := by
      unfold to_string
      simp [hneg]
    rw [hts]
    obtain ⟨t1, t2⟩ := natToString_spec n.toNat
    obtain ⟨n1, n2⟩ := normalize_spec { value := natToString n.toNat, negative := false } t1.1
    refine ⟨n1, ?_⟩
    rw [n2, denote_mk, t2]
    simp only [Bool.false_eq_true, if_false]
    omega

theorem ofLongLong_normalForm (n : Int) : (BigInt.ofLongLong n).NormalForm := by
  unfold BigInt.ofLongLong
  split <;> exact normalize_normalForm _

/-- At the least `long long` the negation in `BigInt(long long)` wraps: the magnitude
keeps the minus sign that `std::to_string` wrote, and `toString` shows two. -/
theorem ofLongLong_least :
    BigInt.ofLongLong (-(2 : Int) ^ 63) =
      { value := "-9223372036854775808".toList, negative := true } ∧
    (BigInt.ofLongLong (-(2 : Int) ^ 63)).toString = "--9223372036854775808".toList ∧
    (BigInt.ofLongLong (-(2 : Int) ^ 63)).NormalForm ∧
    ¬ allDigits (BigInt.ofLongLong (-(2 : Int) ^ 63)).value := by
  refine ⟨by decide, by decide, by decide, by decide⟩

theorem neg_spec {x : BigInt} (h : x.WellFormed) :
    x.neg.WellFormed ∧ x.neg.denote = -x.denote := by
  obtain ⟨v, n⟩ := x
  unfold BigInt.neg BigInt.isZero
  by_cases hz : v = ['0']
  · have hn : n = false := h.2 hz
    subst hz hn
    exact ⟨by decide, by decide⟩
  · simp only [hz, decide_False, Bool.not_false, if_true]
    refine ⟨⟨h.1, fun h0 => absurd h0 hz⟩, ?_⟩
    cases n <;> simp [BigInt.denote]

/-- C6: the representation invariant (a magnitude without leading zeros except the
single digit `0`, and no negative zero) holds for every BigInt built from a signed
digit string, from a native integer, and by `+`, `-`, `*`, `/`, `%` and unary `-` on
well-formed operands. -/
theorem C6_invariant :
    (∀ ds : List Char, allDigits ds →
      (BigInt.ofString ds).WellFormed ∧ (BigInt.ofString ('-' :: ds)).WellFormed ∧
      (BigInt.ofString ('+' :: ds)).WellFormed) ∧
    (∀ s : List Char, (BigInt.ofString s).NormalForm) ∧
    (∀ n : Int, (BigInt.ofLongLong n).NormalForm ∧ (BigInt.ofInt n).NormalForm) ∧
    (∀ n : Int, -(2 : Int) ^ 63 < n → n < (2 : Int) ^ 63 →
      (BigInt.ofLongLong n).WellFormed ∧ (BigInt.ofInt n).WellFormed) ∧
    (∀ a b : BigInt, a.WellFormed → b.WellFormed →
      (a.add b).WellFormed ∧ (a.sub b).WellFormed ∧ (a.mul b).WellFormed ∧ a.neg.WellFormed) ∧
    (∀ (fuel : Nat) (a b : BigInt), 10 ≤ fuel → a.WellFormed → b.WellFormed →
      b.isZero = false →
      ∃ q r, BigInt.div fuel a b = .ok q ∧ BigInt.mod fuel a b = .ok r ∧
        q.WellFormed ∧ r.WellFormed) := by
  refine ⟨?_, ?_, ?_, ?_, ?_, ?_⟩
  · intro ds h
    exact ⟨(ofString_unsigned h).2.1, (ofString_minus h).1, (ofString_plus h).1⟩
  · intro s
    unfold BigInt.ofString
    split
    · decide
    · exact normalize_normalForm _
  · intro n
    exact ⟨ofLongLong_normalForm n, ofLongLong_normalForm n⟩
  · intro n hlo hhi
    exact ⟨(ofLongLong_spec n hlo hhi).1, (ofLongLong_spec n hlo hhi).1⟩
  · intro a b ha hb
    exact ⟨(add_spec a b ha.1 hb.1).1, (sub_spec a b ha.1 hb.1).1, (mul_spec a b ha.1 hb.1).1,
      (neg_spec ha).1⟩
  · intro fuel a b hfuel ha hb hz
    have hbv : b.value ≠ ['0'] := by simpa [BigInt.isZero] using hz
    obtain ⟨q, d1, d2, _⟩ := div_spec fuel hfuel ha hb hbv
    obtain ⟨q2, r, m0, m1, m2, _⟩ := mod_spec fuel hfuel ha hb hbv
    exact ⟨q, r, d1, m1, d2, m2⟩

/-- Witness for C6: the strings `-0`, `+007`, the empty string and `-`, the native
integer `-42`, and the operations on `-15` and `4`. -/
theorem C6_invariant_witness :
    (BigInt.ofString ['-', '0'] = BigInt.zero ∧ BigInt.ofString ['+', '0', '0', '7'] =
        { value := ['7'], negative := false } ∧
      BigInt.ofString [] = BigInt.zero ∧ BigInt.ofString ['-'] = BigInt.zero) ∧
    ((BigInt.ofString ['0']).WellFormed ∧ (BigInt.ofString ('-' :: ['0'])).WellFormed ∧
      (BigInt.ofString ('+' :: ['0'])).WellFormed) ∧
    ((BigInt.ofLongLong (-42)).WellFormed ∧ (BigInt.ofInt (-42)).WellFormed) ∧
    (((BigInt.ofString ['-', '1', '5']).add (BigInt.ofString ['4'])).WellFormed ∧
      ((BigInt.ofString ['-', '1', '5']).sub (BigInt.ofString ['4'])).WellFormed ∧
      ((BigInt.ofString ['-', '1', '5']).mul (BigInt.ofString ['4'])).WellFormed ∧
      (BigInt.ofString ['-', '1', '5']).neg.WellFormed) ∧
    (∃ q r, BigInt.div 10 (BigInt.ofString ['-', '1', '5']) (BigInt.ofString ['4']) = .ok q ∧
      BigInt.mod 10 (BigInt.ofString ['-', '1', '5']) (BigInt.ofString ['4']) = .ok r ∧
      q.WellFormed ∧ r.WellFormed) :=
  ⟨by decide, C6_invariant.1 ['0'] (by decide),
    C6_invariant.2.2.2.1 (-42) (by decide) (by decide),
    C6_invariant.2.2.2.2.1 (BigInt.ofString ['-', '1', '5']) (BigInt.ofString ['4'])
      (by decide) (by decide),
    C6_invariant.2.2.2.2.2 10 (BigInt.ofString ['-', '1', '5']) (BigInt.ofString ['4'])
      (by decide) (by decide) (by decide) (by decide)⟩

/-- C7: on well-formed operands the comparison operators agree with the order of
the integers; `>`, `<=`, `>=` and `!=` are derived from `<` and `==`, and exactly one
of `a < b`, `a == b`, `a > b` holds. -/
theorem C7_comparison (a b : BigInt) (ha : a.WellFormed) (hb : b.WellFormed) :
    (a.lt b = true ↔ a.denote < b.denote) ∧
    (a.eq b = true ↔ a.denote = b.denote) ∧
    (a.gt b = true ↔ a.denote > b.denote) ∧
    (a.le b = true ↔ a.denote ≤ b.denote) ∧
    (a.ge b = true ↔ a.denote ≥ b.denote) ∧
    (a.ne b = true ↔ a.denote ≠ b.denote) ∧
    a.gt b = b.lt a ∧ a.le b = !(a.gt b) ∧ a.ge b = !(a.lt b) ∧ a.ne b = !(a.eq b) ∧
    ((a.lt b = true ∧ a.eq b = false ∧ a.gt b = false) ∨
      (a.lt b = false ∧ a.eq b = true ∧ a.gt b = false) ∨
      (a.lt b = false ∧ a.eq b = false ∧ a.gt b = true)) := by
  have h1 := lt_spec ha hb
  have h2 := eq_spec ha hb
  have h3 : a.gt b = true ↔ a.denote > b.denote := lt_spec hb ha
  have l1 : a.lt b = false ↔ ¬ a.denote < b.denote := by
    rw [← h1]; simp
  have l2 : a.eq b = false ↔ ¬ a.denote = b.denote := by
    rw [← h2]; simp
  have l3 : a.gt b = false ↔ ¬ a.denote > b.denote := by
    rw [← h3]; simp
  refine ⟨h1, h2, h3, ?_, ?_, ?_, rfl, rfl, rfl, rfl, ?_⟩
  · unfold BigInt.le
    rw [Bool.not_eq_true', l3]
    omega
  · unfold BigInt.ge
    rw [Bool.not_eq_true', l1]
    omega
  · unfold BigInt.ne
    rw [Bool.not_eq_true', l2]
  · rw [h1, h2, h3, l1, l2, l3]
    omega

/-- Witness for C7 at `-3` and `2`. -/
theorem C7_comparison_witness :
    (BigInt.ofString ['-', '3']).lt (BigInt.ofString ['2']) = true ∧
    (BigInt.ofString ['-', '3']).denote < (BigInt.ofString ['2']).denote :=
  ⟨by decide,
    (C7_comparison (BigInt.ofString ['-', '3']) (BigInt.ofString ['2'])
      (by decide) (by decide)).1.mp (by decide)⟩

/-- C8: for every BigInt `n` (well formed or not), `(-n).isZero() == n.isZero()`
and `-(-n) == n`. -/
theorem C8_negation (n : BigInt) :
    n.neg.isZero = n.isZero ∧ BigInt.eq n.neg.neg n = true ∧ n.neg.neg = n := by
  obtain ⟨v, neg⟩ := n
  by_cases hz : v = ['0']
  · subst hz
    simp [BigInt.neg, BigInt.isZero, BigInt.eq]
  · simp [BigInt.neg, BigInt.isZero, BigInt.eq, hz]

/-! ## Specification of the environment -/

theorem Scope.keys_assign_of_contains {F : Type} (m : Scope F) (name : List Char)
    (val : Value F) (h : m.contains name = true) :
    (m.assign name val).map Prod.fst = m.map Prod.fst := by
  induction m with
  | nil => simp [Scope.contains, Scope.find] at h
  | cons kv rest ih =>
    obtain ⟨k, v⟩ := kv
    simp only [Scope.assign]
    by_cases hk : k = name
    · simp [hk]
    · have hr : Scope.contains rest name = true := by
        simpa [Scope.contains, Scope.find, hk] using h
      simp [hk, ih hr]

/-- C9: `setValue(name, v)` rebinds the name in the innermost local scope that
contains it; otherwise rebinds it in the global scope if that contains it; otherwise
binds it in the top local scope, or in the global scope when the stack is empty.  In
each case every other scope is left as it was, and the assignment changes the binding
of `name` only. -/
theorem C9_setValue_policy {F : Type} (env : Env F) (name : List Char) (val : Value F) :
    (∀ (pre : List (Scope F)) (s : Scope F) (post : List (Scope F)),
      env.scopeStack = pre ++ s :: post → s.contains name = true →
      (∀ t ∈ post, t.contains name = false) →
      env.setValue name val =
        { globalScope := env.globalScope, scopeStack := pre ++ s.assign name val :: post }) ∧
    ((∀ t ∈ env.scopeStack, t.contains name = false) → env.globalScope.contains name = true →
      env.setValue name val =
        { globalScope := env.globalScope.assign name val, scopeStack := env.scopeStack }) ∧
    ((∀ t ∈ env.scopeStack, t.contains name = false) → env.globalScope.contains name = false →
      (∀ (pre : List (Scope F)) (top : Scope F), env.scopeStack = pre ++ [top] →
        env.setValue name val =
          { globalScope := env.globalScope, scopeStack := pre ++ [top.assign name val] }) ∧
      (env.scopeStack = [] →
        env.setValue name val =
          { globalScope := env.globalScope.assign name val, scopeStack := [] })) ∧
    (∀ (m : Scope F) (n : List Char),
      (m.assign name val).find n = if n = name then some val else m.find n) ∧
    (∀ m : Scope F, m.contains name = true →
      (m.assign name val).map Prod.fst = m.map Prod.fst) := by
  obtain ⟨g, stack⟩ := env
  refine ⟨?_, ?_, ?_, fun m n => Scope.find_assign m name val n,
    fun m h => Scope.keys_assign_of_contains m name val h⟩
  · intro pre s post hst hs hpost
    simp only at hst
    subst hst
    have hloop := setValueLoop_found name val post.reverse s pre.reverse
      (fun t ht => hpost t (List.mem_reverse.mp ht)) hs
    unfold Env.setValue
    simp only [List.reverse_append, List.reverse_cons, List.append_assoc, List.singleton_append]
    rw [hloop]
    simp
  · intro hnone hg
    have hloop := setValueLoop_none name val stack.reverse
      (fun t ht => hnone t (List.mem_reverse.mp ht))
    unfold Env.setValue
    simp only [hloop, hg, if_true]
    split <;> rfl
  · intro hnone hg
    have hloop := setValueLoop_none name val stack.reverse
      (fun t ht => hnone t (List.mem_reverse.mp ht))
    constructor
    · intro pre top hst
      simp only at hst
      subst hst
      unfold Env.setValue
      simp only [hloop, hg]
      simp
    · intro hst
      simp only at hst
      subst hst
      rfl

/-- Witness for C9 with a global scope binding `g` and two local scopes, the outer one
binding `x`: writing `x`, `g` and the unbound `y`, and writing `y` with an empty stack. -/
theorem C9_setValue_policy_witness :
    Env.setValue (F := Unit)
        { globalScope := [(['g'], Value.bool true)],
          scopeStack := [[(['x'], Value.none)], []] } ['x'] (Value.bool false) =
      { globalScope := [(['g'], Value.bool true)],
        scopeStack := [] ++ Scope.assign [(['x'], Value.none)] ['x'] (Value.bool false) :: [[]] } ∧
    Env.setValue (F := Unit)
        { globalScope := [(['g'], Value.bool true)],
          scopeStack := [[(['x'], Value.none)], []] } ['g'] (Value.bool false) =
      { globalScope := Scope.assign [(['g'], Value.bool true)] ['g'] (Value.bool false),
        scopeStack := [[(['x'], Value.none)], []] } ∧
    Env.setValue (F := Unit)
        { globalScope := [(['g'], Value.bool true)],
          scopeStack := [[(['x'], Value.none)], []] } ['y'] (Value.bool false) =
      { globalScope := [(['g'], Value.bool true)],
        scopeStack := [[(['x'], Value.none)]] ++ [Scope.assign [] ['y'] (Value.bool false)] } ∧
    Env.setValue (F := Unit)
        { globalScope := [(['g'], Value.bool true)], scopeStack := [] } ['y'] (Value.bool false) =
      { globalScope := Scope.assign [(['g'], Value.bool true)] ['y'] (Value.bool false),
        scopeStack := [] } :=
  ⟨(C9_setValue_policy (F := Unit)
      { globalScope := [(['g'], Value.bool true)], scopeStack := [[(['x'], Value.none)], []] }
      ['x'] (Value.bool false)).1 [] [(['x'], Value.none)] [[]] rfl rfl
      (by intro t ht; simp only [List.mem_singleton] at ht; subst ht; rfl),
    (C9_setValue_policy (F := Unit)
      { globalScope := [(['g'], Value.bool true)], scopeStack := [[(['x'], Value.none)], []] }
      ['g'] (Value.bool false)).2.1
      (by
        intro t ht
        simp only [List.mem_cons, List.mem_singleton, List.not_mem_nil, or_false] at ht
        rcases ht with rfl | rfl <;> rfl) rfl,
    ((C9_setValue_policy (F := Unit)
      { globalScope := [(['g'], Value.bool true)], scopeStack := [[(['x'], Value.none)], []] }
      ['y'] (Value.bool false)).2.2.1
      (by
        intro t ht
        simp only [List.mem_cons, List.mem_singleton, List.not_mem_nil, or_false] at ht
        rcases ht with rfl | rfl <;> rfl) rfl).1 [[(['x'], Value.none)]] [] rfl,
    ((C9_setValue_policy (F := Unit)
      { globalScope := [(['g'], Value.bool true)], scopeStack := [] }
      ['y'] (Value.bool false)).2.2.1 (by intro t ht; cases ht) rfl).2 rfl⟩

/-- C10: `getValue(name)` returns the binding of the innermost local scope that
contains the name; if no local scope contains it, the global binding; and `None` if the
name is bound nowhere.  It returns a value in every case and leaves the environment
as it was. -/
theorem C10_getValue_policy {F : Type} (env : Env F) (name : List Char) :
    (∀ (pre : List (Scope F)) (s : Scope F) (post : List (Scope F)) (v : Value F),
      env.scopeStack = pre ++ s :: post → s.find name = some v →
      (∀ t ∈ post, t.contains name = false) → env.getValue name = (v, env)) ∧
    (∀ v : Value F, (∀ t ∈ env.scopeStack, t.contains name = false) →
      env.globalScope.find name = some v → env.getValue name = (v, env)) ∧
    ((∀ t ∈ env.scopeStack, t.contains name = false) → env.globalScope.contains name = false →
      env.getValue name = (Value.none, env)) := by
  obtain ⟨g, stack⟩ := env
  refine ⟨?_, ?_, ?_⟩
  · intro pre s post v hst hs hpost
    simp only at hst
    subst hst
    have hloop := getValueLoop_found name post.reverse s pre.reverse v
      (fun t ht => hpost t (List.mem_reverse.mp ht)) hs
    unfold Env.getValue
    simp only [List.reverse_append, List.reverse_cons, List.append_assoc, List.singleton_append]
    rw [hloop]
    simp
  · intro v hnone hg
    have hloop := getValueLoop_none name stack.reverse
      (fun t ht => hnone t (List.mem_reverse.mp ht))
    have hc : Scope.contains g name = true := (Scope.contains_iff g name).mpr ⟨v, hg⟩
    unfold Env.getValue
    simp only [hloop, hc, if_true, Scope.index_of_find hg]
  · intro hnone hg
    have hloop := getValueLoop_none name stack.reverse
      (fun t ht => hnone t (List.mem_reverse.mp ht))
    unfold Env.getValue
    simp only [hloop, hg, Bool.false_eq_true, if_false]

/-- Witness for C10 with `x` bound in the global scope and in two of three local
scopes: the innermost binding of `x` is read, `g` is read from the global scope, and
the unbound `y` reads as `None`. -/
theorem C10_getValue_policy_witness :
    Env.getValue (F := Unit)
        { globalScope := [(['x'], Value.bool true), (['g'], Value.str ['a'])],
          scopeStack := [[(['x'], Value.none)], [(['x'], Value.bool false)], []] } ['x'] =
      (Value.bool false,
        { globalScope := [(['x'], Value.bool true), (['g'], Value.str ['a'])],
          scopeStack := [[(['x'], Value.none)], [(['x'], Value.bool false)], []] }) ∧
    Env.getValue (F := Unit)
        { globalScope := [(['x'], Value.bool true), (['g'], Value.str ['a'])],
          scopeStack := [[(['x'], Value.none)], [(['x'], Value.bool false)], []] } ['g'] =
      (Value.str ['a'],
        { globalScope := [(['x'], Value.bool true), (['g'], Value.str ['a'])],
          scopeStack := [[(['x'], Value.none)], [(['x'], Value.bool false)], []] }) ∧
    Env.getValue (F := Unit)
        { globalScope := [(['x'], Value.bool true), (['g'], Value.str ['a'])],
          scopeStack := [[(['x'], Value.none)], [(['x'], Value.bool false)], []] } ['y'] =
      (Value.none,
        { globalScope := [(['x'], Value.bool true), (['g'], Value.str ['a'])],
          scopeStack := [[(['x'], Value.none)], [(['x'], Value.bool false)], []] }) :=
  ⟨(C10_getValue_policy (F := Unit)
      { globalScope := [(['x'], Value.bool true), (['g'], Value.str ['a'])],
        scopeStack := [[(['x'], Value.none)], [(['x'], Value.bool false)], []] } ['x']).1
      [[(['x'], Value.none)]] [(['x'], Value.bool false)] [[]] (Value.bool false) rfl rfl
      (by intro t ht; simp only [List.mem_singleton] at ht; subst ht; rfl),
    (C10_getValue_policy (F := Unit)
      { globalScope := [(['x'], Value.bool true), (['g'], Value.str ['a'])],
        scopeStack := [[(['x'], Value.none)], [(['x'], Value.bool false)], []] } ['g']).2.1
      (Value.str ['a'])
      (by
        intro t ht
        simp only [List.mem_cons, List.mem_singleton, List.not_mem_nil, or_false] at ht
        rcases ht with rfl | rfl | rfl <;> rfl) rfl,
    (C10_getValue_policy (F := Unit)
      { globalScope := [(['x'], Value.bool true), (['g'], Value.str ['a'])],
        scopeStack := [[(['x'], Value.none)], [(['x'], Value.bool false)], []] } ['y']).2.2
      (by
        intro t ht
        simp only [List.mem_cons, List.mem_singleton, List.not_mem_nil, or_false] at ht
        rcases ht with rfl | rfl | rfl <;> rfl) rfl⟩

/-! ## Scopes across a call -/

theorem setValue_local {F : Type} (g : Scope F) (pre : List (Scope F)) (s : Scope F)
    (post : List (Scope F)) (name : List Char) (val : Value F) (hs : s.contains name = true)
    (hpost : ∀ t ∈ post, t.contains name = false) :
    Env.setValue { globalScope := g, scopeStack := pre ++ s :: post } name val =
      { globalScope := g, scopeStack := pre ++ s.assign name val :: post } := by
  have hloop := setValueLoop_found name val post.reverse s pre.reverse
    (fun t ht => hpost t (List.mem_reverse.mp ht)) hs
  unfold Env.setValue
  simp only [List.reverse_append, List.reverse_cons, List.append_assoc, List.singleton_append]
  rw [hloop]
  simp

theorem setValue_global {F : Type} (g : Scope F) (stack : List (Scope F)) (name : List Char)
    (val : Value F) (hnone : ∀ t ∈ stack, t.contains name = false)
    (hg : g.contains name = true) :
    Env.setValue { globalScope := g, scopeStack := stack } name val =
      { globalScope := g.assign name val, scopeStack := stack } := by
  have hloop := setValueLoop_none name val stack.reverse
    (fun t ht => hnone t (List.mem_reverse.mp ht))
  unfold Env.setValue
  simp only [hloop, hg, if_true]
  split <;> rfl

theorem setValue_top {F : Type} (g : Scope F) (pre : List (Scope F)) (top : Scope F)
    (name : List Char) (val : Value F) (hnone : ∀ t ∈ pre ++ [top], t.contains name = false)
    (hg : g.contains name = false) :
    Env.setValue { globalScope := g, scopeStack := pre ++ [top] } name val =
      { globalScope := g, scopeStack := pre ++ [top.assign name val] } := by
  have hloop := setValueLoop_none name val (pre ++ [top]).reverse
    (fun t ht => hnone t (List.mem_reverse.mp ht))
  unfold Env.setValue
  simp only [hloop, hg]
  simp

theorem getValue_none {F : Type} (env : Env F) (name : List Char)
    (hnone : ∀ t ∈ env.scopeStack, t.contains name = false)
    (hg : env.globalScope.contains name = false) :
    env.getValue name = (Value.none, env) := by
  have hloop := getValueLoop_none name env.scopeStack.reverse
    (fun t ht => hnone t (List.mem_reverse.mp ht))
  unfold Env.getValue
  simp only [hloop, hg, Bool.false_eq_true, if_false]

theorem getValue_local {F : Type} (g : Scope F) (pre : List (Scope F)) (s : Scope F)
    (post : List (Scope F)) (name : List Char) (v : Value F) (hs : s.find name = some v)
    (hpost : ∀ t ∈ post, t.contains name = false) :
    Env.getValue { globalScope := g, scopeStack := pre ++ s :: post } name =
      (v, { globalScope := g, scopeStack := pre ++ s :: post }) := by
  have hloop := getValueLoop_found name post.reverse s pre.reverse v
    (fun t ht => hpost t (List.mem_reverse.mp ht)) hs
  unfold Env.getValue
  simp only [List.reverse_append, List.reverse_cons, List.append_assoc, List.singleton_append]
  rw [hloop]
  simp

theorem exitScope_append {F : Type} (g : Scope F) (stack : List (Scope F)) (top : Scope F) :
    Env.exitScope { globalScope := g, scopeStack := stack ++ [top] } =
      { globalScope := g, scopeStack := stack } := by
  unfold Env.exitScope
  simp

/-- C17: when `x` is bound in no local scope and not in the global scope, pushing a
scope, writing `x` and popping the scope gives back the environment unchanged, so
reading `x` afterwards returns what it returned before (`None`). -/
theorem C17_scope_write {F : Type} (env : Env F) (x : List Char) (v : Value F)
    (hl : ∀ t ∈ env.scopeStack, t.contains x = false)
    (hg : env.globalScope.contains x = false) :
    (env.enterScope.setValue x v).exitScope = env ∧
    (env.enterScope.setValue x v).scopeStack = env.scopeStack ++ [[(x, v)]] ∧
    (env.enterScope.setValue x v).globalScope = env.globalScope ∧
    ((env.enterScope.setValue x v).exitScope.getValue x).1 = (env.getValue x).1 ∧
    (env.getValue x).1 = Value.none := by
  obtain ⟨g, stack⟩ := env
  simp only at hl hg
  have hall : ∀ t ∈ stack ++ [[]], Scope.contains t x = false := by
    intro t ht
    simp only [List.mem_append, List.mem_singleton] at ht
    rcases ht with ht | ht
    · exact hl t ht
    · subst ht; rfl
  have hset : Env.setValue (Env.enterScope { globalScope := g, scopeStack := stack }) x v =
      { globalScope := g, scopeStack := stack ++ [[(x, v)]] } := by
    have := setValue_top g stack [] x v hall hg
    simpa [Env.enterScope, Scope.assign] using this
  have hexit := exitScope_append g stack [(x, v)]
  have hget := getValue_none { globalScope := g, scopeStack := stack } x hl hg
  rw [hset, hexit, hget]
  exact ⟨rfl, rfl, rfl, rfl, rfl⟩

/-- Witness for C17 with a global scope binding `g`, one caller scope binding `a`, and
a write of the unbound `x`. -/
theorem C17_scope_write_witness :
    Env.exitScope (F := Unit)
        (Env.setValue
          (Env.enterScope
            { globalScope := [(['g'], Value.bool true)], scopeStack := [[(['a'], Value.none)]] })
          ['x'] (Value.bool false)) =
      { globalScope := [(['g'], Value.bool true)], scopeStack := [[(['a'], Value.none)]] } :=
  (C17_scope_write (F := Unit)
    { globalScope := [(['g'], Value.bool true)], scopeStack := [[(['a'], Value.none)]] }
    ['x'] (Value.bool false)
    (by intro t ht; simp only [List.mem_singleton] at ht; subst ht; rfl) rfl).1

theorem scopes_contains_cases {F : Type} (name : List Char) (rs : List (Scope F)) :
    (∃ inner s outer, rs = inner ++ s :: outer ∧ (∀ t ∈ inner, t.contains name = false) ∧
      s.contains name = true) ∨ (∀ t ∈ rs, t.contains name = false) := by
  induction rs with
  | nil => right; intro t ht; cases ht
  | cons it rest ih =>
    by_cases h : it.contains name = true
    · left
      exact ⟨[], it, rest, rfl, fun t ht => (by cases ht), h⟩
    · have hf : it.contains name = false := by simpa using h
      rcases ih with ⟨inner, s, outer, e, h1, h2⟩ | hall
      · left
        refine ⟨it :: inner, s, outer, by rw [e]; rfl, ?_, h2⟩
        intro t ht
        simp only [List.mem_cons] at ht
        rcases ht with rfl | ht
        · exact hf
        · exact h1 t ht
      · right
        intro t ht
        simp only [List.mem_cons] at ht
        rcases ht with rfl | ht
        · exact hf
        · exact hall t ht

/-- C18: while the local scope stack is non-empty, `setValue(x, v)` leaves the global
scope unchanged when it has no binding for `x`; in every case it changes the global
scope at most by rebinding `x` when the global scope already binds it, so the keys of
the global scope and its bindings of other names stay the same. -/
theorem C18_call_scope {F : Type} (env : Env F) (x : List Char) (v : Value F)
    (hne : env.scopeStack ≠ []) :
    (env.globalScope.contains x = false →
      (env.setValue x v).globalScope = env.globalScope) ∧
    ((env.setValue x v).globalScope = env.globalScope ∨
      (env.globalScope.contains x = true ∧
        (env.setValue x v).globalScope = env.globalScope.assign x v)) ∧
    (env.setValue x v).globalScope.map Prod.fst = env.globalScope.map Prod.fst ∧
    (∀ n : List Char, n ≠ x →
      (env.setValue x v).globalScope.find n = env.globalScope.find n) := by
  obtain ⟨g, stack⟩ := env
  simp only at hne
  have key : (Env.setValue { globalScope := g, scopeStack := stack } x v).globalScope = g ∨
      (g.contains x = true ∧
        (Env.setValue { globalScope := g, scopeStack := stack } x v).globalScope =
          g.assign x v) := by
    rcases scopes_contains_cases x stack.reverse with ⟨inner, s, outer, e, h1, h2⟩ | hall
    · left
      have hst : stack = outer.reverse ++ s :: inner.reverse := by
        have := congrArg List.reverse e
        simpa using this
      rw [hst, setValue_local g outer.reverse s inner.reverse x v h2
        (fun t ht => h1 t (List.mem_reverse.mp ht))]
    · have hall2 : ∀ t ∈ stack, Scope.contains t x = false :=
        fun t ht => hall t (List.mem_reverse.mpr ht)
      by_cases hg : g.contains x = true
      · right
        rw [setValue_global g stack x v hall2 hg]
        exact ⟨hg, rfl⟩
      · left
        have hgf : g.contains x = false := by simpa using hg
        obtain ⟨pre, top, rfl⟩ : ∃ pre top, stack = pre ++ [top] :=
          ⟨stack.dropLast, stack.getLast hne, (List.dropLast_append_getLast hne).symm⟩
        rw [setValue_top g pre top x v hall2 hgf]
  refine ⟨?_, key, ?_, ?_⟩
  · intro hg
    rcases key with h | ⟨h1, _⟩
    · exact h
    · rw [hg] at h1; cases h1
  · rcases key with h | ⟨h1, h2⟩
    · rw [h]
    · rw [h2]
      exact Scope.keys_assign_of_contains g x v h1
  · intro n hn
    rcases key with h | ⟨_, h2⟩
    · rw [h]
    · rw [h2, Scope.find_assign]
      simp [hn]

/-- Witness for C18 with one local scope and the write of a name that the global scope
does not bind. -/
theorem C18_call_scope_witness :
    (Env.setValue (F := Unit)
        { globalScope := [(['g'], Value.bool true)], scopeStack := [[]] }
        ['x'] (Value.bool false)).globalScope = [(['g'], Value.bool true)] :=
  (C18_call_scope (F := Unit)
    { globalScope := [(['g'], Value.bool true)], scopeStack := [[]] }
    ['x'] (Value.bool false) (by simp)).1 rfl

/-! ## Equality of values -/

theorem BigInt.eq_iff (a b : BigInt) : a.eq b = true ↔ a = b := by
  obtain ⟨av, an⟩ := a
  obtain ⟨bv, bn⟩ := b
  simp only [BigInt.eq, Bool.and_eq_true, decide_eq_true_eq, BigInt.mk.injEq]
  exact ⟨fun h => ⟨h.2, h.1⟩, fun h => ⟨h.2, h.1⟩⟩

/-- C19: `operator==` on two values of the same tag compares the payloads for `None`,
`Bool`, `Int` and `String`; on two tuples it returns `false` whatever they hold, so
`(1, 2) == (1, 2)` is `false`. -/
theorem C19_same_tag_equality {F : Type} (D : DoubleOps F) :
    Value.eq D Value.none Value.none = .ok true ∧
    (∀ a b : Bool, Value.eq D (.bool a) (.bool b) = .ok (decide (a = b))) ∧
    (∀ a b : BigInt, Value.eq D (.int a) (.int b) = .ok (decide (a = b))) ∧
    (∀ a b : List Char, Value.eq D (.str a) (.str b) = .ok (decide (a = b))) ∧
    (∀ t u : List (Value F), Value.eq D (.tuple t) (.tuple u) = .ok false) ∧
    Value.eq D (.tuple [.int (BigInt.ofInt 1), .int (BigInt.ofInt 2)])
      (.tuple [.int (BigInt.ofInt 1), .int (BigInt.ofInt 2)]) = .ok false ∧
    Value.eq D (.tuple []) (.tuple []) = .ok false := by
  refine ⟨rfl, ?_, ?_, fun a b => rfl, fun t u => rfl, rfl, rfl⟩
  · intro a b
    cases a <;> cases b <;> rfl
  · intro a b
    show Except.ok (a.eq b) = _
    congr 1
    by_cases h : a = b
    · simp [h, (BigInt.eq_iff b b).mpr rfl]
    · have : a.eq b = false := by
        cases hb : a.eq b
        · rfl
        · exact absurd ((BigInt.eq_iff a b).mp hb) h
      simp [h, this]

/-- C20: `operator==` on values of different tags: a `Bool` and an `Int` are compared
after widening the `Bool` to `BigInt(0)` or `BigInt(1)`; a `String` equals no value of
another tag; and a pair of different tags that are not both numeric is unequal. -/
theorem C20_cross_tag_equality {F : Type} (D : DoubleOps F) :
    (∀ (b : Bool) (i : BigInt),
      Value.eq D (.bool b) (.int i) = .ok ((BigInt.ofInt (if b then 1 else 0)).eq i) ∧
      Value.eq D (.int i) (.bool b) = .ok (i.eq (BigInt.ofInt (if b then 1 else 0)))) ∧
    (∀ (b : Bool) (i : BigInt), i.WellFormed →
      (Value.eq D (.bool b) (.int i) = .ok true ↔ i.denote = (if b then 1 else 0)) ∧
      (Value.eq D (.int i) (.bool b) = .ok true ↔ i.denote = (if b then 1 else 0))) ∧
    (∀ (s : List Char) (v : Value F), v.type ≠ .STRING →
      Value.eq D (.str s) v = .ok false ∧ Value.eq D v (.str s) = .ok false) ∧
    (∀ x y : Value F, x.type ≠ y.type → (x.isNumeric && y.isNumeric) = false →
      Value.eq D x y = .ok false) := by
  refine ⟨?_, ?_, ?_, ?_⟩
  · intro b i
    cases b <;> exact ⟨rfl, rfl⟩
  · intro b i hi
    have hw : (BigInt.ofInt (if b then 1 else 0)).WellFormed := by cases b <;> decide
    have hd : (BigInt.ofInt (if b then 1 else 0)).denote = (if b then 1 else 0) := by
      cases b <;> decide
    have e1 : Value.eq D (.bool b) (.int i) =
        .ok ((BigInt.ofInt (if b then 1 else 0)).eq i) := by cases b <;> rfl
    have e2 : Value.eq D (.int i) (.bool b) =
        .ok (i.eq (BigInt.ofInt (if b then 1 else 0))) := by cases b <;> rfl
    rw [e1, e2]
    constructor
    · rw [Except.ok.injEq, eq_spec hw hi, hd]
      exact eq_comm
    · rw [Except.ok.injEq, eq_spec hi hw, hd]
  · intro s v hv
    cases v with
    | str t => exact absurd rfl hv
    | none => exact ⟨rfl, rfl⟩
    | bool b => exact ⟨rfl, rfl⟩
    | int i => exact ⟨rfl, rfl⟩
    | float f => exact ⟨rfl, rfl⟩
    | tuple t => exact ⟨rfl, rfl⟩
  · intro x y hxy hnum
    cases x <;> cases y <;>
      first
        | exact absurd rfl hxy
        | rfl
        | (simp [Value.isNumeric] at hnum)

/-- Witness for C20: `1 == True` is true and `"1" == 1` is false. -/
theorem C20_cross_tag_equality_witness :
    Value.eq plainHost.double (.int (BigInt.ofString ['1'])) (.bool true) = .ok true ∧
    Value.eq plainHost.double (.str ['1']) (.int (BigInt.ofString ['1'])) = .ok false :=
  ⟨((C20_cross_tag_equality plainHost.double).2.1 true (BigInt.ofString ['1'])
      (by decide)).2.mpr (by decide),
    ((C20_cross_tag_equality plainHost.double).2.2.1 ['1'] (.int (BigInt.ofString ['1']))
      (by decide)).1⟩

/-! ## The call protocol -/

/-- C11: a callee that raises `break` or `continue` outside a loop of its own leaves
its scope on the stack.  The call `f()` with body `break`, started with an empty
stack, ends with a `BreakException` and one scope on the stack; the whole program ends
normally with that scope still there.  With `return` in the body the stack is empty
afterwards. -/
theorem C11_scope_leak :
    (visit plainHost 20 (.suite [defStmt "f" [] [] [.break_stmt],
        exprStmt (callExpr "f" [])])
      { env := { globalScope := [], scopeStack := [] }, functions := [], out := [] }).isBreak
      = true ∧
    (visit plainHost 20 (.suite [defStmt "f" [] [] [.break_stmt],
        exprStmt (callExpr "f" [])])
      { env := { globalScope := [], scopeStack := [] }, functions := [],
        out := [] }).2.env.scopeStack.length = 1 ∧
    (visitFile_input plainHost 20 breakInCallee).isOk = true ∧
    (visitFile_input plainHost 20 breakInCallee).2.env.scopeStack.length = 1 ∧
    (visitFile_input plainHost 20 continueInCallee).isOk = true ∧
    (visitFile_input plainHost 20 continueInCallee).2.env.scopeStack.length = 1 ∧
    (visitFile_input plainHost 20 returnInCallee).isOk = true ∧
    (visitFile_input plainHost 20 returnInCallee).2.env.scopeStack.length = 0 := by
  refine ⟨by rfl, by rfl, by rfl, by rfl, by rfl, by rfl, by rfl, by rfl⟩

/-- C12: the parameters are bound with `setValue`, which rebinds an existing outer
binding instead of binding in the fresh scope.  After `x = 5`, `def f(x): return x`,
`f(10)` the global `x` is `10` and `print(x)` writes `10`; binding the parameter left
the pushed scope empty.  A caller's local `x` is overwritten in the same way. -/
theorem C12_parameter_overwrites_outer :
    (visitFile_input plainHost 20 parameterShadowsGlobal).isOk = true ∧
    (visitFile_input plainHost 20 parameterShadowsGlobal).2.out = "10\n".toList ∧
    (visitFile_input plainHost 20 parameterShadowsGlobal).2.env.globalScope.find "x".toList =
      some (Value.int (BigInt.ofString "10".toList)) ∧
    (bindArgs [("x".toList, Value.int (BigInt.ofString "10".toList))]
        (St.enterScope (F := Unit)
          { env := { globalScope := [("x".toList, Value.int (BigInt.ofString "5".toList))],
                     scopeStack := [] },
            functions := [], out := [] })).env =
      { globalScope := [("x".toList, Value.int (BigInt.ofString "10".toList))],
        scopeStack := [[]] } ∧
    (visitFile_input plainHost 20 parameterShadowsCaller).2.out = "10\n".toList := by
  refine ⟨by rfl, by rfl, by rfl, by rfl, by rfl⟩

/-- Counterexample to C13: the callee `g` with body `return y` is called from two
states that differ only in the caller's local binding of `y`; it returns the caller's
`1` in one and the caller's `2` in the other. -/
theorem C13_counterexample :
    (callerBinds "1").functions = (callerBinds "2").functions ∧
    (callerBinds "1").env.globalScope = (callerBinds "2").env.globalScope ∧
    (visit plainHost 20 (.expr (callExpr "g" [])) (callerBinds "1")).1 =
      .ok (Value.int (BigInt.ofString "1".toList)) ∧
    (visit plainHost 20 (.expr (callExpr "g" [])) (callerBinds "2")).1 =
      .ok (Value.int (BigInt.ofString "2".toList)) ∧
    (visit plainHost 20 (.expr (callExpr "g" [])) (callerBinds "1")).1 ≠
      (visit plainHost 20 (.expr (callExpr "g" [])) (callerBinds "2")).1 := by
  refine ⟨by rfl, by rfl, by rfl, by rfl, ?_⟩
  have h1 : (visit plainHost 20 (.expr (callExpr "g" [])) (callerBinds "1")).1 =
      .ok (Value.int (BigInt.ofString "1".toList)) := by rfl
  have h2 : (visit plainHost 20 (.expr (callExpr "g" [])) (callerBinds "2")).1 =
      .ok (Value.int (BigInt.ofString "2".toList)) := by rfl
  rw [h1, h2]
  intro h
  injection h with h
  injection h with h
  revert h
  decide

/-- C13, amended: in the scope pushed for a call, a name that names no function and
that the innermost binding scope of the callers binds to `v` reads as `v`: the callee
sees the local scopes of its callers. -/
theorem C13_callee_reads_caller_locals {F : Type} (H : Host F) (vis : Visit F) (st : St F)
    (name : List Char) (pre : List (Scope F)) (s : Scope F) (post : List (Scope F))
    (v : Value F) (hst : st.env.scopeStack = pre ++ s :: post) (hs : s.find name = some v)
    (hpost : ∀ t ∈ post, t.contains name = false)
    (hf : findFunction st.functions name = Option.none) :
    visitAtom H vis (.NAME name) st.enterScope = (.ok v, st.enterScope) ∧
    (st.env.enterScope.getValue name).1 = v := by
  obtain ⟨⟨g, stack⟩, fs, out⟩ := st
  simp only at hst hs hf
  subst hst
  have hpost2 : ∀ t ∈ post ++ [[]], Scope.contains t name = false := by
    intro t ht
    simp only [List.mem_append, List.mem_singleton] at ht
    rcases ht with ht | ht
    · exact hpost t ht
    · subst ht; rfl
  have hget := getValue_local g pre s (post ++ [[]]) name v hs hpost2
  have henv : Env.enterScope { globalScope := g, scopeStack := pre ++ s :: post } =
      { globalScope := g, scopeStack := pre ++ s :: (post ++ [[]]) } := by
    simp [Env.enterScope]
  constructor
  · simp only [visitAtom, St.enterScope, hf, Option.isSome_none, Bool.false_eq_true, if_false,
      St.getValue, henv, hget]
  · simp only [henv, hget]

/-- Witness for C13, amended: the state in which the caller binds `y` to `1`. -/
theorem C13_callee_reads_caller_locals_witness :
    visitAtom plainHost (visit plainHost 20) (.NAME "y".toList) (callerBinds "1").enterScope =
      (.ok (Value.int (BigInt.ofString "1".toList)), (callerBinds "1").enterScope) ∧
    ((callerBinds "1").env.enterScope.getValue "y".toList).1 =
      Value.int (BigInt.ofString "1".toList) :=
  C13_callee_reads_caller_locals plainHost (visit plainHost 20) (callerBinds "1") "y".toList
    [] [("y".toList, Value.int (BigInt.ofString "1".toList))] []
    (Value.int (BigInt.ofString "1".toList)) rfl rfl (by intro t ht; cases ht) rfl

/-- C14: the defaults are filled in only inside the branch for a call that has an
argument list.  With `def f(y=10): return y` the call `f()` returns `None`, while with
`def f(x, y=10): return x + y` the calls `f(1)`, `f(1, 2)` and `f(y=5, x=3)` give `11`,
`3` and `8`. -/
theorem C14_defaults_skipped_for_empty_call :
    (visitFile_input plainHost 20 defaultWithEmptyCall).isOk = true ∧
    (visitFile_input plainHost 20 defaultWithEmptyCall).2.out = "None\n".toList ∧
    (visitFile_input plainHost 20 defaultsScenario).isOk = true ∧
    (visitFile_input plainHost 20 defaultsScenario).2.out = "11\n3\n8\n".toList := by
  refine ⟨by rfl, by rfl, by rfl, by rfl⟩

/-- Counterexample to C15: with `def f(x): return x` the calls `f(1, x=2)` and
`f(x=3, x=4)` raise no error; they run the body and return `2` and `4`. -/
theorem C15_counterexample :
    (visitFile_input plainHost 20 duplicateBinding).isOk = true ∧
    (visitFile_input plainHost 20 duplicateBinding).2.out = "2\n4\n".toList ∧
    (visit plainHost 20
      (.expr (callExpr "f" [.test (numExpr "1"), .keyword "x".toList (numExpr "2")]))
      onlyF).1 = .ok (Value.int (BigInt.ofString "2".toList)) ∧
    (visit plainHost 20
      (.expr (callExpr "f" [.keyword "x".toList (numExpr "3"),
        .keyword "x".toList (numExpr "4")]))
      onlyF).1 = .ok (Value.int (BigInt.ofString "4".toList)) := by
  refine ⟨by rfl, by rfl, by rfl, by rfl⟩

/-- C15, amended: binding a parameter twice is not an error.  The argument loop assigns
the value of each argument to its parameter in argument order, whether or not the
parameter is bound already, and a later assignment replaces the earlier one: for two
keyword arguments with the same name, and for a positional argument followed by a
keyword argument that names the same parameter, the loop ends normally with the
parameter bound to the value of the later argument. -/
theorem C15_later_binding_wins {F : Type} (vis : Visit F) (funcName name : List Char)
    (e1 e2 : Expr) (v1 v2 : Value F) (st st1 st2 : St F)
    (h2 : vis (.expr e2) st1 = (.ok v2, st2)) :
    (vis (.expr e1) st = (.ok v1, st1) →
      argLoop vis funcName [.keyword name e1, .keyword name e2] [] 0 st =
        (.ok ((Scope.assign [] name v1).assign name v2), st2)) ∧
    (0 < (currentFunc st funcName).params.length →
      (currentFunc st1 funcName).params.getD 0 [] = name →
      vis (.argument (.test e1)) st = (.ok v1, st1) →
      argLoop vis funcName [.test e1, .keyword name e2] [] 0 st =
        (.ok ((Scope.assign [] name v1).assign name v2), st2)) ∧
    ((Scope.assign [] name v1).assign name v2).find name = some v2 ∧
    ((Scope.assign [] name v1).assign name v2).map Prod.fst = [name] := by
  refine ⟨?_, ?_, ?_, ?_⟩
  · intro h1
    simp only [argLoop, h1, h2]
  · intro hp hn h1
    simp only [argLoop, hp, if_true, h1, hn, h2]
  · rw [Scope.find_assign]
    simp
  · simp [Scope.assign]

/-- Witness for C15, amended: the arguments `1, x=2` and `x=1, x=2` of `f(x)`. -/
theorem C15_later_binding_wins_witness :
    argLoop (visit plainHost 20) "f".toList
        [.keyword "x".toList (numExpr "1"), .keyword "x".toList (numExpr "2")] [] 0 onlyF =
      (.ok ((Scope.assign [] "x".toList (Value.int (BigInt.ofString "1".toList))).assign
        "x".toList (Value.int (BigInt.ofString "2".toList))), onlyF) ∧
    argLoop (visit plainHost 20) "f".toList
        [.test (numExpr "1"), .keyword "x".toList (numExpr "2")] [] 0 onlyF =
      (.ok ((Scope.assign [] "x".toList (Value.int (BigInt.ofString "1".toList))).assign
        "x".toList (Value.int (BigInt.ofString "2".toList))), onlyF) :=
  ⟨(C15_later_binding_wins (visit plainHost 20) "f".toList "x".toList (numExpr "1")
      (numExpr "2") (Value.int (BigInt.ofString "1".toList))
      (Value.int (BigInt.ofString "2".toList)) onlyF onlyF onlyF rfl).1 rfl,
    (C15_later_binding_wins (visit plainHost 20) "f".toList "x".toList (numExpr "1")
      (numExpr "2") (Value.int (BigInt.ofString "1".toList))
      (Value.int (BigInt.ofString "2".toList)) onlyF onlyF onlyF rfl).2.1
      (by decide) rfl rfl⟩

/-- Counterexample to C16: with `def f(x): return x` the call `f(1, 2)` raises no
error; it runs the body and returns `1`.  The excess argument is not even evaluated:
`f(1, print(9))` prints nothing of its own. -/
theorem C16_counterexample :
    (visitFile_input plainHost 20 excessPositional).isOk = true ∧
    (visitFile_input plainHost 20 excessPositional).2.out = "1\n1\n".toList ∧
    (visit plainHost 20
      (.expr (callExpr "f" [.test (numExpr "1"), .test (numExpr "2")])) onlyF).1 =
      .ok (Value.int (BigInt.ofString "1".toList)) := by
  refine ⟨by rfl, by rfl, by rfl⟩

/-- C16, amended: a positional argument that has no parameter slot left is skipped: it
is neither evaluated nor bound, no error is raised, and the argument loop goes on with
the remaining arguments. -/
theorem C16_excess_positional_skipped {F : Type} (vis : Visit F) (funcName : List Char)
    (t : Expr) (rest : List Argument) (args : Scope F) (posArgCount : Nat) (st : St F)
    (h : (currentFunc st funcName).params.length ≤ posArgCount) :
    argLoop vis funcName (.test t :: rest) args posArgCount st =
      argLoop vis funcName rest args posArgCount st := by
  have hn : ¬ posArgCount < (currentFunc st funcName).params.length := by omega
  simp only [argLoop, hn, if_false]

/-- Witness for C16, amended: the second positional argument of `f(1, 2)` for `f(x)`. -/
theorem C16_excess_positional_skipped_witness :
    argLoop (visit plainHost 20) "f".toList [.test (numExpr "2")]
        [("x".toList, Value.int (BigInt.ofString "1".toList))] 1 onlyF =
      argLoop (visit plainHost 20) "f".toList []
        [("x".toList, Value.int (BigInt.ofString "1".toList))] 1 onlyF :=
  C16_excess_positional_skipped (visit plainHost 20) "f".toList (numExpr "2") []
    [("x".toList, Value.int (BigInt.ofString "1".toList))] 1 onlyF (by decide)

/-! ## Operators of Value -/

/-- Counterexample to C21: on the host with integral doubles `1 / 0` on `Int` operands
returns a `Float` and raises nothing, as an operator and as an expression, while
`1 // 0` and `1 % 0` throw "Division by zero". -/
theorem C21_counterexample :
    Value.div integralHost.double (.int (BigInt.ofString "1".toList))
      (.int (BigInt.ofString "0".toList)) = .ok (.float 0) ∧
    (visit integralHost 20 (.expr (.term (numExpr "1") [(.div, numExpr "0")]))
      { env := { globalScope := [], scopeStack := [] }, functions := [], out := [] }).isOk
      = true ∧
    Value.floordiv integralHost.double 20 (.int (BigInt.ofString "1".toList))
      (.int (BigInt.ofString "0".toList)) = .error (.runtime_error "Division by zero") ∧
    Value.mod integralHost.double 20 (.int (BigInt.ofString "1".toList))
      (.int (BigInt.ofString "0".toList)) = .error (.runtime_error "Division by zero") := by
  refine ⟨by rfl, by rfl, by rfl, by rfl⟩

/-- C21, amended: `/` makes no test for a zero divisor.  On `Int` operands that `toDouble`
converts to `x` and `y` it returns the `Float` that the host's division gives for `x`
and `y`, also when the divisor is the `Int` zero; `//` and `%` with a zero `Int`
divisor throw "Division by zero". -/
theorem C21_true_division_never_checks_zero {F : Type} (D : DoubleOps F) (a b : BigInt)
    (x y : F) (hx : a.toDouble D = .ok x) (hy : b.toDouble D = .ok y) :
    Value.div D (.int a) (.int b) = .ok (.float (D.div x y)) ∧
    (∀ fuel : Nat, b.isZero = true →
      Value.floordiv D fuel (.int a) (.int b) = .error (.runtime_error "Division by zero") ∧
      Value.mod D fuel (.int a) (.int b) = .error (.runtime_error "Division by zero")) := by
  constructor
  · simp only [Value.div, Value.floatOp, Value.toFloat, hx, hy]
  · intro fuel hz
    simp [Value.floordiv, Value.mod, BigInt.div, BigInt.mod, hz]

/-- Witness for C21, amended: `1 / 0` on the host with integral doubles. -/
theorem C21_true_division_never_checks_zero_witness :
    Value.div integralHost.double (.int (BigInt.ofString "1".toList))
      (.int (BigInt.ofString "0".toList)) =
      .ok (.float (integralHost.double.div 1 0)) :=
  (C21_true_division_never_checks_zero integralHost.double (BigInt.ofString "1".toList)
    (BigInt.ofString "0".toList) 1 0 (by rfl) (by rfl)).1

theorem repeatStr_eq_join (s : List Char) (k : Nat) :
    Value.repeatStr s k = (List.replicate k s).flatten := by
  induction k with
  | zero => rfl
  | succ k ih =>
    rw [Value.repeatStr, ih]
    have : List.replicate (k + 1) s = List.replicate k s ++ [s] := by
      rw [List.replicate_succ']
    rw [this]
    simp

theorem repeatStr_length (s : List Char) (k : Nat) :
    (Value.repeatStr s k).length = k * s.length := by
  induction k with
  | zero => simp [Value.repeatStr]
  | succ k ih =>
    rw [Value.repeatStr, List.length_append, ih]
    ring

/-- C24 fails in the code for a count `n ≤ 0`: `s * n` and `n * s` are the same, and
for `n > 0` whose conversion to `double` and back to `long long` is exact the result
is `n` copies of `s`, of length `n * len(s)`; but for a well-formed `n ≤ 0` the result
is the `Bool` `true`, not the empty string, because `Value("")` constructs a `Bool`. -/
theorem C24_nonpositive_count_gives_true {F : Type} (D : DoubleOps F) (s : List Char)
    (n : BigInt) (hn : n.WellFormed) :
    Value.mul D (.str s) (.int n) = Value.mul D (.int n) (.str s) ∧
    (n.denote ≤ 0 → Value.mul D (.str s) (.int n) = .ok (.bool true)) ∧
    (∀ d : F, 0 < n.denote → D.stod n.value = .ok d → D.toLongLong d = n.denote →
      Value.mul D (.str s) (.int n) = .ok (.str (Value.repeatStr s n.denote.toNat)) ∧
      Value.repeatStr s n.denote.toNat = (List.replicate n.denote.toNat s).flatten ∧
      (Value.repeatStr s n.denote.toNat).length = n.denote.toNat * s.length) := by
  have hneg := wellFormed_negative_iff hn
  have hzero := isZero_iff hn.1
  refine ⟨rfl, ?_, ?_⟩
  · intro hle
    have : (n.isNegative || n.isZero) = true := by
      rcases lt_or_eq_of_le hle with h | h
      · have := hneg.mpr h
        simp [BigInt.isNegative, this]
      · have := hzero.mpr h
        simp [this]
    simp only [Value.mul, Value.mulStrInt, this, if_true]
  · intro d hpos hd hl
    have h1 : n.negative = false := by
      cases hb : n.negative
      · rfl
      · have := hneg.mp hb
        omega
    have h2 : n.isZero = false := by
      cases hb : n.isZero
      · rfl
      · have := hzero.mp hb
        omega
    refine ⟨?_, repeatStr_eq_join s _, repeatStr_length s _⟩
    simp only [Value.mul, Value.mulStrInt, BigInt.isNegative, h1, h2, Bool.or_self,
      Bool.false_eq_true, if_false, BigInt.toDouble, hd, hl]

/-- Witness for C24 on the host with integral doubles: `"ab" * 3` and `3 * "ab"` are
`ababab`, `"x" * -2` and `"x" * 0` are `True`, and the program `print("ab" * 3)`,
`print(3 * "ab")`, `print("x" * -2)` prints `ababab`, `ababab`, `True`. -/
theorem C24_nonpositive_count_gives_true_witness :
    Value.mul integralHost.double (.str "ab".toList) (.int (BigInt.ofString "3".toList)) =
      .ok (.str "ababab".toList) ∧
    Value.mul integralHost.double (.int (BigInt.ofString "3".toList)) (.str "ab".toList) =
      .ok (.str "ababab".toList) ∧
    Value.mul integralHost.double (.str "x".toList) (.int (BigInt.ofString "-2".toList)) =
      .ok (.bool true) ∧
    Value.mul integralHost.double (.str "x".toList) (.int (BigInt.ofString "0".toList)) =
      .ok (.bool true) ∧
    (visitFile_input integralHost 20 repetitionProgram).2.out =
      "ababab\nababab\nTrue\n".toList :=
  ⟨((C24_nonpositive_count_gives_true integralHost.double "ab".toList
      (BigInt.ofString "3".toList) (by decide)).2.2 3 (by decide) (by rfl) (by rfl)).1.trans
      (by rfl),
    ((C24_nonpositive_count_gives_true integralHost.double "ab".toList
      (BigInt.ofString "3".toList) (by decide)).1.symm).trans (by rfl),
    (C24_nonpositive_count_gives_true integralHost.double "x".toList
      (BigInt.ofString "-2".toList) (by decide)).2.1 (by decide),
    (C24_nonpositive_count_gives_true integralHost.double "x".toList
      (BigInt.ofString "0".toList) (by decide)).2.1 (by decide),
    by rfl⟩

/-- C25: `+` on operands of which none is a `String` or a `Float` and which are not
both `Int`, `-` on operands of which none is a `Float` and which are not both `Int`,
and unary `-` on an operand that is neither `Int` nor `Float`, return `None` and throw
nothing. -/
theorem C25_type_mismatch_none {F : Type} (D : DoubleOps F) (x y : Value F) :
    (x.type ≠ .STRING → y.type ≠ .STRING → x.type ≠ .FLOAT → y.type ≠ .FLOAT →
      ¬ (x.type = .INT ∧ y.type = .INT) → Value.add D x y = .ok Value.none) ∧
    (x.type ≠ .FLOAT → y.type ≠ .FLOAT → ¬ (x.type = .INT ∧ y.type = .INT) →
      Value.sub D x y = .ok Value.none) ∧
    (x.type ≠ .INT → x.type ≠ .FLOAT → Value.neg D x = Value.none) := by
  refine ⟨?_, ?_, ?_⟩
  · intro h1 h2 h3 h4 h5
    cases x <;> cases y <;>
      first
        | rfl
        | exact absurd rfl h1
        | exact absurd rfl h2
        | exact absurd rfl h3
        | exact absurd rfl h4
        | exact absurd ⟨rfl, rfl⟩ h5
  · intro h3 h4 h5
    cases x <;> cases y <;>
      first
        | rfl
        | exact absurd rfl h3
        | exact absurd rfl h4
        | exact absurd ⟨rfl, rfl⟩ h5
  · intro h1 h2
    cases x <;>
      first
        | rfl
        | exact absurd rfl h1
        | exact absurd rfl h2

/-- Witness for C25: `None - 1`, `True + 1`, `"a" - 1` and `-None`. -/
theorem C25_type_mismatch_none_witness :
    Value.sub plainHost.double Value.none (.int (BigInt.ofString "1".toList)) =
      .ok Value.none ∧
    Value.add plainHost.double (.bool true) (.int (BigInt.ofString "1".toList)) =
      .ok Value.none ∧
    Value.sub plainHost.double (.str "a".toList) (.int (BigInt.ofString "1".toList)) =
      .ok Value.none ∧
    Value.neg plainHost.double Value.none = Value.none :=
  ⟨(C25_type_mismatch_none plainHost.double Value.none
      (.int (BigInt.ofString "1".toList))).2.1 (by decide) (by decide) (by decide),
    (C25_type_mismatch_none plainHost.double (.bool true)
      (.int (BigInt.ofString "1".toList))).1 (by decide) (by decide) (by decide) (by decide)
      (by decide),
    (C25_type_mismatch_none plainHost.double (.str "a".toList)
      (.int (BigInt.ofString "1".toList))).2.1 (by decide) (by decide) (by decide),
    (C25_type_mismatch_none plainHost.double Value.none Value.none).2.2 (by decide)
      (by decide)⟩

/-! ## Rendering of tuples and conversion of strings -/

theorem toString_elems_cons {F : Type} (D : DoubleOps F) (v : Value F) (rest : List (Value F))
    (i : Nat) :
    Value.toString.elems D (v :: rest) i =
      (if i > 0 then ", ".toList else []) ++ Value.elemText D v ++
        Value.toString.elems D rest (i + 1) := by
  cases v <;> simp [Value.toString.elems, Value.elemText]

theorem toString_elems_succ {F : Type} (D : DoubleOps F) (rest : List (Value F)) (i : Nat) :
    Value.toString.elems D rest (i + 1) =
      (rest.map (fun w => ", ".toList ++ Value.elemText D w)).flatten := by
  induction rest generalizing i with
  | nil => simp [Value.toString.elems]
  | cons w ws ih =>
    rw [toString_elems_cons, ih]
    simp

/-- Counterexample to C22: the tuple `(1, ("a",))` renders as `(1, ('a',))`: the string
inside the nested tuple is quoted. -/
theorem C22_counterexample :
    Value.toString plainHost.double
      (.tuple [.int (BigInt.ofString "1".toList), .tuple [.str "a".toList]]) =
      "(1, ('a',))".toList := by
  rfl

/-- C22, amended: `toString` of the empty tuple is `()`; of a non-empty tuple it is the
element texts joined by `", "` between parentheses, with a trailing comma for a
singleton, where the text of a `String` element is the string in single quotes and the
text of any other element, a nested tuple included, is its `toString`.  A nested tuple
is therefore rendered by the same rule, and its string elements are quoted too. -/
theorem C22_tuple_rendering {F : Type} (D : DoubleOps F) :
    Value.toString D (.tuple []) = "()".toList ∧
    (∀ (v : Value F) (rest : List (Value F)),
      Value.toString D (.tuple (v :: rest)) =
        "(".toList ++ Value.elemText D v ++
          (rest.map (fun w => ", ".toList ++ Value.elemText D w)).flatten ++
          (if rest.isEmpty then ",".toList else []) ++ ")".toList) ∧
    (∀ s : List Char, Value.elemText D (.str s) = "'".toList ++ s ++ "'".toList) ∧
    (∀ t : List (Value F), Value.elemText D (.tuple t) = Value.toString D (.tuple t)) ∧
    (∀ s : List Char, Value.toString D (.tuple [.tuple [.str s]]) =
      "(('".toList ++ s ++ "',),)".toList) := by
  have hcons : ∀ (v : Value F) (rest : List (Value F)),
      Value.toString D (.tuple (v :: rest)) =
        "(".toList ++ Value.elemText D v ++
          (rest.map (fun w => ", ".toList ++ Value.elemText D w)).flatten ++
          (if rest.isEmpty then ",".toList else []) ++ ")".toList := by
    intro v rest
    rw [Value.toString, toString_elems_cons, toString_elems_succ]
    cases rest <;> simp
  refine ⟨by simp [Value.toString], hcons, fun s => rfl, fun t => rfl, ?_⟩
  intro s
  rw [hcons]
  simp only [Value.elemText]
  rw [hcons]
  simp [Value.elemText]

/-- Counterexample to C23: `toInt` of the strings `abc`, `12x` and `--5` succeeds, and
the program that prints `int('abc')`, `int('12x')` and `int('--5')` runs to its end
and writes those texts. -/
theorem C23_counterexample :
    Value.toInt plainHost.double (.str "abc".toList) =
      { value := "abc".toList, negative := false } ∧
    Value.toInt plainHost.double (.str "12x".toList) =
      { value := "12x".toList, negative := false } ∧
    Value.toInt plainHost.double (.str "--5".toList) =
      { value := "-5".toList, negative := true } ∧
    (visitFile_input plainHost 20 intOfMalformed).isOk = true ∧
    (visitFile_input plainHost 20 intOfMalformed).2.out = "abc\n12x\n--5\n".toList := by
  refine ⟨by decide, by decide, by decide, by rfl, by rfl⟩

/-- C23, amended: converting a `String` to `Int` never fails: `toInt` of the string `s`
is `BigInt(s)`, whatever `s` is.  For a digit string `ds`, with or without a sign in
front, the result is well formed and denotes the number written. -/
theorem C23_string_to_int_never_fails {F : Type} (D : DoubleOps F) (s ds : List Char)
    (hd : allDigits ds) :
    Value.toInt D (.str s) = BigInt.ofString s ∧
    ((Value.toInt D (.str ds)).WellFormed ∧
      (Value.toInt D (.str ds)).denote = (natOf ds : Int)) ∧
    ((Value.toInt D (.str ('-' :: ds))).WellFormed ∧
      (Value.toInt D (.str ('-' :: ds))).denote = -(natOf ds : Int)) ∧
    ((Value.toInt D (.str ('+' :: ds))).WellFormed ∧
      (Value.toInt D (.str ('+' :: ds))).denote = (natOf ds : Int)) :=
  ⟨rfl, (ofString_unsigned hd).2, ofString_minus hd, ofString_plus hd⟩

/-- Witness for C23, amended: the strings `abc` and `42`. -/
theorem C23_string_to_int_never_fails_witness :
    Value.toInt plainHost.double (.str "abc".toList) = BigInt.ofString "abc".toList ∧
    (Value.toInt plainHost.double (.str "-42".toList)).denote = -(natOf "42".toList : Int) :=
  ⟨(C23_string_to_int_never_fails plainHost.double "abc".toList "42".toList
      (by decide)).1,
    (C23_string_to_int_never_fails plainHost.double "abc".toList "42".toList
      (by decide)).2.2.1.2⟩

/-! ## Reads and writes of the environment -/

theorem Scope.find_of_not_contains {F : Type} {m : Scope F} {name : List Char}
    (h : m.contains name = false) : m.find name = Option.none := by
  unfold Scope.contains at h
  cases hf : m.find name with
  | none => rfl
  | some v => rw [hf] at h; cases h

theorem getValueLoop_eq_findSome {F : Type} (name : List Char) (rs : List (Scope F)) :
    Env.getValueLoop name rs = (rs.findSome? (fun s => s.find name)).map (fun v => (v, rs)) := by
  induction rs with
  | nil => rfl
  | cons it rest ih =>
    cases hf : it.find name with
    | some v =>
      have hc : it.contains name = true := (Scope.contains_iff it name).mpr ⟨v, hf⟩
      simp [Env.getValueLoop, hc, Scope.index_of_find hf, List.findSome?_cons, hf]
    | none =>
      have hc : it.contains name = false := by simp [Scope.contains, hf]
      rw [Env.getValueLoop, ih]
      simp only [hc, Bool.false_eq_true, if_false, List.findSome?_cons, hf]
      cases rest.findSome? (fun s => s.find name) <;> rfl

theorem getValue_fst {F : Type} (env : Env F) (name : List Char) :
    (env.getValue name).1 =
      match env.scopeStack.reverse.findSome? (fun s => s.find name) with
      | some v => v
      | Option.none => (env.globalScope.find name).getD Value.none := by
  unfold Env.getValue
  rw [getValueLoop_eq_findSome]
  cases env.scopeStack.reverse.findSome? (fun s => s.find name) with
  | some v => rfl
  | none =>
    cases hf : env.globalScope.find name with
    | some v =>
      have hc : env.globalScope.contains name = true :=
        (Scope.contains_iff _ name).mpr ⟨v, hf⟩
      simp [hc, Scope.index_of_find hf]
    | none =>
      have hc : env.globalScope.contains name = false := by simp [Scope.contains, hf]
      simp [hc]

theorem getValue_snd {F : Type} (env : Env F) (name : List Char) :
    (env.getValue name).2 = env := by
  unfold Env.getValue
  rw [getValueLoop_eq_findSome]
  cases env.scopeStack.reverse.findSome? (fun s => s.find name) with
  | some v => simp
  | none =>
    cases hf : env.globalScope.find name with
    | some v =>
      have hc : env.globalScope.contains name = true :=
        (Scope.contains_iff _ name).mpr ⟨v, hf⟩
      simp [hc, Scope.index_of_find hf]
    | none =>
      have hc : env.globalScope.contains name = false := by simp [Scope.contains, hf]
      simp [hc]

theorem findSome_find_none {F : Type} (name : List Char) (rs : List (Scope F))
    (h : ∀ t ∈ rs, t.contains name = false) :
    rs.findSome? (fun s => s.find name) = Option.none := by
  rw [List.findSome?_eq_none_iff]
  intro t ht
  exact Scope.find_of_not_contains (h t ht)

theorem setValue_cases {F : Type} (env : Env F) (x : List Char) (v : Value F) :
    (∃ pre s post, env.scopeStack = pre ++ s :: post ∧ s.contains x = true ∧
      (∀ t ∈ post, t.contains x = false) ∧
      env.setValue x v =
        { globalScope := env.globalScope, scopeStack := pre ++ s.assign x v :: post }) ∨
    ((∀ t ∈ env.scopeStack, t.contains x = false) ∧
      env.setValue x v =
        { globalScope := env.globalScope.assign x v, scopeStack := env.scopeStack }) ∨
    (∃ pre top, env.scopeStack = pre ++ [top] ∧
      (∀ t ∈ env.scopeStack, t.contains x = false) ∧ env.globalScope.contains x = false ∧
      env.setValue x v =
        { globalScope := env.globalScope, scopeStack := pre ++ [top.assign x v] }) := by
  obtain ⟨g, stack⟩ := env
  rcases scopes_contains_cases x stack.reverse with ⟨inner, s, outer, e, h1, h2⟩ | hall
  · left
    have e2 : stack = outer.reverse ++ s :: inner.reverse := by
      have := congrArg List.reverse e
      simpa using this
    refine ⟨outer.reverse, s, inner.reverse, e2, h2,
      fun t ht => h1 t (List.mem_reverse.mp ht), ?_⟩
    simp only [e2]
    exact setValue_local g outer.reverse s inner.reverse x v h2
      (fun t ht => h1 t (List.mem_reverse.mp ht))
  · have hall2 : ∀ t ∈ stack, t.contains x = false :=
      fun t ht => hall t (List.mem_reverse.mpr ht)
    by_cases hg : g.contains x = true
    · right; left
      exact ⟨hall2, setValue_global g stack x v hall2 hg⟩
    · have hg2 : g.contains x = false := by simpa using hg
      rcases List.eq_nil_or_concat stack with hnil | ⟨pre, top, hst⟩
      · right; left
        subst hnil
        exact ⟨hall2, by simp [Env.setValue]⟩
      · right; right
        have hst2 : stack = pre ++ [top] := by simpa using hst
        subst hst2
        exact ⟨pre, top, rfl, hall2, hg2, setValue_top g pre top x v hall2 hg2⟩

theorem getValue_setValue_same {F : Type} (env : Env F) (x : List Char) (v : Value F) :
    ((env.setValue x v).getValue x).1 = v := by
  rw [getValue_fst]
  rcases setValue_cases env x v with ⟨pre, s, post, _, _, hpost, e⟩ | ⟨hall, e⟩ |
    ⟨pre, top, _, _, _, e⟩
  · rw [e]
    simp only [List.reverse_append, List.reverse_cons, List.append_assoc,
      List.singleton_append, List.findSome?_append]
    rw [findSome_find_none x post.reverse (fun t ht => hpost t (List.mem_reverse.mp ht))]
    simp [List.findSome?_cons, Scope.find_assign]
  · rw [e]
    simp only
    rw [findSome_find_none x env.scopeStack.reverse
      (fun t ht => hall t (List.mem_reverse.mp ht))]
    simp [Scope.find_assign]
  · rw [e]
    simp [List.findSome?_cons, Scope.find_assign]

theorem getValue_setValue_other {F : Type} (env : Env F) (x y : List Char) (v : Value F)
    (h : y ≠ x) : ((env.setValue x v).getValue y).1 = (env.getValue y).1 := by
  rw [getValue_fst, getValue_fst]
  rcases setValue_cases env x v with ⟨pre, s, post, es, _, _, e⟩ | ⟨_, e⟩ |
    ⟨pre, top, es, _, _, e⟩
  · rw [e, es]
    simp [List.findSome?_append, List.findSome?_cons, Scope.find_assign, h]
  · rw [e]
    simp [Scope.find_assign, h]
  · rw [e, es]
    simp [List.findSome?_append, List.findSome?_cons, Scope.find_assign, h]

theorem setValue_depth {F : Type} (env : Env F) (x : List Char) (v : Value F) :
    (env.setValue x v).scopeStack.length = env.scopeStack.length := by
  rcases setValue_cases env x v with ⟨pre, s, post, es, _, _, e⟩ | ⟨_, e⟩ |
    ⟨pre, top, es, _, _, e⟩
  · rw [e, es]; simp
  · rw [e]
  · rw [e, es]; simp

theorem state_getValue_setValue_same {F : Type} (st : St F) (x : List Char) (v : Value F) :
    ((st.setValue x v).getValue x).1 = v := by
  simp only [St.getValue, St.setValue]
  exact getValue_setValue_same st.env x v

/-! ## String atoms and multiple assignment -/

/-- C30 fails in the code: in the atom `f"a" "{{b}}"` the second literal has no prefix,
yet it is interpolated, because the flag `isFString` set by the first literal is never
reset: the atom evaluates to `a{b}` and not to `a{{b}}`.  The same unprefixed literal
keeps its braces when it stands alone and when it comes before the prefixed one. -/
theorem C30_prefix_is_sticky :
    visitAtom plainHost (visit plainHost 5) prefixedThenPlain (freshState Unit) =
      (.ok (.str "a\x7bb\x7d".toList), freshState Unit) ∧
    visitAtom plainHost (visit plainHost 5) plainThenPrefixed (freshState Unit) =
      (.ok (.str "\x7b\x7bb\x7d\x7da".toList), freshState Unit) ∧
    visitAtom plainHost (visit plainHost 5) (.STRING ["\"\x7b\x7bb\x7d\x7d\"".toList])
      (freshState Unit) = (.ok (.str "\x7b\x7bb\x7d\x7d".toList), freshState Unit) := by
  refine ⟨by rfl, by rfl, by rfl⟩

/-- Counterexample to C29: the program `a, b = 5`, `print(a, b)` runs to its end
without an error and prints `None None`. -/
theorem C29_counterexample :
    (visitFile_input plainHost 20 unpackNonTuple).isOk = true ∧
    (visitFile_input plainHost 20 unpackNonTuple).2.out = "None None\n".toList := by
  refine ⟨by rfl, by rfl⟩

/-- C29, amended: a plain assignment whose target is a comma-list of two or more tests
and whose right-hand side evaluates to a value that is not a `Tuple` completes without
an error and binds nothing: it returns `None` in the state in which the evaluation of
the right-hand side ended. -/
theorem C29_non_tuple_binds_nothing {F : Type} (D : DoubleOps F) (fuel : Nat)
    (visit : Visit F) (t1 t2 : Expr) (ts rhs : List Expr) (value : Value F) (st st1 : St F)
    (hrhs : visit (.testlist rhs) st = (.ok value, st1)) (hv : value.type ≠ .TUPLE) :
    visitExpr_stmt D fuel visit [t1 :: t2 :: ts, rhs] Option.none st =
      (.ok Value.none, st1) := by
  simp only [visitExpr_stmt, List.getLastD, List.getLast?, List.getLast, hrhs]
  cases value <;> first | rfl | exact absurd rfl hv

/-- Witness for C29, amended: the statement `a, b = 5` in a fresh state. -/
theorem C29_non_tuple_binds_nothing_witness :
    visitExpr_stmt plainHost.double 5 (visit plainHost 5)
      [[nameExpr "a", nameExpr "b"], [numExpr "5"]] Option.none (freshState Unit) =
      (.ok Value.none, freshState Unit) :=
  C29_non_tuple_binds_nothing plainHost.double 5 (visit plainHost 5) (nameExpr "a")
    (nameExpr "b") [] [numExpr "5"] (.int (BigInt.ofString "5".toList)) (freshState Unit)
    (freshState Unit) (by rfl) (by decide)

/-! ## Short-circuit evaluation -/

theorem visitTests_cons_ok {F : Type} {visit : Visit F} {p : Expr} {ps : List Expr}
    {st st1 : St F} {vs : List (Value F)}
    (h : visitTests visit (p :: ps) st = (.ok vs, st1)) :
    ∃ v0 vs0 st0, visit (.expr p) st = (.ok v0, st0) ∧
      visitTests visit ps st0 = (.ok vs0, st1) ∧ vs = v0 :: vs0 := by
  rw [visitTests] at h
  rcases hp : visit (.expr p) st with ⟨r, st0⟩
  rw [hp] at h
  cases r with
  | error x => simp at h
  | ok v0 =>
    simp only at h
    rcases hq : visitTests visit ps st0 with ⟨r2, st2⟩
    rw [hq] at h
    cases r2 with
    | error x => simp at h
    | ok vs0 =>
      simp only [Prod.mk.injEq, Except.ok.injEq] at h
      exact ⟨v0, vs0, st0, rfl, by rw [hq, h.2], h.1.symm⟩

theorem orLoop_prefix {F : Type} (D : DoubleOps F) (visit : Visit F) (pre tail : List Expr) :
    ∀ (r : Value F) (st st1 : St F) (vs : List (Value F)), r.toBool D = false →
      visitTests visit pre st = (.ok vs, st1) → (∀ w ∈ vs, w.toBool D = false) →
      orLoop D visit r (pre ++ tail) st = orLoop D visit (vs.getLastD r) tail st1 := by
  induction pre with
  | nil =>
    intro r st st1 vs _ h _
    simp only [visitTests, Prod.mk.injEq, Except.ok.injEq] at h
    rw [← h.1, ← h.2]
    rfl
  | cons p ps ih =>
    intro r st st1 vs hr h hall
    obtain ⟨v0, vs0, st0, h1, h2, h3⟩ := visitTests_cons_ok h
    subst h3
    have hv0 : v0.toBool D = false := hall v0 (List.mem_cons_self _ _)
    rw [List.cons_append, orLoop]
    simp only [hr, Bool.false_eq_true, if_false, h1]
    rw [ih v0 st0 st1 vs0 hv0 h2 (fun w hw => hall w (List.mem_cons_of_mem _ hw))]
    cases vs0 <;> rfl

theorem andLoop_prefix {F : Type} (D : DoubleOps F) (visit : Visit F) (pre tail : List Expr) :
    ∀ (r : Value F) (st st1 : St F) (vs : List (Value F)), r.toBool D = true →
      visitTests visit pre st = (.ok vs, st1) → (∀ w ∈ vs, w.toBool D = true) →
      andLoop D visit r (pre ++ tail) st = andLoop D visit (vs.getLastD r) tail st1 := by
  induction pre with
  | nil =>
    intro r st st1 vs _ h _
    simp only [visitTests, Prod.mk.injEq, Except.ok.injEq] at h
    rw [← h.1, ← h.2]
    rfl
  | cons p ps ih =>
    intro r st st1 vs hr h hall
    obtain ⟨v0, vs0, st0, h1, h2, h3⟩ := visitTests_cons_ok h
    subst h3
    have hv0 : v0.toBool D = true := hall v0 (List.mem_cons_self _ _)
    rw [List.cons_append, andLoop]
    simp only [hr, Bool.not_true, Bool.false_eq_true, if_false, h1]
    rw [ih v0 st0 st1 vs0 hv0 h2 (fun w hw => hall w (List.mem_cons_of_mem _ hw))]
    cases vs0 <;> rfl

theorem getLastD_toBool {F : Type} (D : DoubleOps F) (b : Bool) (vs : List (Value F))
    (r : Value F) (hr : r.toBool D = b) (h : ∀ w ∈ vs, w.toBool D = b) :
    (vs.getLastD r).toBool D = b := by
  cases hl : vs.getLast? with
  | none =>
    have : vs = [] := List.getLast?_eq_none_iff.mp hl
    subst this
    exact hr
  | some w =>
    have hm : w ∈ vs := List.mem_of_getLast?_eq_some hl
    have : vs.getLastD r = w := by
      rw [List.getLastD_eq_getLast?, hl]; rfl
    rw [this]
    exact h w hm

theorem visitOr_test_eq_orLoop {F : Type} (D : DoubleOps F) (visit : Visit F) (first : Expr)
    (rest : List Expr) (st : St F) :
    visitOr_test D visit first rest st = orLoop D visit Value.none (first :: rest) st := by
  rw [orLoop, visitOr_test]
  simp only [Value.toBool, Bool.false_eq_true, if_false]

theorem visitAnd_test_eq_andLoop {F : Type} (D : DoubleOps F) (visit : Visit F) (first : Expr)
    (rest : List Expr) (st : St F) :
    visitAnd_test D visit first rest st =
      andLoop D visit (Value.bool true) (first :: rest) st := by
  rw [andLoop, visitAnd_test]
  simp only [Value.toBool, Bool.not_true, Bool.false_eq_true, if_false]

/-- C26: let the operands of an `or` (of an `and`) be `pre`, then `e`, then `post`,
let the operands `pre` evaluate from left to right to the values `vs`, all of them falsy
(all of them truthy), and let `e` then evaluate to `v`.  If `v` is truthy (falsy), or if
`e` is the last operand, the result is `v` itself, in the state in which the evaluation
of `e` ended: the operands `post` are not visited, whatever visiting them would do. -/
theorem C26_short_circuit {F : Type} (D : DoubleOps F) (visit : Visit F) (first e : Expr)
    (rest pre post : List Expr) (st st1 st2 : St F) (vs : List (Value F)) (v : Value F)
    (hsplit : first :: rest = pre ++ e :: post)
    (hpre : visitTests visit pre st = (.ok vs, st1))
    (he : visit (.expr e) st1 = (.ok v, st2)) :
    ((∀ w ∈ vs, w.toBool D = false) → (v.toBool D = true ∨ post = []) →
      visitOr_test D visit first rest st = (.ok v, st2)) ∧
    ((∀ w ∈ vs, w.toBool D = true) → (v.toBool D = false ∨ post = []) →
      visitAnd_test D visit first rest st = (.ok v, st2)) := by
  constructor
  · intro hall hv
    rw [visitOr_test_eq_orLoop, hsplit,
      orLoop_prefix D visit pre (e :: post) Value.none st st1 vs rfl hpre hall, orLoop]
    have hl := getLastD_toBool D false vs Value.none rfl hall
    simp only [hl, Bool.false_eq_true, if_false, he]
    rcases hv with hv | hv
    · cases post with
      | nil => rfl
      | cons q qs => simp [orLoop, hv]
    · subst hv; rfl
  · intro hall hv
    rw [visitAnd_test_eq_andLoop, hsplit,
      andLoop_prefix D visit pre (e :: post) (Value.bool true) st st1 vs rfl hpre hall, andLoop]
    have hl := getLastD_toBool D true vs (Value.bool true) rfl hall
    simp only [hl, Bool.not_true, Bool.false_eq_true, if_false, he]
    rcases hv with hv | hv
    · cases post with
      | nil => rfl
      | cons q qs => simp [andLoop, hv]
    · subst hv; rfl

/-- Witness for C26: `1 or print(9)` is `1` and `1 and 0 and print(9)` is `0`, both
without output; the program `x = 1 or print(9)`, `y = 0 and print(9)`, `z = 0 or 7`,
`print(x, y, z)` prints `1 0 7` only. -/
theorem C26_short_circuit_witness :
    visitOr_test plainHost.double (visit plainHost 5) (numExpr "1")
      [callExpr "print" [.test (numExpr "9")]] (freshState Unit) =
      (.ok (.int (BigInt.ofString "1".toList)), freshState Unit) ∧
    visitAnd_test plainHost.double (visit plainHost 5) (numExpr "1")
      [numExpr "0", callExpr "print" [.test (numExpr "9")]] (freshState Unit) =
      (.ok (.int (BigInt.ofString "0".toList)), freshState Unit) ∧
    (visitFile_input plainHost 20 shortCircuit).2.out = "1 0 7\n".toList :=
  ⟨(C26_short_circuit plainHost.double (visit plainHost 5) (numExpr "1") (numExpr "1")
      [callExpr "print" [.test (numExpr "9")]] [] [callExpr "print" [.test (numExpr "9")]]
      (freshState Unit) (freshState Unit) (freshState Unit) []
      (.int (BigInt.ofString "1".toList)) rfl (by rfl) (by rfl)).1
      (fun w hw => (by cases hw)) (Or.inl (by rfl)),
    (C26_short_circuit plainHost.double (visit plainHost 5) (numExpr "1") (numExpr "0")
      [numExpr "0", callExpr "print" [.test (numExpr "9")]] [numExpr "1"]
      [callExpr "print" [.test (numExpr "9")]]
      (freshState Unit) (freshState Unit) (freshState Unit)
      [.int (BigInt.ofString "1".toList)]
      (.int (BigInt.ofString "0".toList)) rfl (by rfl) (by rfl)).2
      (fun w hw => (by
        rw [List.mem_singleton] at hw
        rw [hw]; rfl)) (Or.inl (by rfl)),
    by rfl⟩

/-! ## Tuple assignment -/

theorem unpackLoop_names {F : Type} (names : List (List Char)) :
    ∀ (vs : List (Value F)) (st : St F),
      unpackLoop (nameTargets names) vs st = bindAll (names.zip vs) st := by
  induction names with
  | nil => intro vs st; cases vs <;> rfl
  | cons n ns ih =>
    intro vs st
    cases vs with
    | nil => rfl
    | cons v vs =>
      simp only [nameTargets, List.map_cons, unpackLoop, targetName, List.zip_cons_cons,
        bindAll, List.foldl_cons]
      exact ih vs (st.setValue n v)

theorem state_getValue_setValue_other {F : Type} (st : St F) (x y : List Char) (v : Value F)
    (h : y ≠ x) : ((st.setValue x v).getValue y).1 = (st.getValue y).1 := by
  simp only [St.getValue, St.setValue]
  exact getValue_setValue_other st.env x y v h

theorem map_fst_zip_take {α β : Type} (l : List α) :
    ∀ m : List β, (l.zip m).map Prod.fst = l.take m.length := by
  induction l with
  | nil => intro m; simp
  | cons a l ih =>
    intro m
    cases m with
    | nil => simp
    | cons b m => simp [ih m]

theorem bindAll_other {F : Type} (bs : List (List Char × Value F)) :
    ∀ (st : St F) (y : List Char), y ∉ bs.map Prod.fst →
      ((bindAll bs st).getValue y).1 = (st.getValue y).1 := by
  induction bs with
  | nil => intro st y _; rfl
  | cons p ps ih =>
    intro st y hy
    simp only [List.map_cons, List.mem_cons, not_or] at hy
    simp only [bindAll, List.foldl_cons]
    have := ih (st.setValue p.1 p.2) y hy.2
    simp only [bindAll] at this
    rw [this, state_getValue_setValue_other st p.1 y p.2 hy.1]

theorem bindAll_same {F : Type} (bs : List (List Char × Value F)) :
    ∀ (st : St F), (bs.map Prod.fst).Nodup → ∀ p ∈ bs,
      ((bindAll bs st).getValue p.1).1 = p.2 := by
  induction bs with
  | nil => intro st _ p hp; cases hp
  | cons q qs ih =>
    intro st hnd p hp
    simp only [List.map_cons, List.nodup_cons] at hnd
    simp only [bindAll, List.foldl_cons]
    rcases List.mem_cons.mp hp with h | h
    · subst h
      have := bindAll_other qs (st.setValue p.1 p.2) p.1 hnd.1
      simp only [bindAll] at this
      rw [this, state_getValue_setValue_same]
    · have := ih (st.setValue q.1 q.2) hnd.2 p h
      simpa only [bindAll] using this

/-- C28: a plain assignment whose target is a comma-list of two or more tests and whose
right-hand side evaluates to the tuple `vs`, ending in the state `st1`, returns `None`
in the state that the loop over the targets makes of `st1`: all bindings come after the
evaluation of the right-hand side.  When the targets are the names `names`, that state
is `st1` after `setValue(names[i], vs[i])` for each `i` below both lengths, in order;
if the names are distinct, a read of `names[i]` then gives `vs[i]`, and a read of a
name that is not among the first `min(m, k)` targets gives what it gave in `st1`. -/
theorem C28_tuple_assignment {F : Type} (D : DoubleOps F) (fuel : Nat) (visit : Visit F)
    (t1 t2 : Expr) (ts rhs : List Expr) (vs : List (Value F)) (st st1 : St F)
    (hrhs : visit (.testlist rhs) st = (.ok (.tuple vs), st1)) :
    visitExpr_stmt D fuel visit [t1 :: t2 :: ts, rhs] Option.none st =
      (.ok Value.none, unpackLoop (t1 :: t2 :: ts) vs st1) ∧
    (∀ names : List (List Char), t1 :: t2 :: ts = nameTargets names →
      unpackLoop (t1 :: t2 :: ts) vs st1 = bindAll (names.zip vs) st1 ∧
      (names.Nodup → ∀ (i : Nat) (hi : i < names.length) (hv : i < vs.length),
        ((bindAll (names.zip vs) st1).getValue (names.get ⟨i, hi⟩)).1 = vs.get ⟨i, hv⟩) ∧
      (∀ y : List Char, y ∉ names.take vs.length →
        ((bindAll (names.zip vs) st1).getValue y).1 = (st1.getValue y).1)) := by
  constructor
  · simp only [visitExpr_stmt, List.getLastD, List.getLast?, List.getLast, hrhs, assignLoop]
  · intro names hn
    refine ⟨by rw [hn]; exact unpackLoop_names names vs st1, ?_, ?_⟩
    · intro hnd i hi hv
      have hsub : ((names.zip vs).map Prod.fst).Nodup := by
        rw [map_fst_zip_take]
        exact hnd.sublist (List.take_sublist _ _)
      have hmem : (names.get ⟨i, hi⟩, vs.get ⟨i, hv⟩) ∈ names.zip vs := by
        rw [List.mem_iff_getElem]
        refine ⟨i, by simp; omega, by simp⟩
      exact bindAll_same (names.zip vs) st1 hsub _ hmem
    · intro y hy
      apply bindAll_other
      rw [map_fst_zip_take]
      exact hy

/-- Witness for C28: with `a = 1` and `b = 2` at top level, `a, b = b, a` leaves `a = 2`
and `b = 1`; the program `a, b = 1, 2`, `a, b = b, a`, `print(a, b)` prints `2 1`. -/
theorem C28_tuple_assignment_witness :
    visitExpr_stmt plainHost.double 5 (visit plainHost 5)
      [[nameExpr "a", nameExpr "b"], [nameExpr "b", nameExpr "a"]] Option.none
      (globalsAB "1" "2") = (.ok Value.none, globalsAB "2" "1") ∧
    (visitFile_input plainHost 20 tupleSwap).2.out = "2 1\n".toList :=
  ⟨(C28_tuple_assignment plainHost.double 5 (visit plainHost 5) (nameExpr "a")
      (nameExpr "b") [] [nameExpr "b", nameExpr "a"]
      [.int (BigInt.ofString "2".toList), .int (BigInt.ofString "1".toList)]
      (globalsAB "1" "2") (globalsAB "1" "2") (by rfl)).1.trans (by rfl),
    by rfl⟩

/-! ## The recursive factorial -/

theorem state_getValue_snd {F : Type} (st : St F) (x : List Char) : (st.getValue x).2 = st := by
  simp only [St.getValue, getValue_snd]

theorem visit_number {F : Type} (H : Host F) (f : Nat) (digits : List Char) (st : St F)
    (h : allDigits digits) :
    visit H (f + 1) (.expr (.atom_expr (.NUMBER digits) Option.none)) st =
      (.ok (.int (BigInt.ofString digits)), st) := by
  have hdot : '.' ∉ digits := by
    intro hm
    have := h '.' hm
    revert this
    decide
  simp [visit, visitAtom_expr, visitAtom, hdot]

theorem visit_name {F : Type} (H : Host F) (f : Nat) (name : List Char) (st : St F)
    (h : findFunction st.functions name = Option.none) :
    visit H (f + 1) (.expr (.atom_expr (.NAME name) Option.none)) st =
      (.ok (st.getValue name).1, st) := by
  simp [visit, visitAtom_expr, visitAtom, h, state_getValue_snd]

theorem allDigits_one : allDigits "1".toList := by decide

theorem visit_n_le_one {F : Type} (H : Host F) (f : Nat) (st : St F) (a : BigInt)
    (hn : findFunction st.functions "n".toList = Option.none)
    (ha : (st.getValue "n".toList).1 = .int a) :
    visit H (f + 2) (.expr (.comparison (nameExpr "n") [(.le, numExpr "1")])) st =
      (.ok (.bool (!(BigInt.ofString "1".toList).lt a)), st) := by
  have h1 := visit_name H f "n".toList st hn
  have h2 := visit_number H f "1".toList st allDigits_one
  rw [ha] at h1
  rw [visit]
  simp only [visitComparison, List.map, visitTests, nameExpr, numExpr, h1, h2]
  generalize BigInt.ofString "1".toList = one
  cases hlt : one.lt a <;>
    simp [liftFault, comparisonLoop, compareValues, Value.le, Value.gt, Value.lt,
      Value.isFloat, hlt]

theorem visit_n_minus_one {F : Type} (H : Host F) (f : Nat) (st : St F) (a : BigInt)
    (hn : findFunction st.functions "n".toList = Option.none)
    (ha : (st.getValue "n".toList).1 = .int a) :
    visit H (f + 2) (.expr (.arith_expr (nameExpr "n") [(.minus, numExpr "1")])) st =
      (.ok (.int (a.sub (BigInt.ofString "1".toList))), st) := by
  have h1 := visit_name H f "n".toList st hn
  have h2 := visit_number H f "1".toList st allDigits_one
  rw [ha] at h1
  rw [visit]
  simp only [visitArith_expr, arithLoop, nameExpr, numExpr, h1, h2]
  rfl

theorem visit_return_one {F : Type} (H : Host F) (f : Nat) (st : St F) :
    visit H (f + 5) (.suite [returnStmt (numExpr "1")]) st =
      (.error (.ReturnException (.int (BigInt.ofString "1".toList))), st) := by
  have h2 := visit_number H (f + 1) "1".toList st allDigits_one
  rw [visit, visitChildren, returnStmt, visit, visitReturn_stmt, visit, visitTestlist]
  simp only [numExpr, h2, visitChildren]

theorem visit_fact_if {F : Type} (H : Host F) (f : Nat) (st : St F) (a : BigInt)
    (hn : findFunction st.functions "n".toList = Option.none)
    (ha : (st.getValue "n".toList).1 = .int a) :
    visit H (f + 7) (.stmt (.if_stmt [.comparison (nameExpr "n") [(.le, numExpr "1")]]
        [[returnStmt (numExpr "1")]])) st =
      if (BigInt.ofString "1".toList).lt a then (.ok Value.none, st)
      else (.error (.ReturnException (.int (BigInt.ofString "1".toList))), st) := by
  have h1 := visit_n_le_one H (f + 4) st a hn ha
  have h2 := visit_return_one H (f + 1) st
  rw [visit, visitIf_stmt, h1]
  cases hlt : (BigInt.ofString "1".toList).lt a
  · simp only [Value.toBool, Bool.not_false, if_true, h2, Bool.false_eq_true, if_false]
  · simp only [Value.toBool, Bool.not_true, Bool.false_eq_true, if_false, visitIf_stmt,
      List.tail, List.getLast?, if_true]

theorem visit_fact_call {F : Type} (H : Host F) (g : Nat) (st st2 : St F) (arg : Expr) (a : BigInt)
    (v : Value F)
    (hfact : findFunction st.functions "fact".toList = some (factDef F))
    (harg : visit H (g + 1) (.argument (.test arg)) st = (.ok (.int a), st))
    (hbody : visit H (g + 1) (.suite factBody) (st.enterScope.setValue "n".toList (.int a)) =
      (.error (.ReturnException v), st2)) :
    visit H (g + 2) (.expr (callExpr "fact" [.test arg])) st = (.ok v, st2.exitScope) := by
  have hcur : currentFunc st "fact".toList = factDef F := by
    simp only [currentFunc, hfact]
  have hne1 : ¬ ("fact".toList = "print".toList) := by decide
  have hne2 : ¬ ("fact".toList = "int".toList) := by decide
  have hne3 : ¬ ("fact".toList = "float".toList) := by decide
  have hne4 : ¬ ("fact".toList = "str".toList) := by decide
  have hne5 : ¬ ("fact".toList = "bool".toList) := by decide
  simp only [callExpr, List.isEmpty_cons, Bool.false_eq_true, if_false]
  rw [visit]
  simp only [visitAtom_expr,
    visitAtom, hfact, Option.isSome_some, if_true, hne1, hne2, hne3, hne4, hne5,
    callFunction, argLoop, hcur, factDef, List.length_singleton, Nat.lt_one_iff,
    harg, List.getD_cons_zero]
  have hbind : bindArgs (Scope.inOrder (fillDefaults ([] : List (Value F))
      (1 - ([] : List (Value F)).length) ["n".toList] 0
      (Scope.assign [] "n".toList (.int a)))) st.enterScope =
      st.enterScope.setValue "n".toList (.int a) := rfl
  rw [hbind, hbody]
  simp

theorem one_wellFormed : (BigInt.ofString "1".toList).WellFormed ∧
    (BigInt.ofString "1".toList).denote = 1 := by
  refine ⟨by decide, by decide⟩

theorem fact_body {F : Type} (H : Host F) : ∀ (j f : Nat) (st : St F) (a : BigInt),
    findFunction st.functions "fact".toList = some (factDef F) →
    findFunction st.functions "n".toList = Option.none →
    (st.getValue "n".toList).1 = .int a → a.WellFormed → a.denote = (j : Int) + 1 →
    ∃ r st1, visit H (f + 5 * j + 8) (.suite factBody) st =
        (.error (.ReturnException (.int r)), st1) ∧
      r.WellFormed ∧ r.denote = ((j + 1).factorial : Int) := by
  intro j
  induction j with
  | zero =>
    intro f st a _ hn ha hwf hden
    have hlt : (BigInt.ofString "1".toList).lt a = false := by
      have := lt_spec one_wellFormed.1 hwf
      rw [one_wellFormed.2, hden] at this
      cases h : (BigInt.ofString "1".toList).lt a
      · rfl
      · have := this.mp h
        omega
    have hif := visit_fact_if H f st a hn ha
    rw [hlt] at hif
    refine ⟨BigInt.ofString "1".toList, st, ?_, one_wellFormed.1, ?_⟩
    · show visit H (f + 7 + 1) (.suite factBody) st = _
      rw [visit, factBody, visitChildren, hif]
      rfl
    · rw [one_wellFormed.2]; rfl
  | succ j ih =>
    intro f st a hfact hn ha hwf hden
    have hlt : (BigInt.ofString "1".toList).lt a = true := by
      have := lt_spec one_wellFormed.1 hwf
      rw [one_wellFormed.2, hden] at this
      apply this.mpr
      push_cast
      omega
    obtain ⟨hswf, hsden⟩ := sub_spec a (BigInt.ofString "1".toList) hwf.1 one_wellFormed.1.1
    rw [one_wellFormed.2, hden] at hsden
    have hfuel : f + 5 * (j + 1) + 8 = (f + 5 * j + 5) + 8 := by omega
    have hfuel2 : f + 5 * j + 8 = (f + 5 * j + 5) + 3 := by omega
    obtain ⟨r, st2, hbody, hrwf, hrden⟩ := ih f
      (st.enterScope.setValue "n".toList (.int (a.sub (BigInt.ofString "1".toList))))
      (a.sub (BigInt.ofString "1".toList)) hfact hn
      (state_getValue_setValue_same _ _ _) hswf (by rw [hsden]; push_cast; ring)
    rw [hfuel]
    rw [hfuel2] at hbody
    generalize f + 5 * j + 5 = g at hbody ⊢
    have hif := visit_fact_if H g st a hn ha
    simp only [hlt, if_true] at hif
    have hname : visit H (g + 4) (.expr (nameExpr "n")) st = (.ok (.int a), st) := by
      rw [← ha]
      exact visit_name H (g + 3) "n".toList st hn
    have harg : visit H (g + 3) (.argument (.test (.arith_expr (nameExpr "n")
        [(.minus, numExpr "1")]))) st =
        (.ok (.int (a.sub (BigInt.ofString "1".toList))), st) := by
      rw [visit, visitArgument]
      exact visit_n_minus_one H g st a hn ha
    have hcall : visit H (g + 4) (.expr (callExpr "fact" [.test (.arith_expr (nameExpr "n")
        [(.minus, numExpr "1")])])) st = (.ok (.int r), st2.exitScope) :=
      visit_fact_call H (g + 2) st st2 _ _ _ hfact harg hbody
    obtain ⟨hmwf, hmden, _, _⟩ := mul_spec a r hwf.1 hrwf.1
    refine ⟨a.mul r, st2.exitScope, ?_, hmwf, ?_⟩
    · show visit H (g + 7 + 1) (.suite factBody) st = _
      rw [visit, factBody, visitChildren]
      rw [hif]
      simp only [visitChildren, returnStmt]
      rw [visit]
      simp only [visitReturn_stmt]
      rw [visit]
      simp only [visitTestlist]
      rw [visit]
      simp only [visitTerm]
      rw [hname]
      simp only [termLoop]
      rw [hcall]
      simp [Value.mul, Value.isFloat, termLoop]
    · rw [hmden, hden, hrden, Nat.factorial_succ (j + 1)]
      push_cast
      ring

/-- C27: in every state in which `fact` names the function
`def fact(n): if n <= 1: return 1; return n * fact(n - 1)` and `n` names no function,
the call `fact(k)` with the literal of an integer `k ≥ 1` as its argument returns, given
fuel `5 * k + 4` or more, an `Int` that is well formed and denotes `k!`. -/
theorem C27_recursive_factorial {F : Type} (H : Host F) (k f : Nat) (digits : List Char) (st : St F)
    (hfact : findFunction st.functions "fact".toList = some (factDef F))
    (hn : findFunction st.functions "n".toList = Option.none)
    (hd : allDigits digits) (hk : natOf digits = k) (hpos : 1 ≤ k) :
    ∃ r st1,
      visit H (f + 5 * k + 4)
        (.expr (callExpr "fact" [.test (.atom_expr (.NUMBER digits) Option.none)])) st =
        (.ok (.int r), st1) ∧
      r.WellFormed ∧ r.denote = (k.factorial : Int) := by
  obtain ⟨j, rfl⟩ : ∃ j, k = j + 1 := ⟨k - 1, by omega⟩
  obtain ⟨_, hawf, haden⟩ := ofString_unsigned hd
  rw [hk] at haden
  obtain ⟨r, st2, hbody, hrwf, hrden⟩ := fact_body H j f
    (st.enterScope.setValue "n".toList (.int (BigInt.ofString digits)))
    (BigInt.ofString digits) hfact hn (state_getValue_setValue_same _ _ _) hawf
    (by rw [haden]; push_cast; ring)
  have hfuel : f + 5 * (j + 1) + 4 = (f + 5 * j + 7) + 2 := by omega
  have hfuel2 : f + 5 * j + 8 = (f + 5 * j + 7) + 1 := by omega
  rw [hfuel]
  rw [hfuel2] at hbody
  have harg : visit H (f + 5 * j + 7 + 1)
      (.argument (.test (.atom_expr (.NUMBER digits) Option.none))) st =
      (.ok (.int (BigInt.ofString digits)), st) := by
    rw [visit, visitArgument]
    exact visit_number H (f + 5 * j + 6) digits st hd
  exact ⟨r, st2.exitScope, visit_fact_call H (f + 5 * j + 7) st st2 _ _ _ hfact harg hbody,
    hrwf, hrden⟩

set_option maxRecDepth 100000 in
/-- Witness for C27: the call `fact(25)` at top level returns `25!`, and the program
`def fact(n): ...`, `print(fact(25))` prints `15511210043330985984000000`. -/
theorem C27_recursive_factorial_witness :
    (∃ r st1,
      visit plainHost (0 + 5 * 25 + 4) (.expr (callExpr "fact" [.test (numExpr "25")]))
        (factState Unit) = (.ok (.int r), st1) ∧
      r.WellFormed ∧ r.denote = (Nat.factorial 25 : Int)) ∧
    (visitFile_input plainHost 200 factProgram).2.out =
      "15511210043330985984000000\n".toList :=
  ⟨C27_recursive_factorial plainHost 25 0 "25".toList (factState Unit) (by rfl) (by rfl)
    (by decide) (by decide) (by decide), by rfl⟩

/-! ## Escapes of interpolated strings -/

theorem opensEscaped_cons_ne {c : Char} (rest : List Char) (h : c ≠ '{') :
    opensEscaped (c :: rest) = opensEscaped rest := by
  cases rest with
  | nil => simp [opensEscaped, h]
  | cons d rest => simp [opensEscaped, h]

theorem closesEscaped_cons_ne {c : Char} (rest : List Char) (h : c ≠ '}') :
    closesEscaped (c :: rest) = closesEscaped rest := by
  cases rest with
  | nil => simp [closesEscaped, h]
  | cons d rest => simp [closesEscaped, h]

theorem fstringLoop_nil {F : Type} (H : Host F) (visit : Visit F) (n : Nat)
    (result : List Char) (st : St F) :
    fstringLoop H visit n [] result st = (.ok result, st) := by
  cases n <;> rfl

theorem fstringLoop_escapes {F : Type} (H : Host F) (visit : Visit F) :
    ∀ (n : Nat) (body result : List Char) (st : St F), body.length ≤ n →
      opensEscaped body = true →
      fstringLoop H visit n body result st = (.ok (result ++ unescapeSkipping body), st) := by
  intro n
  induction n with
  | zero =>
    intro body result st hl _
    have : body = [] := List.length_eq_zero.mp (Nat.le_zero.mp hl)
    subst this
    simp [fstringLoop, unescapeSkipping]
  | succ n ih =>
    intro body result st hl ho
    cases body with
    | nil => simp [fstringLoop, unescapeSkipping]
    | cons c cs =>
      cases cs with
      | nil =>
        have hc : c ≠ '{' := by simpa [opensEscaped] using ho
        by_cases hb : c = '}'
        · subst hb
          simp [fstringLoop, unescapeSkipping, fstringLoop_nil]
        · simp [fstringLoop, unescapeSkipping, fstringLoop_nil, hc, hb]
      | cons d rest =>
        simp only [List.length_cons] at hl
        by_cases ha : c = '{'
        · subst ha
          by_cases hd : d = '{'
          · subst hd
            have ho2 : opensEscaped rest = true := by simpa [opensEscaped] using ho
            have := ih rest (result ++ ['{']) st (by omega) ho2
            simp [fstringLoop, unescapeSkipping, this]
          · simp [opensEscaped, hd] at ho
        · have ho2 : opensEscaped (d :: rest) = true := by
            rw [← opensEscaped_cons_ne (d :: rest) ha]; exact ho
          by_cases hb : c = '}'
          · subst hb
            by_cases hd : d = '}'
            · subst hd
              have ho3 : opensEscaped rest = true := by
                rw [← opensEscaped_cons_ne rest (by decide : '}' ≠ '{')]; exact ho2
              have := ih rest (result ++ ['}']) st (by omega) ho3
              simp [fstringLoop, unescapeSkipping, this]
            · have := ih (d :: rest) result st (by simp; omega) ho2
              simp [fstringLoop, unescapeSkipping, this, hd]
          · have := ih (d :: rest) (result ++ [c]) st (by simp; omega) ho2
            simp [fstringLoop, unescapeSkipping, this, ha, hb]

theorem unescapeSkipping_eq_pairs : ∀ (n : Nat) (body : List Char), body.length ≤ n →
    closesEscaped body = true → unescapeSkipping body = unescapePairs body := by
  intro n
  induction n with
  | zero =>
    intro body hl _
    have : body = [] := List.length_eq_zero.mp (Nat.le_zero.mp hl)
    subst this
    rfl
  | succ n ih =>
    intro body hl hc
    cases body with
    | nil => rfl
    | cons c cs =>
      cases cs with
      | nil =>
        have hc2 : c ≠ '}' := by simpa [closesEscaped] using hc
        simp [unescapeSkipping, unescapePairs, hc2]
      | cons d rest =>
        simp only [List.length_cons] at hl
        by_cases hb : c = '}'
        · subst hb
          by_cases hd : d = '}'
          · subst hd
            have hc3 : closesEscaped rest = true := by simpa [closesEscaped] using hc
            simp [unescapeSkipping, unescapePairs, ih rest (by omega) hc3]
          · simp [closesEscaped, hd] at hc
        · have hc2 : closesEscaped (d :: rest) = true := by
            rw [← closesEscaped_cons_ne (d :: rest) hb]; exact hc
          by_cases ha : c = '{' ∧ d = '{'
          · obtain ⟨ha1, ha2⟩ := ha
            subst ha1; subst ha2
            have hc3 : closesEscaped rest = true := by
              rw [← closesEscaped_cons_ne rest (by decide : '{' ≠ '}')]; exact hc2
            simp [unescapeSkipping, unescapePairs, ih rest (by omega) hc3]
          · simp [unescapeSkipping, unescapePairs, ha, hb,
              ih (d :: rest) (by simp; omega) hc2]

theorem unescapeSkipping_plain : ∀ body : List Char,
    (∀ c ∈ body, c ≠ '{' ∧ c ≠ '}') → unescapeSkipping body = body ∧
      opensEscaped body = true := by
  intro body
  induction body with
  | nil => intro _; exact ⟨rfl, rfl⟩
  | cons c cs ih =>
    intro h
    have hc := h c (List.mem_cons_self _ _)
    obtain ⟨i1, i2⟩ := ih (fun x hx => h x (List.mem_cons_of_mem _ hx))
    refine ⟨?_, by rw [opensEscaped_cons_ne cs hc.1]; exact i2⟩
    cases cs with
    | nil => simp [unescapeSkipping, hc.2]
    | cons d rest => simp [unescapeSkipping, hc.1, hc.2, i1]
/-- Counterexample to C31: the body `a}b` has no `{` at all, yet `evaluateFString`
returns `ab`: the lone `}` is left out, where replacing the pairs and keeping every
other character gives `a}b`. -/
theorem C31_counterexample :
    opensEscaped "a\x7db".toList = true ∧
    evaluateFString plainHost (visit plainHost 5) "a\x7db".toList (freshState Unit) =
      (.ok "ab".toList, freshState Unit) ∧
    unescapePairs "a\x7db".toList = "a\x7db".toList := by
  refine ⟨by decide, by rfl, by decide⟩

/-- C31, amended: for a body without an unescaped `{`, `evaluateFString` visits no
expression (the result does not depend on the parser or on `visit`, and the state is
unchanged) and returns the body with each `{{` replaced by `{`, each `}}` replaced by
`}`, each lone `}` left out and all other characters unchanged in order.  When the body
has no lone `}` either, that is the replacement of the pairs alone, and a body without
any brace is returned unchanged. -/
theorem C31_escapes_skip_lone_close {F : Type} (H : Host F) (visit : Visit F)
    (body : List Char) (st : St F) (h : opensEscaped body = true) :
    evaluateFString H visit body st = (.ok (unescapeSkipping body), st) ∧
    (closesEscaped body = true → unescapeSkipping body = unescapePairs body) ∧
    ((∀ c ∈ body, c ≠ '{' ∧ c ≠ '}') → unescapeSkipping body = body) := by
  refine ⟨?_, unescapeSkipping_eq_pairs body.length body (Nat.le_refl _),
    fun hp => (unescapeSkipping_plain body hp).1⟩
  have := fstringLoop_escapes H visit body.length body [] st (Nat.le_refl _) h
  simpa [evaluateFString] using this

/-- Witness for C31, amended: the body `a{{b}}c}d` gives `a{b}cd`, and a body without
braces is returned as it is. -/
theorem C31_escapes_skip_lone_close_witness :
    evaluateFString plainHost (visit plainHost 5) "a\x7b\x7bb\x7d\x7dc\x7dd".toList
      (freshState Unit) = (.ok "a\x7bb\x7dcd".toList, freshState Unit) ∧
    evaluateFString plainHost (visit plainHost 5) "plain text".toList (freshState Unit) =
      (.ok "plain text".toList, freshState Unit) :=
  ⟨(C31_escapes_skip_lone_close plainHost (visit plainHost 5)
      "a\x7b\x7bb\x7d\x7dc\x7dd".toList (freshState Unit) (by decide)).1.trans (by rfl),
    (C31_escapes_skip_lone_close plainHost (visit plainHost 5) "plain text".toList
      (freshState Unit) (by decide)).1.trans (by rfl)⟩

/-! ## Reads after writes, ordering, and name atoms -/

/-- C32: for every environment, name `x` and value `v`, `getValue(x)` right after
`setValue(x, v)` returns `v`; for every name `y ≠ x`, `getValue(y)` returns what it
returned before the write; and the depth of the local scope stack is unchanged. -/
theorem C32_write_then_read {F : Type} (env : Env F) (x : List Char) (v : Value F) :
    ((env.setValue x v).getValue x).1 = v ∧
    (∀ y : List Char, y ≠ x → ((env.setValue x v).getValue y).1 = (env.getValue y).1) ∧
    (env.setValue x v).scopeStack.length = env.scopeStack.length :=
  ⟨getValue_setValue_same env x v, fun y hy => getValue_setValue_other env x y v hy,
    setValue_depth env x v⟩

/-- Witness for C32: a write of `a` in an environment with two local scopes and a
global `b`. -/
theorem C32_write_then_read_witness :
    ((sampleEnv.setValue "a".toList (.bool true)).getValue "a".toList).1 = .bool true ∧
    ((sampleEnv.setValue "a".toList (.bool true)).getValue "b".toList).1 =
      (sampleEnv.getValue "b".toList).1 ∧
    (sampleEnv.setValue "a".toList (.bool true)).scopeStack.length = 2 :=
  ⟨(C32_write_then_read sampleEnv "a".toList (.bool true)).1,
    (C32_write_then_read sampleEnv "a".toList (.bool true)).2.1 "b".toList (by decide),
    (C32_write_then_read sampleEnv "a".toList (.bool true)).2.2⟩

/-- C33: for operands that are not both `String`, neither of which is a `Float`, and
that are not both `Int`, `<` and `>` evaluate to false and `<=` and `>=` evaluate to
true, without an error. -/
theorem C33_ordering_outside_rules {F : Type} (D : DoubleOps F) (x y : Value F)
    (hs : ¬ (x.type = .STRING ∧ y.type = .STRING)) (hx : x.type ≠ .FLOAT)
    (hy : y.type ≠ .FLOAT) (hi : ¬ (x.type = .INT ∧ y.type = .INT)) :
    Value.lt D x y = .ok false ∧ Value.gt D x y = .ok false ∧
    Value.le D x y = .ok true ∧ Value.ge D x y = .ok true := by
  cases x <;> cases y <;>
    simp_all [Value.lt, Value.gt, Value.le, Value.ge, Value.type, Value.isFloat]

/-- Witness for C33: `None < 1`, `True >= False`, `"a" <= 1` and `() > (None,)`. -/
theorem C33_ordering_outside_rules_witness :
    Value.lt plainHost.double Value.none (.int (BigInt.ofString "1".toList)) = .ok false ∧
    Value.ge plainHost.double (.bool true) (.bool false) = .ok true ∧
    Value.le plainHost.double (.str "a".toList) (.int (BigInt.ofString "1".toList)) =
      .ok true ∧
    Value.gt plainHost.double (.tuple []) (.tuple [Value.none]) = .ok false :=
  ⟨(C33_ordering_outside_rules plainHost.double Value.none
      (.int (BigInt.ofString "1".toList)) (by decide) (by decide) (by decide)
      (by decide)).1,
    (C33_ordering_outside_rules plainHost.double (.bool true) (.bool false) (by decide)
      (by decide) (by decide) (by decide)).2.2.2,
    (C33_ordering_outside_rules plainHost.double (.str "a".toList)
      (.int (BigInt.ofString "1".toList)) (by decide) (by decide) (by decide)
      (by decide)).2.2.1,
    (C33_ordering_outside_rules plainHost.double (.tuple []) (.tuple [Value.none])
      (by decide) (by decide) (by decide) (by decide)).2.1⟩

theorem findFunction_assignFunction {F : Type} (fs : List (List Char × FunctionDef F))
    (name : List Char) (func : FunctionDef F) :
    findFunction (assignFunction fs name func) name = some func := by
  induction fs with
  | nil => simp [assignFunction, findFunction]
  | cons kv rest ih =>
    obtain ⟨k, v⟩ := kv
    by_cases hk : k = name
    · simp [assignFunction, findFunction, hk]
    · simp [assignFunction, findFunction, hk, ih]

/-- C34: evaluating the atom `NAME name` leaves the state unchanged; when no function
is registered under `name` it returns `getValue(name)`; when a function is registered
under `name` it returns the `String` holding `name`, whatever the scopes bind to it; and
the state in which a `def` of `name` has ended is one in which it is registered. -/
theorem C34_name_atom {F : Type} (H : Host F) (visit : Visit F) (name : List Char)
    (st : St F) :
    (findFunction st.functions name = Option.none →
      visitAtom H visit (.NAME name) st = (.ok (st.env.getValue name).1, st)) ∧
    (∀ func : FunctionDef F, findFunction st.functions name = some func →
      visitAtom H visit (.NAME name) st = (.ok (.str name), st)) ∧
    (∀ (visit0 : Visit F) (tfpdefs : List (List Char)) (tests : List Expr)
      (suite : List Stmt) (st0 : St F),
      visitFuncdef visit0 name tfpdefs tests suite st0 = (.ok Value.none, st) →
      visitAtom H visit (.NAME name) st = (.ok (.str name), st)) := by
  have hsome : ∀ func : FunctionDef F, findFunction st.functions name = some func →
      visitAtom H visit (.NAME name) st = (.ok (.str name), st) := by
    intro func hf
    simp [visitAtom, hf]
  refine ⟨?_, hsome, ?_⟩
  · intro hn
    simp [visitAtom, hn, St.getValue, getValue_snd]
  · intro visit0 tfpdefs tests suite st0 hdef
    unfold visitFuncdef at hdef
    rcases hd : defaultsLoop visit0 tests ((tfpdefs.length : Int) - (tests.length : Int))
      tfpdefs 0 [] st0 with ⟨r, st1⟩
    rw [hd] at hdef
    cases r with
    | error e => simp at hdef
    | ok defaults =>
      simp only [Prod.mk.injEq, true_and] at hdef
      apply hsome { params := tfpdefs, defaults := defaults, body := suite }
      rw [← hdef]
      exact findFunction_assignFunction _ _ _

/-- Witness for C34: the global `a` reads as its value, the defined `fact` reads as the
string `fact`, and the program `x = 5`, `def x(): return 1`, `print(x)` prints `x`. -/
theorem C34_name_atom_witness :
    visitAtom plainHost (visit plainHost 5) (.NAME "a".toList) (globalsAB "1" "2") =
      (.ok (.int (BigInt.ofString "1".toList)), globalsAB "1" "2") ∧
    visitAtom plainHost (visit plainHost 5) (.NAME "fact".toList) (factState Unit) =
      (.ok (.str "fact".toList), factState Unit) ∧
    (visitFile_input plainHost 20 functionShadowsVariable).2.out = "x\n".toList :=
  ⟨((C34_name_atom plainHost (visit plainHost 5) "a".toList (globalsAB "1" "2")).1
      (by rfl)).trans (by rfl),
    (C34_name_atom plainHost (visit plainHost 5) "fact".toList (factState Unit)).2.1
      (factDef Unit) (by rfl),
    by rfl⟩

end Evalvisitor
